import Mathlib

/-!
leveldb core primitives: log writer, bytewise comparator, arena.

A shallow embedding of `db/log_writer.cc`, `util/comparator.cc`, `util/arena.{h,cc}`
and the properties stated about them.

Conventions of the embedding
* a byte is a `Fin 256` (a `char` read as `unsigned char`), a byte string is a `List Byte`;
* a `Slice(ptr, n)` is `ptr.take n`, advancing `ptr += n` is `ptr.drop n`;
* the append-only sink records every call it receives and answers each call with a status
  chosen by the environment.
-/

namespace leveldb

/-! ## Definitions -/

/-- A byte: a `char` read as `unsigned char`. -/
abbrev Byte := Fin 256

/-- Conversion `static_cast<char>(n)`: keep the low eight bits. -/
def toByte (n : Nat) : Byte := ⟨n % 256, Nat.mod_lt n (by decide)⟩

/-- The part of `leveldb::Status` that the code looks at: success, or some failure. -/
inductive Status where
  | OK : Status
  | IOError (code : Nat) : Status
deriving DecidableEq, Repr

/-- The test `Status::ok()`. -/
def Status.ok : Status → Bool
  | Status.OK => true
  | Status.IOError _ => false

/-- One call received by the sink. -/
inductive FileCall where
  | Append (data : List Byte) : FileCall
  | Flush : FileCall
deriving DecidableEq, Repr

/-- Modelled from the spec: the append-only sink `WritableFile` (leveldb/env.h is not among
the sources; the spec gives `append(bytes) -> status` and `flush() -> status`).
`calls` is every call received so far, oldest first; `answer k` is the status the
environment returns to call number `k` (counted from 0). -/
structure WritableFile where
  calls : List FileCall
  answer : Nat → Status

/-- The call `dest->Append(data)`. -/
def WritableFile.Append (f : WritableFile) (data : List Byte) : Status × WritableFile :=
  (f.answer f.calls.length, { f with calls := f.calls ++ [FileCall.Append data] })

/-- The call `dest->Flush()`. -/
def WritableFile.Flush (f : WritableFile) : Status × WritableFile :=
  (f.answer f.calls.length, { f with calls := f.calls ++ [FileCall.Flush] })

/-- Number of bytes carried by one call. -/
def FileCall.size : FileCall → Nat
  | FileCall.Append data => data.length
  | FileCall.Flush => 0

/-- Number of bytes handed to the sink by a list of calls: the stream position reached when
every one of them succeeded. -/
def streamSize (cs : List FileCall) : Nat := (cs.map FileCall.size).sum

/-- Modelled from the spec: `EncodeFixed32` (util/coding.cc is not among the sources):
the four bytes of a 32-bit value, least significant first. -/
def EncodeFixed32 (value : Nat) : List Byte :=
  [toByte (value &&& 0xff), toByte ((value >>> 8) &&& 0xff),
   toByte ((value >>> 16) &&& 0xff), toByte ((value >>> 24) &&& 0xff)]

/-- The functions of `util/crc32c.h` used by the log writer, taken as parameters
(crc32c.h and crc32c.cc are not among the sources). -/
structure Crc32c where
  Value : List Byte → Nat
  Extend : Nat → List Byte → Nat
  Mask : Nat → Nat

namespace log

/-- Modelled from the spec: `kBlockSize` of db/log_format.h (block size 32768). -/
def kBlockSize : Nat := 32768

/-- Modelled from the spec: `kHeaderSize` of db/log_format.h (checksum 4, length 2, type 1);
`AddRecord` asserts `kHeaderSize == 7`. -/
def kHeaderSize : Nat := 7

/-- Modelled from the spec: `enum RecordType` of db/log_format.h
(`1`=FULL, `2`=FIRST, `3`=MIDDLE, `4`=LAST; zero is reserved). -/
inductive RecordType where
  | kZeroType : RecordType
  | kFullType : RecordType
  | kFirstType : RecordType
  | kMiddleType : RecordType
  | kLastType : RecordType
deriving DecidableEq, Repr

/-- The numeric tag of a record type. -/
def RecordType.toNat : RecordType → Nat
  | RecordType.kZeroType => 0
  | RecordType.kFullType => 1
  | RecordType.kFirstType => 2
  | RecordType.kMiddleType => 3
  | RecordType.kLastType => 4

/-- Modelled from the spec: `kMaxRecordType = kLastType` of db/log_format.h. -/
def kMaxRecordType : Nat := 4

/-- State of `log::Writer`. -/
structure Writer where
  dest_ : WritableFile
  block_offset_ : Nat
  type_crc_ : List Nat

/-- The constructor `Writer::Writer(dest)`: offset 0 and the crc of every type byte. -/
def Writer.create (crc : Crc32c) (dest : WritableFile) : Writer :=
  { dest_ := dest
    block_offset_ := 0
    type_crc_ := (List.range (kMaxRecordType + 1)).map (fun i => crc.Value [toByte i]) }

/-- The seven header bytes that `EmitPhysicalRecord` formats in `buf`. -/
def formatHeader (crc : Crc32c) (type_crc_ : List Nat) (t : RecordType) (ptr : List Byte)
    (n : Nat) : List Byte :=
  let buf4 := toByte (n &&& 0xff)
  let buf5 := toByte (n >>> 8)
  let buf6 := toByte t.toNat
  let c := crc.Extend (type_crc_.getD t.toNat 0) (ptr.take n)
  let c := crc.Mask c
  EncodeFixed32 c ++ [buf4, buf5, buf6]

/-- The method `Writer::EmitPhysicalRecord(t, ptr, n)`. -/
def EmitPhysicalRecord (crc : Crc32c) (w : Writer) (t : RecordType) (ptr : List Byte)
    (n : Nat) : Status × Writer :=
  let buf := formatHeader crc w.type_crc_ t ptr n
  let r1 := w.dest_.Append buf
  let r2 := if r1.1.ok then r1.2.Append (ptr.take n) else r1
  let r3 := if r1.1.ok && r2.1.ok then r2.2.Flush else r2
  (r3.1, { w with dest_ := r3.2, block_offset_ := w.block_offset_ + kHeaderSize + n })

/-- History entry: one call of `EmitPhysicalRecord` made by `AddRecord`. -/
structure Emission where
  /-- the type passed to the call -/
  t : RecordType
  /-- the fragment `Slice(ptr, n)` passed to the call -/
  payload : List Byte
  /-- the value of `block_offset_` when the call was made -/
  block_offset : Nat
  /-- the number of bytes handed to the sink before the call -/
  position : Nat
  /-- the number of calls the sink had received before the call -/
  first_call : Nat
  /-- the sink calls issued by the call -/
  writes : List FileCall
deriving DecidableEq, Repr

/-- The first half of one loop iteration of `AddRecord`: switch to a new block when fewer
than `kHeaderSize` bytes are left in the current one. The status of the padding `Append`
is dropped, as in the source. -/
def switchBlock (w : Writer) : Writer :=
  let leftover : Int := (kBlockSize : Int) - (w.block_offset_ : Int)
  if leftover < (kHeaderSize : Int) then
    { w with
      dest_ := if leftover > 0 then
          (w.dest_.Append ((List.replicate 6 (0 : Byte)).take leftover.toNat)).2
        else w.dest_
      block_offset_ := 0 }
  else w

/-- The value of `fragment_length` in one iteration, for the writer after `switchBlock`. -/
def fragmentLength (w1 : Writer) (left : Nat) : Nat :=
  let avail : Nat := ((kBlockSize : Int) - (w1.block_offset_ : Int) - (kHeaderSize : Int)).toNat
  if left < avail then left else avail

/-- The record type chosen in one iteration. -/
def chooseType ( begin : Bool) (end_ : Bool) : RecordType :=
  if begin && end_ then RecordType.kFullType
  else if begin then RecordType.kFirstType
  else if end_ then RecordType.kLastType
  else RecordType.kMiddleType

/-- The writer after one whole loop iteration and the status of its `EmitPhysicalRecord`. -/
def iteration (crc : Crc32c) (w : Writer) (ptr : List Byte) ( begin : Bool) : Status × Writer :=
  let w1 := switchBlock w
  let left := ptr.length
  let fragment_length := fragmentLength w1 left
  let end_ : Bool := (left == fragment_length)
  EmitPhysicalRecord crc w1 (chooseType begin end_) ptr fragment_length

/-- History entry of one loop iteration. -/
def iterationEmission (crc : Crc32c) (w : Writer) (ptr : List Byte) ( begin : Bool) : Emission :=
  let w1 := switchBlock w
  let left := ptr.length
  let fragment_length := fragmentLength w1 left
  let end_ : Bool := (left == fragment_length)
  { t := chooseType begin end_
    payload := ptr.take fragment_length
    block_offset := w1.block_offset_
    position := streamSize w1.dest_.calls
    first_call := w1.dest_.calls.length
    writes := (iteration crc w ptr begin).2.dest_.calls.drop w1.dest_.calls.length }

/-- The `do … while (s.ok() && left > 0)` loop of `AddRecord`: `ptr` is the part of the
record not yet written (`left` is its length). Returns the last status, the writer, and the
history of `EmitPhysicalRecord` calls. -/
def AddRecord.loop (crc : Crc32c) (w : Writer) (ptr : List Byte) ( begin : Bool) :
    Status × Writer × List Emission :=
  let r := iteration crc w ptr begin
  let fragment_length := fragmentLength (switchBlock w) ptr.length
  if r.1.ok = true ∧ 0 < ptr.length - fragment_length then
    let rest := AddRecord.loop crc r.2 (ptr.drop fragment_length) false
    (rest.1, rest.2.1, iterationEmission crc w ptr begin :: rest.2.2)
  else
    (r.1, r.2, [iterationEmission crc w ptr begin])
termination_by 2 * ptr.length + (if w.block_offset_ = 32761 then 1 else 0)
decreasing_by
  rename_i h
  have h2 := h.2
  simp only [iteration, EmitPhysicalRecord, fragmentLength, switchBlock, kBlockSize, kHeaderSize,
    List.length_drop] at h2 ⊢
  split_ifs at h2 ⊢ <;> push_cast at * <;> omega

/-- The method `Writer::AddRecord(slice)`: status returned, writer afterwards, and the
history of the physical records emitted by the call. -/
def AddRecord (crc : Crc32c) (w : Writer) (slice : List Byte) : Status × Writer × List Emission :=
  AddRecord.loop crc w slice true

/-- A client that calls `AddRecord` on each record of a list in turn; returns the writer
afterwards and the history of all physical records emitted. -/
def AddRecords (crc : Crc32c) (w : Writer) : List (List Byte) → Writer × List Emission
  | [] => (w, [])
  | slice :: more =>
    let a := AddRecord crc w slice
    let b := AddRecords crc a.2.1 more
    (b.1, a.2.2 ++ b.2)

/-- Every call the sink receives from now on succeeds. -/
def healthy (f : WritableFile) : Prop := ∀ k, f.calls.length ≤ k → f.answer k = Status.OK

/-- The law of `crc32c::Extend` stated in crc32c.h: extending the crc of a string `a` by the
bytes `b` gives the crc of `a` followed by `b`. -/
def ExtendLaw (crc : Crc32c) : Prop := ∀ a b, crc.Extend (crc.Value a) b = crc.Value (a ++ b)

/-- A small checksum with the interface of crc32c, used to instantiate the parameters. -/
def sumCrc : Crc32c :=
  { Value := fun d => (d.map Fin.val).sum % 2 ^ 32
    Extend := fun c d => (c + (d.map Fin.val).sum) % 2 ^ 32
    Mask := fun c => (((c >>> 15) ||| (c <<< 17)) + 0xa282ead8) % 2 ^ 32 }

/-- A sink that has received nothing and to which the environment answers with `answer`. -/
def emptyFile (answer : Nat → Status) : WritableFile := { calls := [], answer := answer }

/-- A writer on an empty sink that always succeeds, placed at a given block offset. -/
def writerAt (crc : Crc32c) (block_offset : Nat) : Writer :=
  { Writer.create crc (emptyFile (fun _ => Status.OK)) with block_offset_ := block_offset }

/-- The stream position and the block offset agree modulo the block size, and the block
offset does not pass the end of the block. -/
def aligned (w : Writer) : Prop :=
  w.block_offset_ ≤ kBlockSize ∧ streamSize w.dest_.calls % kBlockSize = w.block_offset_ % kBlockSize

/-- The layout claimed for the header `buf` of a physical record of type `t` with payload
`payload`: length in bytes 4 and 5 (little-endian), type tag in byte 6, and in bytes 0 to 3
the fixed32 encoding of the masked crc of the type byte followed by the payload. -/
def headerFormat (crc : Crc32c) (t : RecordType) (payload buf : List Byte) : Prop :=
  buf.length = kHeaderSize ∧
  (buf.getD 4 0).val + 256 * (buf.getD 5 0).val = payload.length ∧
  (buf.getD 6 0).val = t.toNat ∧
  buf.take 4 = EncodeFixed32 (crc.Mask (crc.Value (toByte t.toNat :: payload)))

/-- An environment in which sink call number 3 fails and every other call succeeds. -/
def failsAtThree : Nat → Status := fun k => if k = 3 then Status.IOError 5 else Status.OK

/-- A record of 32758 bytes: added to a new writer it leaves three bytes in the first block. -/
def longRecord : List Byte := List.replicate 32758 1

end log

namespace BytewiseComparatorImpl

/-- Modelled from the spec: `Slice::compare` (leveldb/slice.h is not among the sources):
lexicographic comparison of the bytes read as unsigned values; on a shared prefix the
shorter string is the smaller. -/
def Compare : List Byte → List Byte → Ordering
  | [], [] => Ordering.eq
  | [], _ :: _ => Ordering.lt
  | _ :: _, [] => Ordering.gt
  | a :: as, b :: bs =>
    if a.val < b.val then Ordering.lt
    else if b.val < a.val then Ordering.gt
    else Compare as bs

/-- The loop `while ((diff_index < min_length) && ((*start)[diff_index] == limit[diff_index]))
diff_index++;` of `FindShortestSeparator`; returns the final `diff_index`. -/
def FindShortestSeparator.loop (start limit : List Byte) (min_length : Nat) (diff_index : Nat) :
    Nat :=
  if diff_index < min_length ∧ start.getD diff_index 0 = limit.getD diff_index 0 then
    FindShortestSeparator.loop start limit min_length (diff_index + 1)
  else diff_index
termination_by min_length - diff_index

/-- The method `FindShortestSeparator(start, limit)`; returns the new value of `*start`. -/
def FindShortestSeparator (start limit : List Byte) : List Byte :=
  let min_length := min start.length limit.length
  let diff_index := FindShortestSeparator.loop start limit min_length 0
  if diff_index ≥ min_length then
    start
  else
    let diff_byte := start.getD diff_index 0
    if diff_byte.val < 0xff ∧ diff_byte.val + 1 < (limit.getD diff_index 0).val then
      (start.set diff_index (start.getD diff_index 0 + 1)).take (diff_index + 1)
    else start

/-- The loop `for (size_t i = 0; i < n; i++)` of `FindShortSuccessor`, entered at index `i`;
returns the value of `*key` when the method returns. -/
def FindShortSuccessor.loop (key : List Byte) (n : Nat) (i : Nat) : List Byte :=
  if i < n then
    let byte := key.getD i 0
    if byte ≠ 0xff then
      (key.set i (byte + 1)).take (i + 1)
    else FindShortSuccessor.loop key n (i + 1)
  else key
termination_by n - i

/-- The method `FindShortSuccessor(key)`; returns the new value of `*key`. -/
def FindShortSuccessor (key : List Byte) : List Byte :=
  FindShortSuccessor.loop key key.length 0

/-- List-recursive form of `FindShortSuccessor` (proved equal to it): increment the first byte
that is not 0xff and cut the string there. -/
def successorOf : List Byte → List Byte
  | [] => []
  | b :: rest => if b ≠ 0xff then [b + 1] else b :: successorOf rest

/-- List-recursive form of `FindShortestSeparator` (proved equal to it). -/
def separatorOf : List Byte → List Byte → List Byte
  | a :: as, b :: bs =>
    if a = b then a :: separatorOf as bs
    else if a.val < 0xff ∧ a.val + 1 < b.val then [a + 1]
    else a :: as
  | s, _ => s

end BytewiseComparatorImpl

namespace arena

/-- The constant `kBlockSize = 4096` of arena.cc. -/
def kBlockSize : Nat := 4096

/-- Number of values of `size_t` (a 64-bit platform): arithmetic on `size_t` is taken modulo
this number. -/
def sizeModulus : Nat := 2 ^ 64

/-- The value of `sizeof(void*)` (a 64-bit platform). -/
def sizeofPointer : Nat := 8

/-- An array obtained from `new char[size]`: its first address and its size. -/
structure Block where
  base : Nat
  size : Nat
deriving DecidableEq, Repr

/-- State of an `Arena`. Pointers are addresses; `blocks_` holds every array obtained from
`new[]`, oldest first, each with the size it was allocated with. -/
structure Arena where
  alloc_ptr_ : Nat
  alloc_bytes_remaining_ : Nat
  blocks_ : List Block
  blocks_memory_ : Nat
deriving DecidableEq, Repr

/-- The constructor `Arena::Arena()`; `NULL` is address 0. -/
def Arena.create : Arena :=
  { alloc_ptr_ := 0, alloc_bytes_remaining_ := 0, blocks_ := [], blocks_memory_ := 0 }

/-- The method `Arena::AllocateNewBlock(block_bytes)`; `fresh` is the address that
`new char[block_bytes]` returns. -/
def AllocateNewBlock (a : Arena) (fresh : Nat) (block_bytes : Nat) : Nat × Arena :=
  let result := fresh
  (result, { a with
    blocks_memory_ := (a.blocks_memory_ + block_bytes) % sizeModulus
    blocks_ := a.blocks_ ++ [{ base := result, size := block_bytes }] })

/-- The method `Arena::AllocateFallback(bytes)`. -/
def AllocateFallback (a : Arena) (fresh : Nat) (bytes : Nat) : Nat × Arena :=
  if bytes > kBlockSize / 4 then
    AllocateNewBlock a fresh bytes
  else
    let r := AllocateNewBlock a fresh kBlockSize
    let a1 : Arena := { r.2 with alloc_ptr_ := r.1, alloc_bytes_remaining_ := kBlockSize }
    let result := a1.alloc_ptr_
    (result, { a1 with
      alloc_ptr_ := a1.alloc_ptr_ + bytes
      alloc_bytes_remaining_ := a1.alloc_bytes_remaining_ - bytes })

/-- The method `Arena::Allocate(bytes)` (its assertion `bytes > 0` is a precondition). -/
def Allocate (a : Arena) (fresh : Nat) (bytes : Nat) : Nat × Arena :=
  if bytes ≤ a.alloc_bytes_remaining_ then
    let result := a.alloc_ptr_
    (result, { a with
      alloc_ptr_ := a.alloc_ptr_ + bytes
      alloc_bytes_remaining_ := a.alloc_bytes_remaining_ - bytes })
  else AllocateFallback a fresh bytes

/-- The method `Arena::AllocateAligned(bytes)`. -/
def AllocateAligned (a : Arena) (fresh : Nat) (bytes : Nat) : Nat × Arena :=
  let align := if sizeofPointer > 8 then sizeofPointer else 8
  let current_mod := a.alloc_ptr_ &&& (align - 1)
  let slop := if current_mod = 0 then 0 else align - current_mod
  let needed := (bytes + slop) % sizeModulus
  if needed ≤ a.alloc_bytes_remaining_ then
    let result := a.alloc_ptr_ + slop
    (result, { a with
      alloc_ptr_ := a.alloc_ptr_ + needed
      alloc_bytes_remaining_ := a.alloc_bytes_remaining_ - needed })
  else AllocateFallback a fresh bytes

/-- One call made by a client of the arena. `fresh` is the address the underlying allocator
returns if the call asks it for a new array. -/
structure Request where
  aligned : Bool
  bytes : Nat
  fresh : Nat
deriving DecidableEq, Repr

/-- A returned allocation: the pointer returned and the number of bytes requested. -/
structure Allocation where
  result : Nat
  bytes : Nat
deriving DecidableEq, Repr

/-- Perform one request. -/
def perform (a : Arena) (r : Request) : Nat × Arena :=
  if r.aligned then AllocateAligned a r.fresh r.bytes else Allocate a r.fresh r.bytes

/-- Perform a list of requests in order, from arena `a`; returns the arena afterwards and the
allocations returned, oldest first. -/
def run (a : Arena) : List Request → Arena × List Allocation
  | [] => (a, [])
  | r :: rest =>
    let p := perform a r
    let q := run p.2 rest
    (q.1, { result := p.1, bytes := r.bytes } :: q.2)

/-- Two arrays do not overlap. -/
def Block.disjoint (b c : Block) : Prop := b.base + b.size ≤ c.base ∨ c.base + c.size ≤ b.base

instance (b c : Block) : Decidable (Block.disjoint b c) := by
  unfold Block.disjoint; infer_instance

/-- The bytes of an allocation lie inside an array. -/
def Allocation.inside (x : Allocation) (b : Block) : Prop :=
  b.base ≤ x.result ∧ x.result + x.bytes ≤ b.base + b.size

instance (x : Allocation) (b : Block) : Decidable (Allocation.inside x b) := by
  unfold Allocation.inside; infer_instance

/-- Two allocations do not overlap. -/
def Allocation.disjoint (x y : Allocation) : Prop :=
  x.result + x.bytes ≤ y.result ∨ y.result + y.bytes ≤ x.result

instance (x y : Allocation) : Decidable (Allocation.disjoint x y) := by
  unfold Allocation.disjoint; infer_instance

/-- The requests of the counterexample: one byte, then an aligned request of `SIZE_MAX` bytes,
then two bytes. -/
def wrapRequests : List Request :=
  [{ aligned := false, bytes := 1, fresh := 4096 },
   { aligned := true, bytes := 2 ^ 64 - 1, fresh := 8192 },
   { aligned := false, bytes := 2, fresh := 8192 }]

/-- A request in range: a positive size, and for an aligned request a size that leaves room
in `size_t` for the padding of at most seven bytes (`bytes + slop` does not wrap around). -/
def Request.inRange (r : Request) : Prop :=
  0 < r.bytes ∧ (r.aligned = true → r.bytes + 7 < sizeModulus)

/-- Requests of a run that stays in range: a small allocation, an aligned one, a large one
that gets an array of its own, three that use up the first standard array, and one that
needs a second standard array. -/
def sampleRequests : List Request :=
  [{ aligned := false, bytes := 1, fresh := 4096 },
   { aligned := true, bytes := 16, fresh := 0 },
   { aligned := false, bytes := 5000, fresh := 8192 },
   { aligned := false, bytes := 1024, fresh := 0 },
   { aligned := false, bytes := 1024, fresh := 0 },
   { aligned := false, bytes := 1024, fresh := 0 },
   { aligned := true, bytes := 1024, fresh := 16384 }]

instance (r : Request) : Decidable r.inRange := by
  unfold Request.inRange; infer_instance

/-- What holds of an arena `a` and the allocations `prev` it has returned so far. -/
def Inv (a : Arena) (prev : List Allocation) : Prop :=
  (∀ x ∈ prev, ∃ b ∈ a.blocks_, x.inside b) ∧
  prev.Pairwise Allocation.disjoint ∧
  (∀ x ∈ prev, a.alloc_bytes_remaining_ = 0 ∨ x.result + x.bytes ≤ a.alloc_ptr_ ∨
    a.alloc_ptr_ + a.alloc_bytes_remaining_ ≤ x.result) ∧
  (a.alloc_bytes_remaining_ = 0 ∨
    ∃ b ∈ a.blocks_, b.base ≤ a.alloc_ptr_ ∧
      a.alloc_ptr_ + a.alloc_bytes_remaining_ ≤ b.base + b.size)

end arena

namespace arena

/-- The value of `align` in `AllocateAligned`: the larger of `sizeof(void*)` and 8. -/
def alignment : Nat := if sizeofPointer > 8 then sizeofPointer else 8

/-- The method `Arena::MemoryUsage()`; `capacity` is the value of `blocks_.capacity()`, which
the standard library chooses. -/
def MemoryUsage (a : Arena) (capacity : Nat) : Nat :=
  (a.blocks_memory_ + capacity * sizeofPointer) % sizeModulus

/-- The sum of the sizes requested by a list of requests. -/
def requestedBytes (reqs : List Request) : Nat := (reqs.map Request.bytes).sum

/-- The total size of a list of arrays. -/
def totalSize (bs : List Block) : Nat := (bs.map Block.size).sum

/-- An aligned request leaves room in `size_t` for its padding. -/
def Request.fits (r : Request) : Prop := r.aligned = true → r.bytes + 7 < sizeModulus

instance (r : Request) : Decidable r.fits := by
  unfold Request.fits; infer_instance

/-- Requests whose sizes sum to more than the arena ever obtains: one byte, then an aligned
request of `SIZE_MAX - 6` bytes, for which `bytes + slop` wraps around to 0. -/
def hugeRequests : List Request :=
  [{ aligned := false, bytes := 1, fresh := 4096 },
   { aligned := true, bytes := 2 ^ 64 - 7, fresh := 8192 }]

/-- The bookkeeping of `blocks_memory_`: it is the total size of the arrays, in `size_t`. -/
def Counted (a : Arena) : Prop := a.blocks_memory_ = totalSize a.blocks_ % sizeModulus

/-- The bytes handed out so far and the bytes still free in the current array fit in the
arrays obtained. -/
def Accounted (a : Arena) (served : Nat) : Prop :=
  served + a.alloc_bytes_remaining_ ≤ totalSize a.blocks_

end arena

/-- What `memcpy(&result, ptr, n)` loads into an unsigned integer of `n` bytes on a host for
which `port::kLittleEndian` holds: the first byte is the least significant. -/
def loadLittleEndian : Nat → List Byte → Nat
  | 0, _ => 0
  | n + 1, ptr => (ptr.getD 0 0).val + 256 * loadLittleEndian n (ptr.drop 1)

/-- The function `DecodeFixed32(ptr)` of coding.h; `kLittleEndian` is the constant
`port::kLittleEndian` (port/port.h is not among the sources). -/
def DecodeFixed32 (kLittleEndian : Bool) (ptr : List Byte) : Nat :=
  if kLittleEndian then
    loadLittleEndian 4 ptr
  else
    (ptr.getD 0 0).val ||| ((ptr.getD 1 0).val <<< 8) ||| ((ptr.getD 2 0).val <<< 16)
      ||| ((ptr.getD 3 0).val <<< 24)

/-- The function `DecodeFixed64(ptr)` of coding.h. -/
def DecodeFixed64 (kLittleEndian : Bool) (ptr : List Byte) : Nat :=
  if kLittleEndian then
    loadLittleEndian 8 ptr
  else
    let lo := DecodeFixed32 kLittleEndian ptr
    let hi := DecodeFixed32 kLittleEndian (ptr.drop 4)
    (hi <<< 32) ||| lo

/-- Modelled from the spec: `EncodeFixed64` (util/coding.cc is not among the sources):
the eight bytes of a 64-bit value, least significant first. -/
def EncodeFixed64 (value : Nat) : List Byte :=
  [toByte (value &&& 0xff), toByte ((value >>> 8) &&& 0xff),
   toByte ((value >>> 16) &&& 0xff), toByte ((value >>> 24) &&& 0xff),
   toByte ((value >>> 32) &&& 0xff), toByte ((value >>> 40) &&& 0xff),
   toByte ((value >>> 48) &&& 0xff), toByte ((value >>> 56) &&& 0xff)]

namespace log

/-- What a history entry tells of a record: type, payload and block offset. -/
def Emission.summary (e : Emission) : RecordType × List Byte × Nat :=
  (e.t, e.payload, e.block_offset)

end log

namespace snapshot

/-- A `SnapshotImpl` object. Pointers are addresses; `number_` is a `SequenceNumber`. -/
structure SnapshotImpl where
  number_ : Nat
  prev_ : Nat
  next_ : Nat
  list_ : Nat
deriving DecidableEq, Repr, Inhabited

/-- A `SnapshotList` at address `this`, with the memory that holds its nodes. The dummy head
`list_` is the only member of the list object, so its address `&list_` is `this`. -/
structure SnapshotList where
  this : Nat
  mem : Nat → SnapshotImpl

/-- The assignment `p->next_ = v`. -/
def setNext (mem : Nat → SnapshotImpl) (p v : Nat) : Nat → SnapshotImpl :=
  fun a => if a = p then { mem a with next_ := v } else mem a

/-- The assignment `p->prev_ = v`. -/
def setPrev (mem : Nat → SnapshotImpl) (p v : Nat) : Nat → SnapshotImpl :=
  fun a => if a = p then { mem a with prev_ := v } else mem a

/-- The assignment `p->number_ = v`. -/
def setNumber (mem : Nat → SnapshotImpl) (p v : Nat) : Nat → SnapshotImpl :=
  fun a => if a = p then { mem a with number_ := v } else mem a

/-- The assignment `p->list_ = v`. -/
def setList (mem : Nat → SnapshotImpl) (p v : Nat) : Nat → SnapshotImpl :=
  fun a => if a = p then { mem a with list_ := v } else mem a

/-- The constructor `SnapshotList()` for a list object at address `this`, in memory `mem`. -/
def SnapshotList.create (this : Nat) (mem : Nat → SnapshotImpl) : SnapshotList :=
  let m1 := setPrev mem this this
  let m2 := setNext m1 this this
  { this := this, mem := m2 }

/-- The method `empty()`. -/
def SnapshotList.empty (l : SnapshotList) : Bool := (l.mem l.this).next_ == l.this

/-- The method `oldest()` (its assertion `!empty()` is a precondition). -/
def SnapshotList.oldest (l : SnapshotList) : Nat := (l.mem l.this).next_

/-- The method `newest()` (its assertion `!empty()` is a precondition). -/
def SnapshotList.newest (l : SnapshotList) : Nat := (l.mem l.this).prev_

/-- The method `New(seq)`; `s` is the address that `new SnapshotImpl` returns. Returns the
handle and the list afterwards. -/
def SnapshotList.New (l : SnapshotList) (s : Nat) (seq : Nat) : Nat × SnapshotList :=
  let m1 := setNumber l.mem s seq
  let m2 := setList m1 s l.this
  let m3 := setNext m2 s l.this
  let m4 := setPrev m3 s (m3 l.this).prev_
  let m5 := setNext m4 (m4 s).prev_ s
  let m6 := setPrev m5 (m5 s).next_ s
  (s, { l with mem := m6 })

/-- The method `Delete(s)` (its assertion `s->list_ == this` is a precondition). -/
def SnapshotList.Delete (l : SnapshotList) (s : Nat) : SnapshotList :=
  let m1 := setNext l.mem (l.mem s).prev_ (l.mem s).next_
  let m2 := setPrev m1 (m1 s).next_ (m1 s).prev_
  { l with mem := m2 }

/-- One operation of a client: `New(seq)`, for which `new` returns the address `fresh`, or
`Delete(s)`. -/
inductive Op where
  | New (seq : Nat) (fresh : Nat) : Op
  | Delete (s : Nat) : Op
deriving DecidableEq, Repr

/-- Perform one operation. -/
def perform (l : SnapshotList) : Op → SnapshotList
  | Op.New seq fresh => (l.New fresh seq).2
  | Op.Delete s => l.Delete s

/-- Perform a list of operations in order. -/
def runOps (l : SnapshotList) : List Op → SnapshotList
  | [] => l
  | op :: rest => runOps (perform l op) rest

/-- The live snapshots after one more operation, as pairs of handle and sequence number in
order of creation. -/
def liveStep (live : List (Nat × Nat)) : Op → List (Nat × Nat)
  | Op.New seq fresh => live ++ [(fresh, seq)]
  | Op.Delete s => live.filter (fun p => p.1 ≠ s)

/-- The live snapshots (created and not yet deleted) after a list of operations. -/
def liveAfter (live : List (Nat × Nat)) : List Op → List (Nat × Nat)
  | [] => live
  | op :: rest => liveAfter (liveStep live op) rest

/-- The operations respect the contract of the list at address `this`: `new` returns an
address that is neither the list nor a live snapshot, and `Delete` is given a live handle. -/
def validOps (this : Nat) (live : List (Nat × Nat)) : List Op → Prop
  | [] => True
  | Op.New seq fresh :: rest =>
    fresh ≠ this ∧ fresh ∉ live.map Prod.fst ∧ validOps this (liveStep live (Op.New seq fresh)) rest
  | Op.Delete s :: rest =>
    s ∈ live.map Prod.fst ∧ validOps this (liveStep live (Op.Delete s)) rest

/-- Every `New` is called with a sequence number at least `hi` and at least every sequence
number passed to an earlier `New`. -/
def monotoneOps (hi : Nat) : List Op → Prop
  | [] => True
  | Op.New seq _ :: rest => hi ≤ seq ∧ monotoneOps seq rest
  | Op.Delete _ :: rest => monotoneOps hi rest

instance (this : Nat) (live : List (Nat × Nat)) (ops : List Op) :
    Decidable (validOps this live ops) := by
  induction ops generalizing live with
  | nil => exact isTrue trivial
  | cons op rest ih =>
    cases op with
    | New seq fresh => unfold validOps; exact instDecidableAnd
    | Delete s => unfold validOps; exact instDecidableAnd

instance (hi : Nat) (ops : List Op) : Decidable (monotoneOps hi ops) := by
  induction ops generalizing hi with
  | nil => exact isTrue trivial
  | cons op rest ih =>
    cases op with
    | New seq fresh => unfold monotoneOps; exact instDecidableAnd
    | Delete s => unfold monotoneOps; exact ih hi

/-- The nodes `xs` are linked in order between `p` and `q`: following `next_` from `p`
visits `xs` and then `q`, and `prev_` leads back. -/
def linked (mem : Nat → SnapshotImpl) : Nat → List Nat → Nat → Prop
  | p, [], q => (mem p).next_ = q ∧ (mem q).prev_ = p
  | p, x :: xs, q => (mem p).next_ = x ∧ (mem x).prev_ = p ∧ linked mem x xs q

/-- The list object represents the live snapshots `live`: its nodes are linked in the order
of creation in a circle through the dummy head, the handles are distinct and differ from the
dummy head, and each node holds its sequence number. -/
def Rep (l : SnapshotList) (live : List (Nat × Nat)) : Prop :=
  linked l.mem l.this (live.map Prod.fst) l.this ∧ (live.map Prod.fst).Nodup ∧
  l.this ∉ live.map Prod.fst ∧ ∀ p ∈ live, (l.mem p.1).number_ = p.2

/-- The sequence numbers of the live snapshots are in non-decreasing order of creation and
none is above `hi`. -/
def Ordered (live : List (Nat × Nat)) (hi : Nat) : Prop :=
  (live.map Prod.snd).Pairwise (· ≤ ·) ∧ ∀ q ∈ live.map Prod.snd, q ≤ hi

/-- Six operations: three snapshots are created, the first is deleted, a fourth is created at
the address of the first, and the third is deleted. -/
def sampleOps : List Op :=
  [Op.New 5 100, Op.New 7 200, Op.New 7 300, Op.Delete 100, Op.New 9 100, Op.Delete 300]

end snapshot

namespace table

/-- Modelled from the spec: the bytes of a varint (coding.cc is not among the sources): the
value is split into 7-bit groups, least significant group first, and every byte but the last
has its high bit set. At most `more` bytes follow the first one. -/
def PutVarint32.groups : Nat → Nat → List Byte
  | 0, v => [toByte v]
  | more + 1, v =>
    if v < 128 then [toByte v] else toByte (v % 128 + 128) :: PutVarint32.groups more (v / 128)

/-- Modelled from the spec: `PutVarint32(dst, value)`, declared in coding.h (coding.cc is not
among the sources). The parameter is a `uint32_t`, so a larger number is narrowed to its low
32 bits; the encoding has 1 to 5 bytes (`ceil(32 / 7) = 5`). -/
def PutVarint32 (value : Nat) : List Byte :=
  PutVarint32.groups 4 (value % 2 ^ 32)

/-- Modelled from the spec: reading the groups of a varint from the front of `input`, at most
`n` of them: `none` when the input ends before the last group or when `n` groups have been
read and the last of them still has its high bit set. -/
def GetVarint32.groups : Nat → List Byte → Option (Nat × List Byte)
  | 0, _ => none
  | _ + 1, [] => none
  | n + 1, b :: rest =>
    if b.val < 128 then some (b.val, rest)
    else
      match GetVarint32.groups n rest with
      | none => none
      | some (v, r) => some (b.val - 128 + 128 * v, r)

/-- Modelled from the spec: `GetVarint32(input, value)`, declared in coding.h (coding.cc is
not among the sources): decoding fails when the input ends before the last group or when
more than 5 groups, the maximum for 32 bits, would be read; the value is a `uint32_t`.
Returns the value and the input left. -/
def GetVarint32 (input : List Byte) : Option (Nat × List Byte) :=
  match GetVarint32.groups 5 input with
  | none => none
  | some (v, r) => some (v % 2 ^ 32, r)

/-- The length of the common prefix of two byte strings. -/
def sharedPrefixLength : List Byte → List Byte → Nat
  | a :: as, b :: bs => if a = b then sharedPrefixLength as bs + 1 else 0
  | _, _ => 0

/-- State of a `BlockBuilder`; `block_restart_interval` is the field of `*options_` that the
builder reads. -/
structure BlockBuilder where
  block_restart_interval : Nat
  buffer_ : List Byte
  restarts_ : List Nat
  counter_ : Nat
  finished_ : Bool
  last_key_ : List Byte

/-- Modelled from the spec: the constructor of `BlockBuilder` (block_builder.cc is not among
the sources): empty buffer, the restart point 0, no entry since the last restart. -/
def BlockBuilder.create (block_restart_interval : Nat) : BlockBuilder :=
  { block_restart_interval := block_restart_interval, buffer_ := [], restarts_ := [0],
    counter_ := 0, finished_ := false, last_key_ := [] }

/-- Modelled from the spec: the entry that `BlockBuilder::Add(key, value)` appends
(block_builder.cc is not among the sources). The shared prefix is taken with the previous
key, or is 0 when the entry starts a new restart interval, in which case the current buffer
offset becomes a restart point; the entry is varint(shared), varint(non_shared),
varint(value length), the key suffix and the value, the three numbers passed to
`PutVarint32`. -/
def BlockBuilder.append (b : BlockBuilder) (key value : List Byte) : BlockBuilder :=
  let restart : Bool := decide (¬ b.counter_ < b.block_restart_interval)
  let shared := if restart then 0 else sharedPrefixLength b.last_key_ key
  let restarts := if restart then b.restarts_ ++ [b.buffer_.length] else b.restarts_
  let counter := if restart then 0 else b.counter_
  let non_shared := key.length - shared
  { b with
    buffer_ := b.buffer_ ++ (PutVarint32 shared ++ PutVarint32 non_shared
      ++ PutVarint32 value.length ++ key.drop shared ++ value)
    restarts_ := restarts
    counter_ := counter + 1
    last_key_ := key }

/-- Modelled from the spec: `BlockBuilder::Add(key, value)` (block_builder.cc is not among the
sources). The call requires that `Finish` has not been called and that `key` compares
strictly greater than the key added last, under the bytewise comparator; `none` is the
failed precondition. -/
def BlockBuilder.Add (b : BlockBuilder) (key value : List Byte) : Option BlockBuilder :=
  if b.finished_ = false ∧
      (b.buffer_ = [] ∨ BytewiseComparatorImpl.Compare key b.last_key_ = Ordering.gt) then
    some (b.append key value)
  else none

/-- Modelled from the spec: `BlockBuilder::Finish()` (block_builder.cc is not among the
sources): after the entries, every restart offset as a fixed32 and then the number of
restart points as a fixed32. Returns the builder and the block contents. -/
def BlockBuilder.Finish (b : BlockBuilder) : BlockBuilder × List Byte :=
  let buffer := b.buffer_ ++ (b.restarts_.map EncodeFixed32).flatten
    ++ EncodeFixed32 b.restarts_.length
  ({ b with buffer_ := buffer, finished_ := true }, buffer)

/-- A client that adds the pairs in order. -/
def BlockBuilder.addAll (b : BlockBuilder) : List (List Byte × List Byte) → Option BlockBuilder
  | [] => some b
  | p :: rest =>
    match b.Add p.1 p.2 with
    | none => none
    | some b1 => b1.addAll rest

/-- Reading entries written with the shared-prefix encoding until the input is used up;
`prev` is the key of the entry before, `fuel` bounds the number of entries. -/
def parseEntries : Nat → List Byte → List Byte → Option (List (List Byte × List Byte))
  | _, _, [] => some []
  | 0, _, _ :: _ => none
  | fuel + 1, prev, b :: input =>
    match GetVarint32 (b :: input) with
    | none => none
    | some (shared, r1) =>
      match GetVarint32 r1 with
      | none => none
      | some (non_shared, r2) =>
        match GetVarint32 r2 with
        | none => none
        | some (value_length, r3) =>
          if r3.length < non_shared + value_length then none
          else
            let key := prev.take shared ++ r3.take non_shared
            let value := (r3.drop non_shared).take value_length
            match parseEntries fuel key (r3.drop (non_shared + value_length)) with
            | none => none
            | some more => some ((key, value) :: more)

/-- Reading the entries of a block that has `num_restarts` restart points: the trailer of
`num_restarts` offsets and the count is left out and the entries are read in order. -/
def readEntries (num_restarts : Nat) (block : List Byte) :
    Option (List (List Byte × List Byte)) :=
  let trailer := 4 * (num_restarts + 1)
  if block.length < trailer then none
  else
    let entries := block.take (block.length - trailer)
    parseEntries entries.length [] entries

/-- Reading a block back from its bytes alone: the last four bytes give the number of
restart points. -/
def parseBlock (kLittleEndian : Bool) (block : List Byte) :
    Option (List (List Byte × List Byte)) :=
  if block.length < 4 then none
  else readEntries (DecodeFixed32 kLittleEndian (block.drop (block.length - 4))) block

/-- The keys of the pairs are strictly increasing in the bytewise order. -/
def increasing (pairs : List (List Byte × List Byte)) : Prop :=
  pairs.Chain' (fun p q => BytewiseComparatorImpl.Compare p.1 q.1 = Ordering.lt)

/-- The pairs with keys `""`, `00`, `00 00`, … (`n` keys) and empty values. -/
def growingPairs (n : Nat) : List (List Byte × List Byte) :=
  (List.range n).map (fun i => (List.replicate i (0 : Byte), []))

/-- One entry, as `Add` writes it for a key with the given shared length. -/
def entryBytes (shared : Nat) (key value : List Byte) : List Byte :=
  PutVarint32 shared ++ PutVarint32 (key.length - shared) ++ PutVarint32 value.length
    ++ key.drop shared ++ value

/-- The pairs of the scenario of the spec: keys `a`, `ab`, `abc`, `b` with values `1` to `4`. -/
def samplePairs : List (List Byte × List Byte) :=
  [([97], [49]), ([97, 98], [50]), ([97, 98, 99], [51]), ([98], [52])]

/-- A value of 2^32 zero bytes. -/
def longValue : List Byte := List.replicate (2 ^ 32) 0

end table

namespace log

/-- The loop of `AddRecord` run with a budget of `fuel` iterations: `none` when the budget
is used up before the loop condition fails, and otherwise what the loop returns. -/
def AddRecord.run (crc : Crc32c) : Nat → Writer → List Byte → Bool →
    Option (Status × Writer × List Emission)
  | 0, _, _, _ => none
  | fuel + 1, w, ptr, begin =>
    let r := iteration crc w ptr begin
    let fragment_length := fragmentLength (switchBlock w) ptr.length
    if r.1.ok = true ∧ 0 < ptr.length - fragment_length then
      match AddRecord.run crc fuel r.2 (ptr.drop fragment_length) false with
      | none => none
      | some rest => some (rest.1, rest.2.1, iterationEmission crc w ptr begin :: rest.2.2)
    else
      some (r.1, r.2, [iterationEmission crc w ptr begin])

end log

/-! ## Lemmas and theorems -/

/-! ### Log writer: lemmas -/

namespace log

theorem switchBlock_answer (w : Writer) : (switchBlock w).dest_.answer = w.dest_.answer := by
  unfold switchBlock
  simp only [WritableFile.Append]
  split_ifs <;> rfl

theorem switchBlock_type_crc (w : Writer) : (switchBlock w).type_crc_ = w.type_crc_ := by
  unfold switchBlock
  dsimp only
  split_ifs <;> rfl

theorem switchBlock_block_offset (w : Writer) :
    (switchBlock w).block_offset_ = if w.block_offset_ + 7 ≤ 32768 then w.block_offset_ else 0 := by
  unfold switchBlock
  simp only [kBlockSize, kHeaderSize]
  split_ifs <;> first | rfl | (exfalso; push_cast at *; omega)

theorem switchBlock_calls_length (w : Writer) :
    w.dest_.calls.length ≤ (switchBlock w).dest_.calls.length := by
  unfold switchBlock
  simp only [WritableFile.Append]
  split_ifs <;> simp

theorem switchBlock_healthy (w : Writer) (h : healthy w.dest_) :
    healthy (switchBlock w).dest_ := by
  intro k hk
  rw [switchBlock_answer]
  exact h k (le_trans (switchBlock_calls_length w) hk)

theorem fragmentLength_le (w1 : Writer) (left : Nat) : fragmentLength w1 left ≤ left := by
  unfold fragmentLength
  simp only []
  split_ifs <;> omega

theorem fragmentLength_fits (w : Writer) (left : Nat) :
    (switchBlock w).block_offset_ + 7 + fragmentLength (switchBlock w) left ≤ 32768 := by
  rw [switchBlock_block_offset]
  simp only [fragmentLength, switchBlock_block_offset, kBlockSize, kHeaderSize]
  split_ifs <;> push_cast at * <;> omega

theorem EmitPhysicalRecord_answer (crc : Crc32c) (w : Writer) (t : RecordType) (ptr : List Byte)
    (n : Nat) : (EmitPhysicalRecord crc w t ptr n).2.dest_.answer = w.dest_.answer := by
  simp only [EmitPhysicalRecord, WritableFile.Append, WritableFile.Flush]
  split_ifs <;> rfl

theorem EmitPhysicalRecord_healthy (crc : Crc32c) (w : Writer) (t : RecordType) (ptr : List Byte)
    (n : Nat) (h : healthy w.dest_) :
    EmitPhysicalRecord crc w t ptr n
      = (Status.OK, { w with
          dest_ := { w.dest_ with calls := w.dest_.calls ++
            [FileCall.Append (formatHeader crc w.type_crc_ t ptr n), FileCall.Append (ptr.take n),
             FileCall.Flush] }
          block_offset_ := w.block_offset_ + kHeaderSize + n }) := by
  have h0 := h w.dest_.calls.length (le_refl _)
  have h1 := h (w.dest_.calls.length + 1) (by omega)
  have h2 := h (w.dest_.calls.length + 1 + 1) (by omega)
  simp [EmitPhysicalRecord, WritableFile.Append, WritableFile.Flush, h0, h1, h2, Status.ok]

theorem iteration_ok (crc : Crc32c) (w : Writer) (ptr : List Byte) ( begin : Bool)
    (h : healthy w.dest_) : (iteration crc w ptr begin).1 = Status.OK := by
  simp only [iteration, EmitPhysicalRecord_healthy _ _ _ _ _ (switchBlock_healthy w h)]

theorem iteration_healthy (crc : Crc32c) (w : Writer) (ptr : List Byte) ( begin : Bool)
    (h : healthy w.dest_) : healthy (iteration crc w ptr begin).2.dest_ := by
  have h1 := switchBlock_healthy w h
  simp only [iteration, EmitPhysicalRecord_healthy _ _ _ _ _ h1]
  intro k hk
  simp only [List.length_append] at hk
  exact h1 k (by omega)

theorem iteration_block_offset (crc : Crc32c) (w : Writer) (ptr : List Byte) ( begin : Bool) :
    (iteration crc w ptr begin).2.block_offset_
      = (switchBlock w).block_offset_ + 7 + fragmentLength (switchBlock w) ptr.length := by
  simp [iteration, EmitPhysicalRecord, kHeaderSize]

theorem iteration_type_crc (crc : Crc32c) (w : Writer) (ptr : List Byte) ( begin : Bool) :
    (iteration crc w ptr begin).2.type_crc_ = w.type_crc_ := by
  simp [iteration, EmitPhysicalRecord, switchBlock_type_crc]

/-- Shape of the type sequence when the record was already begun: `MIDDLE* LAST`. -/
theorem loop_types_continued (crc : Crc32c) (w : Writer) (ptr : List Byte) ( begin : Bool)
    (hb : begin = false) (h : healthy w.dest_) :
    ∃ m, (AddRecord.loop crc w ptr begin).2.2.map Emission.t
      = List.replicate m RecordType.kMiddleType ++ [RecordType.kLastType] := by
  induction w, ptr, begin using AddRecord.loop.induct crc with
  | case1 w ptr begin r fl hc ih =>
    subst hb
    obtain ⟨m, hm⟩ := ih rfl (iteration_healthy crc w ptr false h)
    refine ⟨m + 1, ?_⟩
    rw [AddRecord.loop, if_pos hc]
    have hne : ¬ ptr.length = fl := by have := hc.2; omega
    simp only [List.map_cons, hm, List.replicate_succ, List.cons_append, iterationEmission,
      chooseType]
    simp [hne]
  | case2 w ptr begin r fl hc =>
    subst hb
    refine ⟨0, ?_⟩
    rw [AddRecord.loop, if_neg hc]
    have hle : fl ≤ ptr.length := fragmentLength_le _ _
    have hok : r.1.ok = true := by
      show (iteration crc w ptr false).1.ok = true
      rw [iteration_ok _ _ _ _ h]; rfl
    have heq : (ptr.length == fl) = true := by
      rw [beq_iff_eq]
      by_contra hne
      exact hc ⟨hok, by omega⟩
    simp only [List.map_cons, List.map_nil, iterationEmission, chooseType, List.replicate_zero,
      List.nil_append]
    simp [show (ptr.length == fragmentLength (switchBlock w) ptr.length) = true from heq]

theorem streamSize_append (a b : List FileCall) : streamSize (a ++ b) = streamSize a + streamSize b := by
  simp [streamSize]

theorem formatHeader_length (crc : Crc32c) (tc : List Nat) (t : RecordType) (ptr : List Byte)
    (n : Nat) : (formatHeader crc tc t ptr n).length = 7 := by
  simp [formatHeader, EncodeFixed32]

theorem switchBlock_aligned (w : Writer) (h : aligned w) : aligned (switchBlock w) := by
  obtain ⟨h1, h2⟩ := h
  unfold aligned at *
  unfold switchBlock
  simp only [kBlockSize, kHeaderSize, WritableFile.Append, streamSize] at *
  split_ifs with ha hb
  · push_cast at ha hb
    have hmin : min ((32768 : Int) - (w.block_offset_ : Int)).toNat 6 = 32768 - w.block_offset_ := by
      omega
    simp only [List.map_append, List.sum_append, List.map_cons, List.map_nil, List.sum_cons,
      List.sum_nil, FileCall.size, List.length_take, List.length_replicate, Nat.cast_ofNat, hmin]
    refine ⟨by omega, ?_⟩
    omega
  · push_cast at ha hb
    refine ⟨by simp, ?_⟩
    have : w.block_offset_ = 32768 := by omega
    simp only [this] at h2
    simpa using h2
  · exact ⟨h1, h2⟩

theorem iteration_aligned (crc : Crc32c) (w : Writer) (ptr : List Byte) ( begin : Bool)
    (h : healthy w.dest_) (ha : aligned w) : aligned (iteration crc w ptr begin).2 := by
  have h1 := switchBlock_healthy w h
  obtain ⟨a1, a2⟩ := switchBlock_aligned w ha
  have hfit := fragmentLength_fits w ptr.length
  have hle := fragmentLength_le (switchBlock w) ptr.length
  unfold aligned at *
  simp only [iteration, EmitPhysicalRecord_healthy _ _ _ _ _ h1, kBlockSize, kHeaderSize,
    streamSize_append] at *
  simp only [streamSize, List.map_cons, List.map_nil, List.sum_cons, List.sum_nil, FileCall.size,
    formatHeader_length, List.length_take] at *
  omega

theorem iterationEmission_inside (crc : Crc32c) (w : Writer) (ptr : List Byte) ( begin : Bool)
    (ha : aligned w) :
    (iterationEmission crc w ptr begin).position % kBlockSize + kHeaderSize
      + (iterationEmission crc w ptr begin).payload.length ≤ kBlockSize := by
  obtain ⟨a1, a2⟩ := switchBlock_aligned w ha
  have hfit := fragmentLength_fits w ptr.length
  have hle := fragmentLength_le (switchBlock w) ptr.length
  simp only [iterationEmission, kBlockSize, kHeaderSize, List.length_take] at *
  omega

theorem loop_inside_block (crc : Crc32c) (w : Writer) (ptr : List Byte) ( begin : Bool)
    (h : healthy w.dest_) (ha : aligned w) :
    healthy (AddRecord.loop crc w ptr begin).2.1.dest_ ∧
    aligned (AddRecord.loop crc w ptr begin).2.1 ∧
    ∀ e ∈ (AddRecord.loop crc w ptr begin).2.2,
      e.position % kBlockSize + kHeaderSize + e.payload.length ≤ kBlockSize := by
  induction w, ptr, begin using AddRecord.loop.induct crc with
  | case1 w ptr begin r fl hc ih =>
    obtain ⟨i1, i2, i3⟩ := ih (iteration_healthy crc w ptr begin h)
      (iteration_aligned crc w ptr begin h ha)
    rw [AddRecord.loop, if_pos hc]
    refine ⟨i1, i2, ?_⟩
    intro e he
    simp only [List.mem_cons] at he
    rcases he with he | he
    · rw [he]; exact iterationEmission_inside crc w ptr begin ha
    · exact i3 e he
  | case2 w ptr begin r fl hc =>
    rw [AddRecord.loop, if_neg hc]
    refine ⟨iteration_healthy crc w ptr begin h, iteration_aligned crc w ptr begin h ha, ?_⟩
    intro e he
    simp only [List.mem_singleton] at he
    rw [he]; exact iterationEmission_inside crc w ptr begin ha

theorem AddRecords_inside_block (crc : Crc32c) (records : List (List Byte)) (w : Writer)
    (h : healthy w.dest_) (ha : aligned w) :
    ∀ e ∈ (AddRecords crc w records).2,
      e.position % kBlockSize + kHeaderSize + e.payload.length ≤ kBlockSize := by
  induction records generalizing w with
  | nil => intro e he; simp [AddRecords] at he
  | cons slice more ih =>
    obtain ⟨i1, i2, i3⟩ := loop_inside_block crc w slice true h ha
    intro e he
    simp only [AddRecords, List.mem_append] at he
    rcases he with he | he
    · exact i3 e he
    · exact ih _ i1 i2 e he

theorem create_type_crc_getD (crc : Crc32c) (dest : WritableFile) (t : RecordType) :
    (Writer.create crc dest).type_crc_.getD t.toNat 0 = crc.Value [toByte t.toNat] := by
  cases t <;> rfl

theorem formatHeader_format (crc : Crc32c) (hlaw : ExtendLaw crc) (tc : List Nat)
    (t : RecordType) (ptr : List Byte) (n : Nat)
    (htc : tc.getD t.toNat 0 = crc.Value [toByte t.toNat]) (hn : (ptr.take n).length ≤ 32761)
    (hle : n ≤ ptr.length) :
    headerFormat crc t (ptr.take n) (formatHeader crc tc t ptr n) := by
  have hlen : (ptr.take n).length = n := by simp [hle]
  rw [hlen] at hn
  refine ⟨by simp [formatHeader, EncodeFixed32, kHeaderSize], ?_, ?_, ?_⟩
  · simp only [formatHeader, EncodeFixed32, List.cons_append, List.nil_append, List.getD_cons_succ,
      List.getD_cons_zero, toByte, hlen]
    have h1 : n &&& 255 = n % 256 := Nat.and_pow_two_sub_one_eq_mod n 8
    have h2 : n >>> 8 = n / 256 := Nat.shiftRight_eq_div_pow n 8
    rw [h1, h2]
    omega
  · simp only [formatHeader, EncodeFixed32, List.cons_append, List.nil_append, List.getD_cons_succ,
      List.getD_cons_zero, toByte]
    cases t <;> rfl
  · simp only [formatHeader, EncodeFixed32, List.cons_append, List.nil_append, htc, hlaw _ _]
    rfl

theorem fragmentLength_le_max (w : Writer) (left : Nat) :
    fragmentLength (switchBlock w) left ≤ 32761 := by
  have := fragmentLength_fits w left
  omega

theorem EmitPhysicalRecord_first_call (crc : Crc32c) (w : Writer) (t : RecordType)
    (ptr : List Byte) (n : Nat) :
    ((EmitPhysicalRecord crc w t ptr n).2.dest_.calls.drop w.dest_.calls.length).head?
      = some (FileCall.Append (formatHeader crc w.type_crc_ t ptr n)) := by
  simp only [EmitPhysicalRecord, WritableFile.Append, WritableFile.Flush]
  split_ifs <;> simp [List.append_assoc]

theorem iterationEmission_header (crc : Crc32c) (hlaw : ExtendLaw crc) (w : Writer)
    (ptr : List Byte) ( begin : Bool)
    (htc : ∀ t : RecordType, w.type_crc_.getD t.toNat 0 = crc.Value [toByte t.toNat]) :
    (iterationEmission crc w ptr begin).payload.length ≤ 32761 ∧
    ∃ buf, (iterationEmission crc w ptr begin).writes.head? = some (FileCall.Append buf) ∧
      headerFormat crc (iterationEmission crc w ptr begin).t
        (iterationEmission crc w ptr begin).payload buf := by
  have hmax := fragmentLength_le_max w ptr.length
  have hle := fragmentLength_le (switchBlock w) ptr.length
  have hlen : (ptr.take (fragmentLength (switchBlock w) ptr.length)).length ≤ 32761 := by
    simp only [List.length_take]; omega
  refine ⟨hlen, formatHeader crc (switchBlock w).type_crc_ (iterationEmission crc w ptr begin).t ptr
    (fragmentLength (switchBlock w) ptr.length), ?_, ?_⟩
  · simp only [iterationEmission, iteration]
    exact EmitPhysicalRecord_first_call crc (switchBlock w) _ ptr _
  · simp only [iterationEmission]
    exact formatHeader_format crc hlaw _ _ ptr _ (by rw [switchBlock_type_crc]; exact htc _) hlen hle

theorem loop_headers (crc : Crc32c) (hlaw : ExtendLaw crc) (w : Writer)
    (ptr : List Byte) ( begin : Bool)
    (htc : ∀ t : RecordType, w.type_crc_.getD t.toNat 0 = crc.Value [toByte t.toNat]) :
    (AddRecord.loop crc w ptr begin).2.1.type_crc_ = w.type_crc_ ∧
    ∀ e ∈ (AddRecord.loop crc w ptr begin).2.2,
      e.payload.length ≤ 32761 ∧
      ∃ buf, e.writes.head? = some (FileCall.Append buf) ∧ headerFormat crc e.t e.payload buf := by
  induction w, ptr, begin using AddRecord.loop.induct crc with
  | case1 w ptr begin r fl hc ih =>
    have htc2 : ∀ t : RecordType, r.2.type_crc_.getD t.toNat 0 = crc.Value [toByte t.toNat] := by
      intro t
      show (iteration crc w ptr begin).2.type_crc_.getD t.toNat 0 = _
      rw [iteration_type_crc]; exact htc t
    obtain ⟨i1, i2⟩ := ih htc2
    rw [AddRecord.loop, if_pos hc]
    refine ⟨i1.trans (iteration_type_crc crc w ptr begin), ?_⟩
    intro e he
    simp only [List.mem_cons] at he
    rcases he with he | he
    · rw [he]; exact iterationEmission_header crc hlaw w ptr begin htc
    · exact i2 e he
  | case2 w ptr begin r fl hc =>
    rw [AddRecord.loop, if_neg hc]
    refine ⟨iteration_type_crc crc w ptr begin, ?_⟩
    intro e he
    simp only [List.mem_singleton] at he
    rw [he]; exact iterationEmission_header crc hlaw w ptr begin htc

theorem AddRecords_headers (crc : Crc32c) (hlaw : ExtendLaw crc) (records : List (List Byte))
    (w : Writer)
    (htc : ∀ t : RecordType, w.type_crc_.getD t.toNat 0 = crc.Value [toByte t.toNat]) :
    ∀ e ∈ (AddRecords crc w records).2,
      e.payload.length ≤ 32761 ∧
      ∃ buf, e.writes.head? = some (FileCall.Append buf) ∧ headerFormat crc e.t e.payload buf := by
  induction records generalizing w with
  | nil => intro e he; simp [AddRecords] at he
  | cons slice more ih =>
    obtain ⟨i1, i2⟩ := loop_headers crc hlaw w slice true htc
    intro e he
    simp only [AddRecords, List.mem_append] at he
    rcases he with he | he
    · exact i2 e he
    · exact ih _ (by intro t; rw [AddRecord, i1]; exact htc t) e he

theorem loop_head_mem (crc : Crc32c) (w : Writer) (ptr : List Byte) ( begin : Bool) :
    iterationEmission crc w ptr begin ∈ (AddRecord.loop crc w ptr begin).2.2 := by
  rw [AddRecord.loop]
  split_ifs <;> simp

theorem longRecord_length : longRecord.length = 32758 := List.length_replicate _ _

theorem loop_last (crc : Crc32c) (w : Writer) (ptr : List Byte) ( begin : Bool)
    (h : ptr.length ≤ fragmentLength (switchBlock w) ptr.length) :
    AddRecord.loop crc w ptr begin
      = ((iteration crc w ptr begin).1, (iteration crc w ptr begin).2,
          [iterationEmission crc w ptr begin]) := by
  rw [AddRecord.loop, if_neg]
  intro hc
  have := hc.2
  omega

theorem first_record_state (crc : Crc32c) (w : Writer) (data : List Byte)
    (hoff : w.block_offset_ = 0) (hcalls : w.dest_.calls = [])
    (hans : w.dest_.answer = failsAtThree) (hlen : data.length = 32758) :
    (AddRecord crc w data).2.1.block_offset_ = 32765 ∧
    (AddRecord crc w data).2.1.dest_.calls.length = 3 ∧
    (AddRecord crc w data).2.1.dest_.answer = failsAtThree := by
  have hsw : switchBlock w = w := by
    simp [switchBlock, hoff, kBlockSize, kHeaderSize]
  have hfl : fragmentLength w data.length = 32758 := by
    simp [fragmentLength, hoff, kBlockSize, kHeaderSize, hlen]
  unfold AddRecord
  rw [loop_last _ _ _ _ (by rw [hsw, hfl, hlen])]
  simp only [iteration, hsw, hfl]
  simp [EmitPhysicalRecord, hoff, hcalls, hans, kHeaderSize, WritableFile.Append,
    WritableFile.Flush, failsAtThree, Status.ok]

theorem padding_failure_dropped (crc : Crc32c) (w : Writer)
    (hoff : w.block_offset_ = 32765) (hcalls : w.dest_.calls.length = 3)
    (hans : w.dest_.answer = failsAtThree) :
    (AddRecord crc w []).1 = Status.OK ∧
    ((AddRecord crc w []).2.1.dest_.calls.drop 3).head? = some (FileCall.Append [0, 0, 0]) ∧
    (AddRecord crc w []).2.1.dest_.answer 3 = Status.IOError 5 := by
  have hfl : fragmentLength (switchBlock w) ([] : List Byte).length = 0 := by
    simp [fragmentLength, switchBlock_block_offset, hoff, kBlockSize, kHeaderSize]
  unfold AddRecord
  rw [loop_last _ _ _ _ (by rw [hfl]; simp)]
  simp only [iteration, hfl]
  simp [switchBlock, EmitPhysicalRecord, hoff, hcalls, hans, kBlockSize, kHeaderSize,
    WritableFile.Append, WritableFile.Flush, failsAtThree, Status.ok]


theorem iterationEmission_writes (crc : Crc32c) (w : Writer) (ptr : List Byte) ( begin : Bool)
    (h : healthy w.dest_) :
    streamSize (iterationEmission crc w ptr begin).writes
      = kHeaderSize + (iterationEmission crc w ptr begin).payload.length := by
  have h1 := switchBlock_healthy w h
  simp only [iterationEmission, iteration, EmitPhysicalRecord_healthy _ _ _ _ _ h1,
    List.drop_left, streamSize, List.map_cons, List.map_nil, List.sum_cons, List.sum_nil,
    FileCall.size, formatHeader_length, kHeaderSize]
  omega

theorem loop_extent (crc : Crc32c) (w : Writer) (ptr : List Byte) ( begin : Bool)
    (h : healthy w.dest_) :
    ∀ e ∈ (AddRecord.loop crc w ptr begin).2.2,
      streamSize e.writes = kHeaderSize + e.payload.length := by
  induction w, ptr, begin using AddRecord.loop.induct crc with
  | case1 w ptr begin r fl hc ih =>
    rw [AddRecord.loop, if_pos hc]
    intro e he
    simp only [List.mem_cons] at he
    rcases he with he | he
    · rw [he]; exact iterationEmission_writes crc w ptr begin h
    · exact ih (iteration_healthy crc w ptr begin h) e he
  | case2 w ptr begin r fl hc =>
    rw [AddRecord.loop, if_neg hc]
    intro e he
    simp only [List.mem_singleton] at he
    rw [he]; exact iterationEmission_writes crc w ptr begin h

theorem AddRecords_extent (crc : Crc32c) (records : List (List Byte)) (w : Writer)
    (h : healthy w.dest_) (ha : aligned w) :
    ∀ e ∈ (AddRecords crc w records).2,
      streamSize e.writes = kHeaderSize + e.payload.length := by
  induction records generalizing w with
  | nil => intro e he; simp [AddRecords] at he
  | cons slice more ih =>
    obtain ⟨i1, i2, _⟩ := loop_inside_block crc w slice true h ha
    intro e he
    simp only [AddRecords, List.mem_append] at he
    rcases he with he | he
    · exact loop_extent crc w slice true h e he
    · exact ih _ i1 i2 e he

theorem sumCrc_law : ExtendLaw sumCrc := by
  intro a b
  simp [sumCrc, List.map_append, List.sum_append]

theorem first_emission_mem (crc : Crc32c) (w : Writer) (slice : List Byte) :
    iterationEmission crc w slice true ∈ (AddRecords crc w [slice]).2 := by
  simp only [AddRecords, List.append_nil, AddRecord]
  exact loop_head_mem crc w slice true

theorem iteration_answer (crc : Crc32c) (w : Writer) (ptr : List Byte) ( begin : Bool) :
    (iteration crc w ptr begin).2.dest_.answer = w.dest_.answer := by
  simp only [iteration, EmitPhysicalRecord_answer, switchBlock_answer]

/-- The status of `EmitPhysicalRecord` is the answer to the last call it issued, and every
call it issued before that one succeeded. -/
theorem EmitPhysicalRecord_status (crc : Crc32c) (w : Writer) (t : RecordType) (ptr : List Byte)
    (n : Nat) :
    ∃ m, (EmitPhysicalRecord crc w t ptr n).2.dest_.calls.length = w.dest_.calls.length + m + 1 ∧
      (EmitPhysicalRecord crc w t ptr n).1 = w.dest_.answer (w.dest_.calls.length + m) ∧
      ∀ j < m, w.dest_.answer (w.dest_.calls.length + j) = Status.OK := by
  unfold EmitPhysicalRecord
  simp only [WritableFile.Append, WritableFile.Flush]
  cases h0 : w.dest_.answer w.dest_.calls.length with
  | IOError c =>
    refine ⟨0, ?_, ?_, ?_⟩ <;> simp [Status.ok, h0]
  | OK =>
    cases h1 : w.dest_.answer (w.dest_.calls.length + 1) with
    | IOError c =>
      refine ⟨1, ?_, ?_, ?_⟩
      · simp [Status.ok, h0, h1]
      · simp [Status.ok, h0, h1]
      · intro j hj
        have : j = 0 := by omega
        subst this
        simpa using h0
    | OK =>
      refine ⟨2, ?_, ?_, ?_⟩
      · simp [Status.ok, h0, h1]
      · simp [Status.ok, h0, h1]
      · intro j hj
        have : j = 0 ∨ j = 1 := by omega
        rcases this with rfl | rfl
        · simpa using h0
        · exact h1

theorem iterationEmission_status (crc : Crc32c) (w : Writer) (ptr : List Byte) ( begin : Bool) :
    ∃ m, (iterationEmission crc w ptr begin).writes.length = m + 1 ∧
      (iteration crc w ptr begin).1
        = w.dest_.answer ((iterationEmission crc w ptr begin).first_call + m) ∧
      ∀ j < m, w.dest_.answer ((iterationEmission crc w ptr begin).first_call + j)
        = Status.OK := by
  obtain ⟨m, h1, h2, h3⟩ := EmitPhysicalRecord_status crc (switchBlock w)
    (chooseType begin (ptr.length == fragmentLength (switchBlock w) ptr.length)) ptr
    (fragmentLength (switchBlock w) ptr.length)
  rw [switchBlock_answer] at h2 h3
  refine ⟨m, ?_, h2, h3⟩
  simp only [iterationEmission, iteration, List.length_drop, h1]
  omega

/-- The status returned by the loop of `AddRecord` is the answer of the sink to the last call
that `EmitPhysicalRecord` issued, and every call that `EmitPhysicalRecord` issued before that
one succeeded. -/
theorem loop_status (crc : Crc32c) (w : Writer) (ptr : List Byte) ( begin : Bool) :
    ∃ init last m, (AddRecord.loop crc w ptr begin).2.2 = init ++ [last] ∧
      (∀ e ∈ init, ∀ j < e.writes.length, w.dest_.answer (e.first_call + j) = Status.OK) ∧
      last.writes.length = m + 1 ∧
      (AddRecord.loop crc w ptr begin).1 = w.dest_.answer (last.first_call + m) ∧
      ∀ j < m, w.dest_.answer (last.first_call + j) = Status.OK := by
  induction w, ptr, begin using AddRecord.loop.induct crc with
  | case1 w ptr begin r fl hc ih =>
    obtain ⟨init, last, m, i1, i2, i3, i4, i5⟩ := ih
    have hans : r.2.dest_.answer = w.dest_.answer := iteration_answer crc w ptr begin
    rw [hans] at i2 i4 i5
    obtain ⟨k, k1, k2, k3⟩ := iterationEmission_status crc w ptr begin
    have hok : (iteration crc w ptr begin).1 = Status.OK := by
      have h := hc.1
      cases hs : (iteration crc w ptr begin).1 with
      | OK => rfl
      | IOError c =>
        have h2 : r.1 = Status.IOError c := hs
        rw [h2] at h
        simp [Status.ok] at h
    refine ⟨iterationEmission crc w ptr begin :: init, last, m, ?_, ?_, i3, ?_, i5⟩
    · rw [AddRecord.loop, if_pos hc]
      simp only [List.cons_append, List.cons.injEq, true_and]
      exact i1
    · intro e he j hj
      rcases List.mem_cons.mp he with he | he
      · rw [he] at hj ⊢
        rw [k1] at hj
        by_cases hjk : j < k
        · exact k3 j hjk
        · have : j = k := by omega
          rw [this, ← k2, hok]
      · exact i2 e he j hj
    · rw [AddRecord.loop, if_pos hc]
      exact i4
  | case2 w ptr begin r fl hc =>
    obtain ⟨k, k1, k2, k3⟩ := iterationEmission_status crc w ptr begin
    refine ⟨[], iterationEmission crc w ptr begin, k, ?_, ?_, k1, ?_, k3⟩
    · rw [AddRecord.loop, if_neg hc]
      rfl
    · intro e he
      simp at he
    · rw [AddRecord.loop, if_neg hc]
      exact k2

/-- The status returned by `AddRecord` is the answer of the sink to the last call that
`EmitPhysicalRecord` issued, and every call that `EmitPhysicalRecord` issued before that one
succeeded: the status returned is that of the first failing write among the writes of
`EmitPhysicalRecord`, if there is one. Nothing is said of the padding writes. -/
theorem AddRecord_status_of_emitted_writes (crc : Crc32c) (w : Writer) (data : List Byte) :
    ∃ init last m, (AddRecord crc w data).2.2 = init ++ [last] ∧
      (∀ e ∈ init, ∀ j < e.writes.length, w.dest_.answer (e.first_call + j) = Status.OK) ∧
      last.writes.length = m + 1 ∧
      (AddRecord crc w data).1 = w.dest_.answer (last.first_call + m) ∧
      ∀ j < m, w.dest_.answer (last.first_call + j) = Status.OK :=
  loop_status crc w data true

/-! ### Log writer: the claims -/

/-- C1: when every sink write succeeds, the types of the physical records emitted by one
`AddRecord` call from a block offset in [0, 32768] are either exactly `FULL`, or `FIRST`,
then any number of `MIDDLE`, then one `LAST`. -/
theorem AddRecord_type_sequence (crc : Crc32c) (w : Writer) (data : List Byte)
    (_hoff : w.block_offset_ ≤ kBlockSize) (hok : healthy w.dest_) :
    (AddRecord crc w data).2.2.map Emission.t = [RecordType.kFullType] ∨
    ∃ m, (AddRecord crc w data).2.2.map Emission.t
      = RecordType.kFirstType :: (List.replicate m RecordType.kMiddleType ++ [RecordType.kLastType]) := by
  unfold AddRecord
  rw [AddRecord.loop]
  have hle : fragmentLength (switchBlock w) data.length ≤ data.length := fragmentLength_le _ _
  by_cases hc : (iteration crc w data true).1.ok = true ∧
      0 < data.length - fragmentLength (switchBlock w) data.length
  · right
    obtain ⟨m, hm⟩ := loop_types_continued crc (iteration crc w data true).2
      (data.drop (fragmentLength (switchBlock w) data.length)) false rfl
      (iteration_healthy crc w data true hok)
    refine ⟨m, ?_⟩
    rw [if_pos hc]
    have hne : ¬ data.length = fragmentLength (switchBlock w) data.length := by
      have := hc.2; omega
    simp only [List.map_cons, hm, iterationEmission, chooseType]
    simp [hne]
  · left
    rw [if_neg hc]
    have hs : (iteration crc w data true).1.ok = true := by
      rw [iteration_ok _ _ _ _ hok]; rfl
    have heq : (data.length == fragmentLength (switchBlock w) data.length) = true := by
      rw [beq_iff_eq]
      by_contra hne
      exact hc ⟨hs, by omega⟩
    simp [iterationEmission, chooseType, heq]

/-- Witness of C1: a three-byte record written at block offset 0 to a sink that always
succeeds. -/
theorem AddRecord_type_sequence_witness :
    (writerAt sumCrc 0).block_offset_ ≤ kBlockSize ∧ healthy (writerAt sumCrc 0).dest_ ∧
    ((AddRecord sumCrc (writerAt sumCrc 0) [1, 2, 3]).2.2.map Emission.t
        = [RecordType.kFullType] ∨
      ∃ m, (AddRecord sumCrc (writerAt sumCrc 0) [1, 2, 3]).2.2.map Emission.t
        = RecordType.kFirstType ::
          (List.replicate m RecordType.kMiddleType ++ [RecordType.kLastType])) :=
  ⟨by decide, fun _ _ => rfl,
    AddRecord_type_sequence sumCrc (writerAt sumCrc 0) [1, 2, 3] (by decide) (fun _ _ => rfl)⟩

/-- C3: for a writer created on an empty sink and any sequence of `AddRecord` calls whose sink
writes all succeed, every physical record emitted (a 7-byte header and `n` payload bytes,
written from stream position `p`) satisfies `p mod 32768 + 7 + n ≤ 32768`: it lies inside
one block, and its header does not start where fewer than 7 bytes remain. -/
theorem records_inside_block (crc : Crc32c) (answer : Nat → Status)
    (records : List (List Byte)) (hok : ∀ k, answer k = Status.OK) :
    ∀ e ∈ (AddRecords crc (Writer.create crc (emptyFile answer)) records).2,
      streamSize e.writes = kHeaderSize + e.payload.length ∧
      e.position % kBlockSize + kHeaderSize + e.payload.length ≤ kBlockSize ∧
      e.position % kBlockSize + kHeaderSize ≤ kBlockSize := by
  have hh : healthy (Writer.create crc (emptyFile answer)).dest_ := fun k _ => hok k
  have ha : aligned (Writer.create crc (emptyFile answer)) := by
    simp [aligned, Writer.create, emptyFile, streamSize]
  intro e he
  have h1 := AddRecords_inside_block crc records _ hh ha e he
  exact ⟨AddRecords_extent crc records _ hh ha e he, h1, by omega⟩

/-- Witness of C3: the record emitted for a three-byte record added to a new writer. -/
theorem records_inside_block_witness :
    (∀ k, (fun _ => Status.OK : Nat → Status) k = Status.OK) ∧
    iterationEmission sumCrc (Writer.create sumCrc (emptyFile (fun _ => Status.OK))) [1, 2, 3] true
      ∈ (AddRecords sumCrc (Writer.create sumCrc (emptyFile (fun _ => Status.OK))) [[1, 2, 3]]).2 ∧
    streamSize (iterationEmission sumCrc (Writer.create sumCrc (emptyFile (fun _ => Status.OK)))
      [1, 2, 3] true).writes = kHeaderSize + (iterationEmission sumCrc
        (Writer.create sumCrc (emptyFile (fun _ => Status.OK))) [1, 2, 3] true).payload.length ∧
    (iterationEmission sumCrc (Writer.create sumCrc (emptyFile (fun _ => Status.OK))) [1, 2, 3]
      true).position % kBlockSize + kHeaderSize + (iterationEmission sumCrc
        (Writer.create sumCrc (emptyFile (fun _ => Status.OK))) [1, 2, 3] true).payload.length
        ≤ kBlockSize ∧
    (iterationEmission sumCrc (Writer.create sumCrc (emptyFile (fun _ => Status.OK))) [1, 2, 3]
      true).position % kBlockSize + kHeaderSize ≤ kBlockSize :=
  ⟨fun _ => rfl, first_emission_mem _ _ _,
    records_inside_block sumCrc (fun _ => Status.OK) [[1, 2, 3]] (fun _ => rfl) _
      (first_emission_mem _ _ _)⟩

/-- C4: every physical record emitted by `AddRecord` (on a writer made by the constructor and
used for any sequence of `AddRecord` calls, whatever the sink answers) has a payload of at most
32761 bytes, and the first thing written for it is a 7-byte header whose bytes 4 and 5 are the
payload length in little-endian order, whose byte 6 is the type tag, and whose bytes 0 to 3
are the fixed32 encoding of the masked crc of the type byte followed by the payload. The crc
functions are parameters that satisfy the law of `Extend`. -/
theorem emitted_header_format (crc : Crc32c) (dest : WritableFile) (records : List (List Byte))
    (hlaw : ExtendLaw crc) :
    ∀ e ∈ (AddRecords crc (Writer.create crc dest) records).2,
      e.payload.length ≤ 32761 ∧
      ∃ buf, e.writes.head? = some (FileCall.Append buf) ∧
        buf.length = 7 ∧
        (buf.getD 4 0).val + 256 * (buf.getD 5 0).val = e.payload.length ∧
        (buf.getD 6 0).val = e.t.toNat ∧
        buf.take 4 = EncodeFixed32 (crc.Mask (crc.Value (toByte e.t.toNat :: e.payload))) :=
  AddRecords_headers crc hlaw records (Writer.create crc dest)
    (create_type_crc_getD crc dest)

/-- Witness of C4: the record emitted for a three-byte record added to a new writer, with the
checksum `sumCrc`. -/
theorem emitted_header_format_witness :
    ExtendLaw sumCrc ∧
    iterationEmission sumCrc (Writer.create sumCrc (emptyFile (fun _ => Status.OK))) [1, 2, 3] true
      ∈ (AddRecords sumCrc (Writer.create sumCrc (emptyFile (fun _ => Status.OK))) [[1, 2, 3]]).2 ∧
    ((iterationEmission sumCrc (Writer.create sumCrc (emptyFile (fun _ => Status.OK))) [1, 2, 3]
      true).payload.length ≤ 32761 ∧
    ∃ buf, (iterationEmission sumCrc (Writer.create sumCrc (emptyFile (fun _ => Status.OK)))
        [1, 2, 3] true).writes.head? = some (FileCall.Append buf) ∧
      buf.length = 7 ∧
      (buf.getD 4 0).val + 256 * (buf.getD 5 0).val = (iterationEmission sumCrc
        (Writer.create sumCrc (emptyFile (fun _ => Status.OK))) [1, 2, 3] true).payload.length ∧
      (buf.getD 6 0).val = (iterationEmission sumCrc
        (Writer.create sumCrc (emptyFile (fun _ => Status.OK))) [1, 2, 3] true).t.toNat ∧
      buf.take 4 = EncodeFixed32 (sumCrc.Mask (sumCrc.Value (toByte (iterationEmission sumCrc
        (Writer.create sumCrc (emptyFile (fun _ => Status.OK))) [1, 2, 3] true).t.toNat ::
        (iterationEmission sumCrc (Writer.create sumCrc (emptyFile (fun _ => Status.OK)))
          [1, 2, 3] true).payload)))) :=
  ⟨sumCrc_law, first_emission_mem _ _ _,
    emitted_header_format sumCrc (emptyFile (fun _ => Status.OK)) [[1, 2, 3]] sumCrc_law _
      (first_emission_mem _ _ _)⟩

/-- C5 (the code at the failing input): a new writer receives a 32758-byte record, which
leaves three bytes in the block; the next `AddRecord` first appends three zero bytes, the
sink answers that call (number 3) with an error, and `AddRecord` returns `OK`. -/
theorem AddRecord_drops_padding_failure :
    (AddRecord sumCrc (Writer.create sumCrc (emptyFile failsAtThree)) longRecord).2.1.block_offset_
      = 32765 ∧
    (AddRecord sumCrc (AddRecord sumCrc (Writer.create sumCrc (emptyFile failsAtThree))
      longRecord).2.1 []).1 = Status.OK ∧
    ((AddRecord sumCrc (AddRecord sumCrc (Writer.create sumCrc (emptyFile failsAtThree))
      longRecord).2.1 []).2.1.dest_.calls.drop 3).head? = some (FileCall.Append [0, 0, 0]) ∧
    (AddRecord sumCrc (AddRecord sumCrc (Writer.create sumCrc (emptyFile failsAtThree))
      longRecord).2.1 []).2.1.dest_.answer 3 = Status.IOError 5 :=
  have h := first_record_state sumCrc (Writer.create sumCrc (emptyFile failsAtThree)) longRecord
    rfl rfl rfl longRecord_length
  ⟨h.1, padding_failure_dropped sumCrc _ h.1 h.2.1 h.2.2⟩

end log

/-! ### Bytewise comparator: lemmas -/

namespace BytewiseComparatorImpl

theorem take_set_succ (key : List Byte) (i : Nat) (x : Byte) (h : i < key.length) :
    (key.set i x).take (i + 1) = key.take i ++ [x] := by
  induction key generalizing i with
  | nil => simp at h
  | cons a l ih =>
    cases i with
    | zero => simp
    | succ j =>
      simp only [List.set_cons_succ, List.take_succ_cons, List.cons_append, List.cons.injEq,
        true_and]
      exact ih j (by simpa using h)

theorem drop_eq_getD_cons (key : List Byte) (i : Nat) (h : i < key.length) :
    key.drop i = key.getD i 0 :: key.drop (i + 1) := by
  rw [List.getD_eq_getElem _ _ h]
  exact List.drop_eq_getElem_cons h

theorem FindShortSuccessor.loop_eq (key : List Byte) (i : Nat) :
    FindShortSuccessor.loop key key.length i = key.take i ++ successorOf (key.drop i) := by
  induction i using FindShortSuccessor.loop.induct key key.length with
  | case1 i hi byte hb =>
    rw [FindShortSuccessor.loop, if_pos hi]
    simp only [ne_eq, hb, not_false_eq_true, reduceIte]
    rw [take_set_succ _ _ _ hi, drop_eq_getD_cons key i hi, successorOf]
    simp only [ne_eq, hb, not_false_eq_true, reduceIte]
  | case2 i hi byte hb ih =>
    rw [FindShortSuccessor.loop, if_pos hi, ih]
    have hb2 : key.getD i 0 = 0xff := not_not.mp hb
    simp only [ne_eq, hb2, not_true_eq_false, reduceIte]
    rw [drop_eq_getD_cons key i hi, successorOf]
    simp only [ne_eq, hb2, not_true_eq_false, reduceIte]
    rw [List.take_succ, List.append_assoc]
    congr 1
    rw [List.getElem?_eq_getElem hi, ← List.getD_eq_getElem _ 0 hi, hb2]
    rfl
  | case3 i hi =>
    rw [FindShortSuccessor.loop, if_neg hi]
    rw [List.drop_of_length_le (by omega), List.take_of_length_le (by omega)]
    simp [successorOf]

theorem FindShortSuccessor_eq (key : List Byte) : FindShortSuccessor key = successorOf key := by
  simp [FindShortSuccessor, FindShortSuccessor.loop_eq key 0]


theorem FindShortestSeparator.loop_ge (start limit : List Byte) (m i : Nat) :
    i ≤ FindShortestSeparator.loop start limit m i := by
  induction i using FindShortestSeparator.loop.induct start limit m with
  | case1 i hc ih =>
    rw [FindShortestSeparator.loop, if_pos hc]; omega
  | case2 i hc =>
    rw [FindShortestSeparator.loop, if_neg hc]

theorem FindShortestSeparator.loop_cons (a b : Byte) (as bs : List Byte) (i : Nat) :
    FindShortestSeparator.loop (a :: as) (b :: bs)
        (min (a :: as).length (b :: bs).length) (i + 1)
      = FindShortestSeparator.loop as bs (min as.length bs.length) i + 1 := by
  induction i using FindShortestSeparator.loop.induct as bs (min as.length bs.length) with
  | case1 i hc ih =>
    have hc2 : i + 1 < min (a :: as).length (b :: bs).length ∧
        (a :: as).getD (i + 1) 0 = (b :: bs).getD (i + 1) 0 := by
      simp only [List.length_cons, List.getD_cons_succ]
      exact ⟨by have := hc.1; omega, hc.2⟩
    rw [FindShortestSeparator.loop, if_pos hc2, ih]
    conv_rhs => rw [FindShortestSeparator.loop, if_pos hc]
  | case2 i hc =>
    have hc2 : ¬ (i + 1 < min (a :: as).length (b :: bs).length ∧
        (a :: as).getD (i + 1) 0 = (b :: bs).getD (i + 1) 0) := by
      simp only [List.length_cons, List.getD_cons_succ]
      intro h
      exact hc ⟨by have := h.1; omega, h.2⟩
    rw [FindShortestSeparator.loop, if_neg hc2]
    conv_rhs => rw [FindShortestSeparator.loop, if_neg hc]

theorem FindShortestSeparator_eq (start limit : List Byte) :
    FindShortestSeparator start limit = separatorOf start limit := by
  induction start generalizing limit with
  | nil =>
    cases limit <;> simp [FindShortestSeparator, separatorOf]
  | cons a as ih =>
    cases limit with
    | nil => simp [FindShortestSeparator, separatorOf]
    | cons b bs =>
      by_cases hab : a = b
      · have h0 : (0 < min (a :: as).length (b :: bs).length ∧
            (a :: as).getD 0 0 = (b :: bs).getD 0 0) := by
          simp [hab]
        have hloop : FindShortestSeparator.loop (a :: as) (b :: bs)
            (min (a :: as).length (b :: bs).length) 0
            = FindShortestSeparator.loop as bs (min as.length bs.length) 0 + 1 := by
          rw [FindShortestSeparator.loop, if_pos h0]
          exact FindShortestSeparator.loop_cons a b as bs 0
        have hmin : min (as.length + 1) (bs.length + 1) = min as.length bs.length + 1 := by
          omega
        simp only [List.length_cons, hmin] at hloop
        rw [separatorOf, if_pos hab, ← ih bs]
        simp only [FindShortestSeparator, List.length_cons, hmin, hloop, List.getD_cons_succ,
          List.set_cons_succ, List.take_succ_cons, ge_iff_le, Nat.add_le_add_iff_right]
        split_ifs <;> rfl
      · have h0 : ¬ (0 < min (a :: as).length (b :: bs).length ∧
            (a :: as).getD 0 0 = (b :: bs).getD 0 0) := by
          simp [hab]
        have hloop : FindShortestSeparator.loop (a :: as) (b :: bs)
            (min (a :: as).length (b :: bs).length) 0 = 0 := by
          rw [FindShortestSeparator.loop, if_neg h0]
        have hmin : ¬ (min (as.length + 1) (bs.length + 1) ≤ 0) := by omega
        simp only [List.length_cons] at hloop
        rw [separatorOf, if_neg hab]
        simp only [FindShortestSeparator, List.length_cons, hloop, List.getD_cons_zero,
          List.set_cons_zero, List.take_succ_cons, List.take_zero, ge_iff_le, hmin, reduceIte]


theorem Compare_self (a : List Byte) : Compare a a = Ordering.eq := by
  induction a with
  | nil => rfl
  | cons x xs ih => simp [Compare, ih]

theorem Byte.val_add_one (a : Byte) (h : a.val < 255) : (a + 1).val = a.val + 1 := by
  rw [Fin.val_add]
  simp only [Fin.val_one]
  omega

theorem Byte.val_add_one_of_ne (a : Byte) (h : a ≠ 0xff) : (a + 1).val = a.val + 1 := by
  apply Byte.val_add_one
  have h1 : a.val ≠ 255 := fun hv => h (Fin.ext hv)
  have h2 := a.isLt
  omega

theorem separatorOf_between (start limit : List Byte)
    (hlt : Compare start limit = Ordering.lt) :
    Compare start (separatorOf start limit) ≠ Ordering.gt ∧
    Compare (separatorOf start limit) limit = Ordering.lt := by
  induction start generalizing limit with
  | nil =>
    cases limit with
    | nil => simp [Compare] at hlt
    | cons b bs => simp [separatorOf, Compare]
  | cons a as ih =>
    cases limit with
    | nil => simp [Compare] at hlt
    | cons b bs =>
      by_cases hab : a = b
      · subst hab
        have hlt2 : Compare as bs = Ordering.lt := by simpa [Compare] using hlt
        obtain ⟨i1, i2⟩ := ih bs hlt2
        simp only [separatorOf, reduceIte, Compare, lt_self_iff_false]
        exact ⟨i1, i2⟩
      · have hval : a.val ≠ b.val := fun hv => hab (Fin.ext hv)
        have hlt3 : a.val < b.val := by
          by_contra hge
          have hgt : b.val < a.val := by omega
          simp [Compare, hge, hgt] at hlt
        rw [separatorOf, if_neg hab]
        split_ifs with hc
        · have hv := Byte.val_add_one a hc.1
          refine ⟨?_, ?_⟩
          · simp [Compare, hv]
          · have h2 := hc.2
            simp [Compare, hv, h2]
        · exact ⟨by simp [Compare_self], hlt⟩

theorem separatorOf_unchanged (start limit : List Byte)
    (h : start = limit ∨ start <+: limit ∨ limit <+: start) :
    separatorOf start limit = start := by
  induction start generalizing limit with
  | nil => cases limit <;> simp [separatorOf]
  | cons a as ih =>
    cases limit with
    | nil => simp [separatorOf]
    | cons b bs =>
      have hab : a = b ∧ (as = bs ∨ as <+: bs ∨ bs <+: as) := by
        rcases h with h | h | h
        · simp only [List.cons.injEq] at h
          exact ⟨h.1, Or.inl h.2⟩
        · rw [List.cons_prefix_cons] at h
          exact ⟨h.1, Or.inr (Or.inl h.2)⟩
        · rw [List.cons_prefix_cons] at h
          exact ⟨h.1.symm, Or.inr (Or.inr h.2)⟩
      rw [separatorOf, if_pos hab.1, ih bs hab.2]

theorem successorOf_ge (key : List Byte) : Compare (successorOf key) key ≠ Ordering.lt := by
  induction key with
  | nil => simp [successorOf, Compare]
  | cons b rest ih =>
    rw [successorOf]
    split_ifs with hb
    · have hv := Byte.val_add_one_of_ne b hb
      simp [Compare, hv]
    · simp only [Compare, lt_self_iff_false, reduceIte]
      exact ih

theorem successorOf_eq_iff (key : List Byte) :
    successorOf key = key ↔ ∀ b ∈ key, b = 0xff := by
  induction key with
  | nil => simp [successorOf]
  | cons b rest ih =>
    rw [successorOf]
    split_ifs with hb
    · constructor
      · intro h
        simp only [List.cons.injEq] at h
        have hv := Byte.val_add_one_of_ne b hb
        have := congrArg Fin.val h.1
        omega
      · intro h
        exact absurd (h b (List.mem_cons_self b rest)) hb
    · have hb2 : b = 0xff := not_not.mp hb
      simp only [List.cons.injEq, true_and, List.mem_cons, forall_eq_or_imp, hb2, ih]

theorem successorOf_shortest (key t : List Byte) (h : Compare t key ≠ Ordering.lt) :
    (successorOf key).length ≤ t.length := by
  induction key generalizing t with
  | nil => simp [successorOf]
  | cons b rest ih =>
    cases t with
    | nil => simp [Compare] at h
    | cons c ts =>
      rw [successorOf]
      split_ifs with hb
      · simp
      · have hb2 : b = 0xff := not_not.mp hb
        subst hb2
        have hc : ¬ (255 < c.val) := by have := c.isLt; omega
        simp only [Compare] at h
        have hc2 : ¬ (c.val < (0xff : Byte).val) := by
          intro hlt
          simp [hlt] at h
        have hc3 : ¬ ((0xff : Byte).val < c.val) := hc
        simp only [hc2, hc3, reduceIte] at h
        simp only [List.length_cons, Nat.add_le_add_iff_right]
        exact ih ts h

/-! ### Bytewise comparator: the claims -/

/-- C6: when `start < limit` in the bytewise order and `start` is not a prefix of `limit`,
the string `s` left in `start` by `FindShortestSeparator(start, limit)` satisfies
`start ≤ s` and `s < limit`. -/
theorem FindShortestSeparator_between (start limit : List Byte)
    (hlt : Compare start limit = Ordering.lt) (_hnp : ¬ start <+: limit) :
    Compare start (FindShortestSeparator start limit) ≠ Ordering.gt ∧
    Compare (FindShortestSeparator start limit) limit = Ordering.lt := by
  rw [FindShortestSeparator_eq]
  exact separatorOf_between start limit hlt

/-- Witness of C6: `start = 01 02 03 04`, `limit = 01 02 07`. -/
theorem FindShortestSeparator_between_witness :
    Compare [1, 2, 3, 4] [1, 2, 7] = Ordering.lt ∧ ¬ ([1, 2, 3, 4] : List Byte) <+: [1, 2, 7] ∧
    Compare [1, 2, 3, 4] (FindShortestSeparator [1, 2, 3, 4] [1, 2, 7]) ≠ Ordering.gt ∧
    Compare (FindShortestSeparator [1, 2, 3, 4] [1, 2, 7]) [1, 2, 7] = Ordering.lt :=
  ⟨by decide, by decide,
    FindShortestSeparator_between [1, 2, 3, 4] [1, 2, 7] (by decide) (by decide)⟩

/-- C7: the string left by `FindShortSuccessor(key)` is `≥ key` in the bytewise order, and it
equals `key` exactly when every byte of `key` is 0xff (which includes the empty key). -/
theorem FindShortSuccessor_ge (key : List Byte) :
    Compare (FindShortSuccessor key) key ≠ Ordering.lt ∧
    (FindShortSuccessor key = key ↔ ∀ b ∈ key, b = 0xff) := by
  rw [FindShortSuccessor_eq]
  exact ⟨successorOf_ge key, successorOf_eq_iff key⟩

/-- C8: the string left by `FindShortSuccessor(key)` is a shortest string `≥ key`: it is
`≥ key`, and no string `t ≥ key` is shorter. -/
theorem FindShortSuccessor_shortest (key t : List Byte)
    (h : Compare t key ≠ Ordering.lt) :
    Compare (FindShortSuccessor key) key ≠ Ordering.lt ∧
    (FindShortSuccessor key).length ≤ t.length := by
  rw [FindShortSuccessor_eq]
  exact ⟨successorOf_ge key, successorOf_shortest key t h⟩

/-- Witness of C8: `key = ff 03 04` and `t = ff 03 04 00`. -/
theorem FindShortSuccessor_shortest_witness :
    Compare [255, 3, 4, 0] [255, 3, 4] ≠ Ordering.lt ∧
    Compare (FindShortSuccessor [255, 3, 4]) [255, 3, 4] ≠ Ordering.lt ∧
    (FindShortSuccessor [255, 3, 4]).length ≤ ([255, 3, 4, 0] : List Byte).length :=
  ⟨by decide, FindShortSuccessor_shortest [255, 3, 4] [255, 3, 4, 0] (by decide)⟩

/-- C9: when `start` equals `limit`, or one of them is a prefix of the other,
`FindShortestSeparator(start, limit)` leaves `start` unchanged. -/
theorem FindShortestSeparator_unchanged (start limit : List Byte)
    (h : start = limit ∨ start <+: limit ∨ limit <+: start) :
    FindShortestSeparator start limit = start := by
  rw [FindShortestSeparator_eq]
  exact separatorOf_unchanged start limit h

/-- Witness of C9: `start = 01 02` is a prefix of `limit = 01 02 04`. -/
theorem FindShortestSeparator_unchanged_witness :
    (([1, 2] : List Byte) = [1, 2, 4] ∨ ([1, 2] : List Byte) <+: [1, 2, 4] ∨
      ([1, 2, 4] : List Byte) <+: [1, 2]) ∧
    FindShortestSeparator [1, 2] [1, 2, 4] = [1, 2] :=
  ⟨Or.inr (Or.inl (by decide)),
    FindShortestSeparator_unchanged [1, 2] [1, 2, 4] (Or.inr (Or.inl (by decide)))⟩

end BytewiseComparatorImpl

/-! ### Arena: lemmas -/

namespace arena

theorem slop_le (p : Nat) :
    (if p &&& 7 = 0 then 0 else 8 - (p &&& 7)) ≤ 7 := by
  have h : p &&& 7 = p % 8 := Nat.and_pow_two_sub_one_eq_mod p 3
  rw [h]
  split_ifs <;> omega

/-- Adding one allocation that fits the invariant. -/
theorem Inv_push_fit (a : Arena) (prev : List Allocation) (slop bytes : Nat)
    (hinv : Inv a prev) (hpos : 0 < bytes) (hfit : bytes + slop ≤ a.alloc_bytes_remaining_) :
    Inv { a with alloc_ptr_ := a.alloc_ptr_ + (bytes + slop)
                 alloc_bytes_remaining_ := a.alloc_bytes_remaining_ - (bytes + slop) }
      (prev ++ [{ result := a.alloc_ptr_ + slop, bytes := bytes }]) := by
  obtain ⟨h1, h2, h3, h4⟩ := hinv
  have hrem : a.alloc_bytes_remaining_ ≠ 0 := by omega
  obtain ⟨blk, hblk, hb1, hb2⟩ := h4.resolve_left hrem
  refine ⟨?_, ?_, ?_, ?_⟩
  · intro x hx
    rcases List.mem_append.mp hx with hx | hx
    · exact h1 x hx
    · rw [List.mem_singleton.mp hx]
      exact ⟨blk, hblk, by simp only [Allocation.inside]; omega⟩
  · rw [List.pairwise_append]
    refine ⟨h2, List.pairwise_singleton _ _, ?_⟩
    intro p hp y hy
    rw [List.mem_singleton.mp hy]
    have := (h3 p hp).resolve_left hrem
    simp only [Allocation.disjoint]
    omega
  · intro x hx
    rcases List.mem_append.mp hx with hx | hx
    · have := (h3 x hx).resolve_left hrem
      simp only
      omega
    · rw [List.mem_singleton.mp hx]
      simp only
      omega
  · right
    exact ⟨blk, hblk, by simp only; omega, by simp only; omega⟩

/-- Adding an allocation that is a whole new array. -/
theorem Inv_push_block (a : Arena) (prev : List Allocation) (fresh bytes m : Nat)
    (hinv : Inv a prev)
    (hdisj : ∀ b ∈ a.blocks_, b.disjoint { base := fresh, size := bytes }) :
    Inv { a with blocks_ := a.blocks_ ++ [{ base := fresh, size := bytes }], blocks_memory_ := m }
      (prev ++ [{ result := fresh, bytes := bytes }]) := by
  obtain ⟨h1, h2, h3, h4⟩ := hinv
  refine ⟨?_, ?_, ?_, ?_⟩
  · intro x hx
    rcases List.mem_append.mp hx with hx | hx
    · obtain ⟨b, hb, hin⟩ := h1 x hx
      exact ⟨b, List.mem_append_left _ hb, hin⟩
    · rw [List.mem_singleton.mp hx]
      exact ⟨_, List.mem_append_right _ (List.mem_singleton_self _),
        by simp [Allocation.inside]⟩
  · rw [List.pairwise_append]
    refine ⟨h2, List.pairwise_singleton _ _, ?_⟩
    intro p hp y hy
    rw [List.mem_singleton.mp hy]
    obtain ⟨b, hb, hin⟩ := h1 p hp
    have hd := hdisj b hb
    simp only [Allocation.disjoint, Allocation.inside, Block.disjoint] at *
    omega
  · intro x hx
    rcases List.mem_append.mp hx with hx | hx
    · exact h3 x hx
    · rw [List.mem_singleton.mp hx]
      rcases h4 with h4 | ⟨b, hb, hb1, hb2⟩
      · exact Or.inl h4
      · have hd := hdisj b hb
        simp only [Block.disjoint] at hd
        simp only
        omega
  · rcases h4 with h4 | ⟨b, hb, hb1, hb2⟩
    · exact Or.inl h4
    · exact Or.inr ⟨b, List.mem_append_left _ hb, hb1, hb2⟩

/-- Adding an allocation served from the start of a new standard array. -/
theorem Inv_push_pool (a : Arena) (prev : List Allocation) (fresh bytes size m : Nat)
    (hinv : Inv a prev) (hle : bytes ≤ size)
    (hdisj : ∀ b ∈ a.blocks_, b.disjoint { base := fresh, size := size }) :
    Inv { alloc_ptr_ := fresh + bytes, alloc_bytes_remaining_ := size - bytes,
          blocks_ := a.blocks_ ++ [{ base := fresh, size := size }], blocks_memory_ := m }
      (prev ++ [{ result := fresh, bytes := bytes }]) := by
  obtain ⟨h1, h2, h3, h4⟩ := hinv
  refine ⟨?_, ?_, ?_, ?_⟩
  · intro x hx
    rcases List.mem_append.mp hx with hx | hx
    · obtain ⟨b, hb, hin⟩ := h1 x hx
      exact ⟨b, List.mem_append_left _ hb, hin⟩
    · rw [List.mem_singleton.mp hx]
      exact ⟨_, List.mem_append_right _ (List.mem_singleton_self _),
        by simp only [Allocation.inside]; omega⟩
  · rw [List.pairwise_append]
    refine ⟨h2, List.pairwise_singleton _ _, ?_⟩
    intro p hp y hy
    rw [List.mem_singleton.mp hy]
    obtain ⟨b, hb, hin⟩ := h1 p hp
    have hd := hdisj b hb
    simp only [Allocation.disjoint, Allocation.inside, Block.disjoint] at *
    omega
  · intro x hx
    rcases List.mem_append.mp hx with hx | hx
    · obtain ⟨b, hb, hin⟩ := h1 x hx
      have hd := hdisj b hb
      simp only [Allocation.inside, Block.disjoint] at *
      omega
    · rw [List.mem_singleton.mp hx]
      simp only
      omega
  · right
    exact ⟨_, List.mem_append_right _ (List.mem_singleton_self _), by simp only; omega,
      by simp only; omega⟩

theorem AllocateFallback_blocks (a : Arena) (fresh bytes : Nat) :
    (AllocateFallback a fresh bytes).2.blocks_
      = a.blocks_ ++ [{ base := fresh, size := if bytes > kBlockSize / 4 then bytes else kBlockSize }] := by
  unfold AllocateFallback AllocateNewBlock
  split_ifs <;> rfl

theorem perform_blocks (a : Arena) (r : Request) :
    a.blocks_ <+: (perform a r).2.blocks_ := by
  unfold perform Allocate AllocateAligned
  dsimp only
  split_ifs <;> first
    | exact List.prefix_refl _
    | (rw [AllocateFallback_blocks]; exact List.prefix_append _ _)

theorem run_blocks (reqs : List Request) (a : Arena) :
    a.blocks_ <+: (run a reqs).1.blocks_ := by
  induction reqs generalizing a with
  | nil => exact List.prefix_refl _
  | cons r rest ih => exact (perform_blocks a r).trans (ih _)

theorem AllocateFallback_inv (a : Arena) (prev : List Allocation) (fresh bytes : Nat)
    (hinv : Inv a prev)
    (hdisj : (AllocateFallback a fresh bytes).2.blocks_.Pairwise Block.disjoint) :
    Inv (AllocateFallback a fresh bytes).2
      (prev ++ [{ result := (AllocateFallback a fresh bytes).1, bytes := bytes }]) := by
  rw [AllocateFallback_blocks, List.pairwise_append] at hdisj
  have hd : ∀ b ∈ a.blocks_, b.disjoint
      { base := fresh, size := if bytes > kBlockSize / 4 then bytes else kBlockSize } :=
    fun b hb => hdisj.2.2 b hb _ (List.mem_singleton_self _)
  unfold AllocateFallback AllocateNewBlock
  by_cases hbig : bytes > kBlockSize / 4
  · simp only [hbig, reduceIte] at hd ⊢
    exact Inv_push_block a prev fresh bytes _ hinv hd
  · simp only [hbig, reduceIte] at hd ⊢
    have hle : bytes ≤ kBlockSize := by
      simp only [kBlockSize] at hbig ⊢
      omega
    exact Inv_push_pool a prev fresh bytes kBlockSize _ hinv hle hd

theorem perform_inv (a : Arena) (prev : List Allocation) (r : Request)
    (hinv : Inv a prev) (hr : r.inRange)
    (hdisj : (perform a r).2.blocks_.Pairwise Block.disjoint) :
    Inv (perform a r).2 (prev ++ [{ result := (perform a r).1, bytes := r.bytes }]) := by
  obtain ⟨hpos, hbound⟩ := hr
  unfold perform at hdisj ⊢
  by_cases hal : r.aligned = true
  · simp only [hal, reduceIte] at hdisj ⊢
    have hs := slop_le a.alloc_ptr_
    have hb := hbound hal
    unfold AllocateAligned at hdisj ⊢
    simp only [sizeofPointer, gt_iff_lt, lt_self_iff_false, reduceIte, Nat.reduceSub,
      sizeModulus] at hdisj hb ⊢
    have hneeded : (r.bytes + (if a.alloc_ptr_ &&& 7 = 0 then 0 else 8 - (a.alloc_ptr_ &&& 7)))
        % 2 ^ 64 = r.bytes + (if a.alloc_ptr_ &&& 7 = 0 then 0 else 8 - (a.alloc_ptr_ &&& 7)) :=
      Nat.mod_eq_of_lt (by omega)
    rw [hneeded] at hdisj ⊢
    by_cases hfit : r.bytes + (if a.alloc_ptr_ &&& 7 = 0 then 0 else 8 - (a.alloc_ptr_ &&& 7))
        ≤ a.alloc_bytes_remaining_
    · simp only [hfit, reduceIte]
      exact Inv_push_fit a prev _ r.bytes hinv hpos hfit
    · simp only [hfit, reduceIte] at hdisj ⊢
      exact AllocateFallback_inv a prev r.fresh r.bytes hinv hdisj
  · simp only [hal] at hdisj ⊢
    unfold Allocate at hdisj ⊢
    by_cases hfit : r.bytes ≤ a.alloc_bytes_remaining_
    · simp only [hfit, reduceIte]
      exact Inv_push_fit a prev 0 r.bytes hinv hpos hfit
    · simp only [hfit, reduceIte] at hdisj ⊢
      exact AllocateFallback_inv a prev r.fresh r.bytes hinv hdisj

theorem run_inv (reqs : List Request) (a : Arena) (prev : List Allocation)
    (hinv : Inv a prev) (hr : ∀ r ∈ reqs, r.inRange)
    (hdisj : (run a reqs).1.blocks_.Pairwise Block.disjoint) :
    Inv (run a reqs).1 (prev ++ (run a reqs).2) := by
  induction reqs generalizing a prev with
  | nil => simpa [run] using hinv
  | cons r rest ih =>
    have hstep : (perform a r).2.blocks_.Pairwise Block.disjoint :=
      hdisj.sublist (run_blocks rest (perform a r).2).sublist
    have h1 := perform_inv a prev r hinv (hr r (List.mem_cons_self r rest)) hstep
    have h2 := ih (perform a r).2 _ h1 (fun q hq => hr q (List.mem_cons_of_mem r hq)) hdisj
    simpa [run, List.append_assoc] using h2

theorem Inv_create : Inv Arena.create [] := by
  refine ⟨?_, List.Pairwise.nil, ?_, Or.inl rfl⟩ <;> intro x hx <;> simp at hx

/-! ### Arena: the claims -/

/-- C10 as stated fails: after `Allocate(1)`, the call `AllocateAligned(SIZE_MAX)` computes
`needed = bytes + slop` modulo `2^64`, finds that it fits and returns a pointer into the
current array; its bytes are inside no array of the arena, and the next `Allocate(2)`
overlaps them. Every size is positive and is a value of `size_t`, and the arrays obtained
from the allocator do not overlap. -/
theorem allocations_disjoint_counterexample :
    (∀ r ∈ wrapRequests, 0 < r.bytes ∧ r.bytes < sizeModulus) ∧
    (run Arena.create wrapRequests).1.blocks_.Pairwise Block.disjoint ∧
    ¬ (∀ x ∈ (run Arena.create wrapRequests).2,
        ∃ b ∈ (run Arena.create wrapRequests).1.blocks_, x.inside b) ∧
    ¬ (run Arena.create wrapRequests).2.Pairwise Allocation.disjoint := by
  decide

/-- C10, amended: for every sequence of `Allocate(n)` and `AllocateAligned(n)` calls on a new
arena with `n > 0` and, for `AllocateAligned`, `n + 7` below `2^64`, when the arrays returned
by the underlying allocator do not overlap one another, the bytes of each returned allocation
lie inside a single array owned by the arena, and the allocations returned by distinct calls
are disjoint. -/
theorem allocations_disjoint (reqs : List Request) (hr : ∀ r ∈ reqs, r.inRange)
    (hblocks : (run Arena.create reqs).1.blocks_.Pairwise Block.disjoint) :
    (∀ x ∈ (run Arena.create reqs).2, ∃ b ∈ (run Arena.create reqs).1.blocks_, x.inside b) ∧
    (run Arena.create reqs).2.Pairwise Allocation.disjoint := by
  have h := run_inv reqs Arena.create [] Inv_create hr hblocks
  simp only [List.nil_append] at h
  exact ⟨h.1, h.2.1⟩

/-- Witness of C10: seven requests served from two standard arrays and one dedicated array. -/
theorem allocations_disjoint_witness :
    (∀ r ∈ sampleRequests, r.inRange) ∧
    (run Arena.create sampleRequests).1.blocks_.Pairwise Block.disjoint ∧
    (∀ x ∈ (run Arena.create sampleRequests).2,
      ∃ b ∈ (run Arena.create sampleRequests).1.blocks_, x.inside b) ∧
    (run Arena.create sampleRequests).2.Pairwise Allocation.disjoint :=
  ⟨by decide, by decide, allocations_disjoint sampleRequests (by decide) (by decide)⟩

end arena

/-! ### Arena: alignment, memory usage, dedicated arrays -/

namespace arena

theorem AllocateAligned_result_aligned (a : Arena) (fresh bytes : Nat)
    (hfresh : fresh % alignment = 0) :
    (AllocateAligned a fresh bytes).1 % alignment = 0 := by
  have hmod : a.alloc_ptr_ &&& 7 = a.alloc_ptr_ % 8 := Nat.and_pow_two_sub_one_eq_mod _ 3
  unfold AllocateAligned AllocateFallback AllocateNewBlock
  simp only [alignment, sizeofPointer, gt_iff_lt, lt_self_iff_false, reduceIte, Nat.reduceSub,
    hmod] at hfresh ⊢
  split_ifs <;> simp only [] <;> omega

theorem and_mask_eq_zero (p : Nat) (h : p % alignment = 0) : p &&& (alignment - 1) = 0 := by
  have hmod : p &&& 7 = p % 8 := Nat.and_pow_two_sub_one_eq_mod _ 3
  simp only [alignment, sizeofPointer, gt_iff_lt, lt_self_iff_false, reduceIte,
    Nat.reduceSub] at h ⊢
  omega

theorem run_aligned (reqs : List Request) (a : Arena)
    (hfresh : ∀ r ∈ reqs, r.fresh % alignment = 0) :
    ∀ p ∈ reqs.zip (run a reqs).2, p.1.aligned = true →
      p.2.result % alignment = 0 ∧ p.2.result &&& (alignment - 1) = 0 := by
  induction reqs generalizing a with
  | nil => intro p hp; simp [run] at hp
  | cons r rest ih =>
    intro p hp hal
    simp only [run, List.zip_cons_cons, List.mem_cons] at hp
    rcases hp with hp | hp
    · subst hp
      simp only at hal ⊢
      have h1 : (perform a r).1 % alignment = 0 := by
        unfold perform
        rw [if_pos hal]
        exact AllocateAligned_result_aligned a r.fresh r.bytes
          (hfresh r (List.mem_cons_self r rest))
      exact ⟨h1, and_mask_eq_zero _ h1⟩
    · exact ih _ (fun q hq => hfresh q (List.mem_cons_of_mem r hq)) p hp hal


theorem totalSize_append (bs : List Block) (b : Block) :
    totalSize (bs ++ [b]) = totalSize bs + b.size := by
  simp [totalSize]

theorem AllocateNewBlock_counted (a : Arena) (fresh n : Nat) (h : Counted a) :
    Counted (AllocateNewBlock a fresh n).2 := by
  unfold Counted at *
  simp only [AllocateNewBlock, totalSize_append, h]
  exact Nat.mod_add_mod _ _ _

theorem AllocateFallback_counted (a : Arena) (fresh n : Nat) (h : Counted a) :
    Counted (AllocateFallback a fresh n).2 := by
  unfold AllocateFallback
  split_ifs
  · exact AllocateNewBlock_counted a fresh n h
  · have hk := AllocateNewBlock_counted a fresh kBlockSize h
    unfold Counted at hk ⊢
    exact hk

theorem perform_counted (a : Arena) (r : Request) (h : Counted a) :
    Counted (perform a r).2 := by
  unfold perform Allocate AllocateAligned
  dsimp only
  split_ifs <;> first
    | exact AllocateFallback_counted a r.fresh r.bytes h
    | (unfold Counted at h ⊢; exact h)

theorem perform_accounted (a : Arena) (r : Request) (served : Nat)
    (h : Accounted a served) (hr : r.fits) :
    Accounted (perform a r).2 (served + r.bytes) := by
  have hs := slop_le a.alloc_ptr_
  unfold Accounted at *
  unfold perform Allocate AllocateAligned AllocateFallback AllocateNewBlock
  simp only [sizeofPointer, gt_iff_lt, lt_self_iff_false, reduceIte, Nat.reduceSub]
  by_cases hal : r.aligned = true
  · have hb := hr hal
    simp only [sizeModulus] at hb
    have hneeded : (r.bytes + (if a.alloc_ptr_ &&& 7 = 0 then 0 else 8 - (a.alloc_ptr_ &&& 7)))
        % sizeModulus
          = r.bytes + (if a.alloc_ptr_ &&& 7 = 0 then 0 else 8 - (a.alloc_ptr_ &&& 7)) := by
      simp only [sizeModulus]
      exact Nat.mod_eq_of_lt (by omega)
    simp only [hal, reduceIte, hneeded]
    split_ifs <;> simp only [totalSize_append, kBlockSize] at * <;> omega
  · simp only [hal]
    split_ifs <;> simp only [totalSize_append, kBlockSize] at * <;> omega

theorem run_accounted (reqs : List Request) (a : Arena) (served : Nat)
    (hc : Counted a) (h : Accounted a served) (hr : ∀ r ∈ reqs, r.fits) :
    Counted (run a reqs).1 ∧ Accounted (run a reqs).1 (served + requestedBytes reqs) := by
  induction reqs generalizing a served with
  | nil => simpa [run, requestedBytes] using ⟨hc, h⟩
  | cons r rest ih =>
    have h1 := perform_accounted a r served h (hr r (List.mem_cons_self r rest))
    have h2 := ih (perform a r).2 (served + r.bytes) (perform_counted a r hc) h1
      (fun q hq => hr q (List.mem_cons_of_mem r hq))
    simp only [requestedBytes, List.map_cons, List.sum_cons] at h2 ⊢
    simp only [run]
    rw [← Nat.add_assoc]
    exact h2

theorem Allocate_dedicated (a : Arena) (fresh n : Nat)
    (hrem : a.alloc_bytes_remaining_ < n) (hbig : kBlockSize / 4 < n) :
    (Allocate a fresh n).1 = fresh ∧
    (Allocate a fresh n).2.blocks_ = a.blocks_ ++ [{ base := fresh, size := n }] ∧
    (Allocate a fresh n).2.alloc_ptr_ = a.alloc_ptr_ ∧
    (Allocate a fresh n).2.alloc_bytes_remaining_ = a.alloc_bytes_remaining_ ∧
    (Allocate a fresh n).2.blocks_memory_ = (a.blocks_memory_ + n) % sizeModulus ∧
    (a.blocks_memory_ + n < sizeModulus →
      (Allocate a fresh n).2.blocks_memory_ = a.blocks_memory_ + n) := by
  have h1 : ¬ n ≤ a.alloc_bytes_remaining_ := by omega
  have h2 : n > kBlockSize / 4 := hbig
  simp only [Allocate, h1, reduceIte, AllocateFallback, h2, AllocateNewBlock, true_and]
  intro h
  exact Nat.mod_eq_of_lt h

theorem MemoryUsage_ge (reqs : List Request) (capacity : Nat)
    (hr : ∀ r ∈ reqs, r.fits)
    (hfit : totalSize (run Arena.create reqs).1.blocks_ + capacity * sizeofPointer
      < sizeModulus) :
    requestedBytes reqs ≤ MemoryUsage (run Arena.create reqs).1 capacity := by
  have h := run_accounted reqs Arena.create 0 (by simp [Counted, Arena.create, totalSize])
    (by simp [Accounted, Arena.create]) hr
  obtain ⟨h1, h2⟩ := h
  unfold Counted at h1
  unfold Accounted at h2
  unfold MemoryUsage
  rw [h1]
  simp only [sizeModulus, sizeofPointer] at hfit ⊢
  rw [Nat.mod_eq_of_lt (by omega), Nat.mod_eq_of_lt (by omega)]
  omega

/-- C11: when every array returned by the underlying allocator starts at a multiple of
`align = max(sizeof(void*), 8)`, every pointer returned by `AllocateAligned` is a multiple of
`align`, in every run of `Allocate` and `AllocateAligned` calls on a new arena; the assertion
`(result & (align-1)) == 0` at the end of `AllocateAligned` holds. -/
theorem AllocateAligned_pointers_aligned (reqs : List Request)
    (hfresh : ∀ r ∈ reqs, r.fresh % alignment = 0) :
    ∀ p ∈ reqs.zip (run Arena.create reqs).2, p.1.aligned = true →
      p.2.result % alignment = 0 ∧ p.2.result &&& (alignment - 1) = 0 :=
  run_aligned reqs Arena.create hfresh

/-- Witness of C11: the second request of `sampleRequests`, an aligned request served at
address 4104 after one byte was taken from the array at 4096. -/
theorem AllocateAligned_pointers_aligned_witness :
    (∀ r ∈ sampleRequests, r.fresh % alignment = 0) ∧
    (({ aligned := true, bytes := 16, fresh := 0 } : Request),
        ({ result := 4104, bytes := 16 } : Allocation))
      ∈ sampleRequests.zip (run Arena.create sampleRequests).2 ∧
    (4104 % alignment = 0 ∧ 4104 &&& (alignment - 1) = 0) :=
  ⟨by decide, by decide,
    AllocateAligned_pointers_aligned sampleRequests (by decide)
      ({ aligned := true, bytes := 16, fresh := 0 }, { result := 4104, bytes := 16 })
      (by decide) rfl⟩

/-- C18 as stated fails: after `Allocate(1)`, the call `AllocateAligned(SIZE_MAX - 6)` computes
`needed = bytes + slop = 0` modulo `2^64` and obtains no memory; the sizes requested sum to
`2^64 - 6` while `MemoryUsage()` is 4104 (one array of 4096 bytes and a vector capacity
of 1). -/
theorem MemoryUsage_counterexample :
    (∀ r ∈ hugeRequests, 0 < r.bytes ∧ r.bytes < sizeModulus) ∧
    (run Arena.create hugeRequests).1.blocks_.length ≤ 1 ∧
    requestedBytes hugeRequests = 2 ^ 64 - 6 ∧
    MemoryUsage (run Arena.create hugeRequests).1 1 = 4104 ∧
    ¬ requestedBytes hugeRequests ≤ MemoryUsage (run Arena.create hugeRequests).1 1 := by
  decide

/-- C18, amended: after any sequence of `Allocate` and `AllocateAligned` calls on a new arena
in which every `AllocateAligned(n)` has `n + 7` below `2^64`, when the memory obtained (the
arrays, and `sizeof(char*)` for each slot of the vector `blocks_`) stays below `2^64` bytes,
`MemoryUsage()` is at least the sum of the sizes requested. -/
theorem MemoryUsage_ge_requested (reqs : List Request) (capacity : Nat)
    (hr : ∀ r ∈ reqs, r.fits)
    (hfit : totalSize (run Arena.create reqs).1.blocks_ + capacity * sizeofPointer
      < sizeModulus) :
    requestedBytes reqs ≤ MemoryUsage (run Arena.create reqs).1 capacity :=
  MemoryUsage_ge reqs capacity hr hfit

/-- Witness of C18: the seven requests of `sampleRequests`, with a vector capacity of 4. -/
theorem MemoryUsage_ge_requested_witness :
    (∀ r ∈ sampleRequests, r.fits) ∧
    totalSize (run Arena.create sampleRequests).1.blocks_ + 4 * sizeofPointer < sizeModulus ∧
    requestedBytes sampleRequests ≤ MemoryUsage (run Arena.create sampleRequests).1 4 :=
  ⟨by decide, by decide, MemoryUsage_ge_requested sampleRequests 4 (by decide) (by decide)⟩

/-- C20: when `Allocate(n)` is called with `n` greater than the bytes remaining in the current
array and greater than a quarter of `kBlockSize` (1024), it obtains one new array of exactly
`n` bytes, returns its start, leaves `alloc_ptr_` and `alloc_bytes_remaining_` unchanged, and
adds `n` to `blocks_memory_` (in `size_t`; exactly `n` more when the sum stays below
`2^64`). -/
theorem Allocate_dedicated_block (a : Arena) (fresh n : Nat)
    (hrem : a.alloc_bytes_remaining_ < n) (hbig : kBlockSize / 4 < n) :
    (Allocate a fresh n).1 = fresh ∧
    (Allocate a fresh n).2.blocks_ = a.blocks_ ++ [{ base := fresh, size := n }] ∧
    (Allocate a fresh n).2.alloc_ptr_ = a.alloc_ptr_ ∧
    (Allocate a fresh n).2.alloc_bytes_remaining_ = a.alloc_bytes_remaining_ ∧
    (Allocate a fresh n).2.blocks_memory_ = (a.blocks_memory_ + n) % sizeModulus ∧
    (a.blocks_memory_ + n < sizeModulus →
      (Allocate a fresh n).2.blocks_memory_ = a.blocks_memory_ + n) :=
  Allocate_dedicated a fresh n hrem hbig

/-- Witness of C20: a request of 5000 bytes on the arena that has served the first two
requests of `sampleRequests` (4072 bytes remain in its array). -/
theorem Allocate_dedicated_block_witness :
    (run Arena.create (sampleRequests.take 2)).1.alloc_bytes_remaining_ < 5000 ∧
    kBlockSize / 4 < 5000 ∧
    (Allocate (run Arena.create (sampleRequests.take 2)).1 8192 5000).1 = 8192 ∧
    (Allocate (run Arena.create (sampleRequests.take 2)).1 8192 5000).2.alloc_ptr_
      = (run Arena.create (sampleRequests.take 2)).1.alloc_ptr_ :=
  ⟨by decide, by decide,
    (Allocate_dedicated_block (run Arena.create (sampleRequests.take 2)).1 8192 5000
      (by decide) (by decide)).1,
    (Allocate_dedicated_block (run Arena.create (sampleRequests.take 2)).1 8192 5000
      (by decide) (by decide)).2.2.1⟩

end arena

/-! ### Codec: fixed-width decoding -/

theorem or_shiftLeft_eq_add (a b i : Nat) (h : a < 2 ^ i) : a ||| (b <<< i) = a + b * 2 ^ i := by
  rw [Nat.shiftLeft_eq, Nat.or_comm, Nat.mul_comm b, ← Nat.mul_add_lt_is_or h, Nat.add_comm]

theorem shiftLeft_or_eq_add (a b i : Nat) (h : a < 2 ^ i) : (b <<< i) ||| a = a + b * 2 ^ i := by
  rw [Nat.or_comm, or_shiftLeft_eq_add a b i h]

theorem toByte_val (n : Nat) : (toByte n).val = n % 256 := rfl

theorem byte_of (v k : Nat) : (v >>> k) &&& 0xff = v / 2 ^ k % 256 := by
  rw [Nat.shiftRight_eq_div_pow]
  exact Nat.and_pow_two_sub_one_eq_mod _ 8

theorem byte_zero (v : Nat) : v &&& 0xff = v % 256 := Nat.and_pow_two_sub_one_eq_mod _ 8

theorem DecodeFixed32_EncodeFixed32 (k : Bool) (v : Nat) (hv : v < 2 ^ 32) :
    DecodeFixed32 k (EncodeFixed32 v) = v := by
  cases k
  · simp only [DecodeFixed32, EncodeFixed32, Bool.false_eq_true, reduceIte, List.getD_cons_zero,
      List.getD_cons_succ, toByte_val, byte_of, byte_zero]
    rw [or_shiftLeft_eq_add _ _ 8 (by omega), or_shiftLeft_eq_add _ _ 16 (by omega),
      or_shiftLeft_eq_add _ _ 24 (by omega)]
    omega
  · simp only [DecodeFixed32, EncodeFixed32, reduceIte, loadLittleEndian, List.getD_cons_zero,
      List.drop_succ_cons, List.drop_zero, toByte_val, byte_of, byte_zero]
    omega


theorem DecodeFixed32_bytes (b0 b1 b2 b3 : Byte) (rest : List Byte) :
    DecodeFixed32 false (b0 :: b1 :: b2 :: b3 :: rest)
      = b0.val + b1.val * 2 ^ 8 + b2.val * 2 ^ 16 + b3.val * 2 ^ 24 := by
  have h0 := b0.isLt
  have h1 := b1.isLt
  have h2 := b2.isLt
  simp only [DecodeFixed32, Bool.false_eq_true, reduceIte, List.getD_cons_zero,
    List.getD_cons_succ]
  rw [or_shiftLeft_eq_add _ _ 8 (by omega), or_shiftLeft_eq_add _ _ 16 (by omega),
    or_shiftLeft_eq_add _ _ 24 (by omega)]

theorem DecodeFixed64_EncodeFixed64 (k : Bool) (v : Nat) (hv : v < 2 ^ 64) :
    DecodeFixed64 k (EncodeFixed64 v) = v := by
  cases k
  · simp only [DecodeFixed64, EncodeFixed64, Bool.false_eq_true, reduceIte, List.drop_succ_cons,
      List.drop_zero, DecodeFixed32_bytes, toByte_val, byte_of, byte_zero]
    rw [shiftLeft_or_eq_add _ _ 32 (by omega)]
    omega
  · simp only [DecodeFixed64, EncodeFixed64, reduceIte, loadLittleEndian, List.getD_cons_zero,
      List.drop_succ_cons, List.drop_zero, toByte_val, byte_of, byte_zero]
    omega

/-- C12: fixed-width decoding inverts least-significant-byte-first encoding, whatever the
value of `port::kLittleEndian`: `DecodeFixed32` applied to the four bytes
`v & 0xff, (v>>8) & 0xff, (v>>16) & 0xff, (v>>24) & 0xff` of a 32-bit `v` returns `v`, and
`DecodeFixed64` applied to the eight bytes of a 64-bit `v` returns `v`. -/
theorem DecodeFixed_inverts_EncodeFixed (kLittleEndian : Bool) :
    (∀ v, v < 2 ^ 32 → DecodeFixed32 kLittleEndian (EncodeFixed32 v) = v) ∧
    (∀ v, v < 2 ^ 64 → DecodeFixed64 kLittleEndian (EncodeFixed64 v) = v) :=
  ⟨DecodeFixed32_EncodeFixed32 kLittleEndian, DecodeFixed64_EncodeFixed64 kLittleEndian⟩

/-- Witness of C12: the values `0x12345678` and `0x123456789abcdef0`, decoded by the
portable branch (`port::kLittleEndian` false). -/
theorem DecodeFixed_inverts_EncodeFixed_witness :
    (0x12345678 < 2 ^ 32 ∧ DecodeFixed32 false (EncodeFixed32 0x12345678) = 0x12345678) ∧
    (0x123456789abcdef0 < 2 ^ 64 ∧
      DecodeFixed64 false (EncodeFixed64 0x123456789abcdef0) = 0x123456789abcdef0) :=
  ⟨⟨by decide, (DecodeFixed_inverts_EncodeFixed false).1 0x12345678 (by decide)⟩,
    ⟨by decide, (DecodeFixed_inverts_EncodeFixed false).2 0x123456789abcdef0 (by decide)⟩⟩

/-! ### Log writer: block switch, empty record, three records -/

namespace log

theorem EmitPhysicalRecord_calls (crc : Crc32c) (w : Writer) (t : RecordType) (ptr : List Byte)
    (n : Nat) : w.dest_.calls <+: (EmitPhysicalRecord crc w t ptr n).2.dest_.calls := by
  simp only [EmitPhysicalRecord, WritableFile.Append, WritableFile.Flush]
  split_ifs <;> simp only [List.append_assoc] <;> exact List.prefix_append _ _

theorem switchBlock_calls (w : Writer) (hoff : w.block_offset_ ≤ kBlockSize) :
    (switchBlock w).dest_.calls
      = w.dest_.calls ++
        (if 0 < kBlockSize - w.block_offset_ ∧ kBlockSize - w.block_offset_ < kHeaderSize then
          [FileCall.Append (List.replicate (kBlockSize - w.block_offset_) 0)]
        else []) := by
  unfold switchBlock
  simp only [kBlockSize, kHeaderSize, WritableFile.Append] at *
  split_ifs with h1 h2 h3 h4 h5 <;> push_cast at * <;> first
    | (exfalso; omega)
    | simp
  · obtain ⟨h3a, h3b⟩ := h3
    generalize 32768 - w.block_offset_ = k at h3a h3b ⊢
    interval_cases k <;> rfl

theorem iteration_calls (crc : Crc32c) (w : Writer) (ptr : List Byte) ( begin : Bool) :
    (iteration crc w ptr begin).2.dest_.calls
      = (switchBlock w).dest_.calls ++ (iterationEmission crc w ptr begin).writes := by
  obtain ⟨t, ht⟩ := EmitPhysicalRecord_calls crc (switchBlock w)
    (chooseType begin (ptr.length == fragmentLength (switchBlock w) ptr.length)) ptr
    (fragmentLength (switchBlock w) ptr.length)
  simp only [iterationEmission, iteration]
  rw [← ht, List.drop_left]

theorem loop_calls (crc : Crc32c) (w : Writer) (ptr : List Byte) ( begin : Bool) :
    ∃ more, (AddRecord.loop crc w ptr begin).2.1.dest_.calls
      = (switchBlock w).dest_.calls ++ ((iterationEmission crc w ptr begin).writes ++ more) := by
  induction w, ptr, begin using AddRecord.loop.induct crc with
  | case1 w ptr begin r fl hc ih =>
    obtain ⟨more, hm⟩ := ih
    have hsw : r.2.dest_.calls <+: (switchBlock r.2).dest_.calls := by
      unfold switchBlock
      simp only [WritableFile.Append]
      split_ifs <;> first | exact List.prefix_refl _ | exact List.prefix_append _ _
    obtain ⟨pad, hpad⟩ := hsw
    rw [AddRecord.loop, if_pos hc]
    refine ⟨pad ++ ((iterationEmission crc r.2 (List.drop fl ptr) false).writes ++ more), ?_⟩
    show (AddRecord.loop crc r.2 (List.drop fl ptr) false).2.1.dest_.calls = _
    rw [hm, ← hpad]
    show ((iteration crc w ptr begin).2.dest_.calls ++ pad) ++ _ = _
    rw [iteration_calls]
    simp only [List.append_assoc]
  | case2 w ptr begin r fl hc =>
    rw [AddRecord.loop, if_neg hc]
    refine ⟨[], ?_⟩
    show (iteration crc w ptr begin).2.dest_.calls = _
    rw [iteration_calls, List.append_nil]

theorem loop_first_emission (crc : Crc32c) (w : Writer) (ptr : List Byte) ( begin : Bool) :
    ∃ rest, (AddRecord.loop crc w ptr begin).2.2 = iterationEmission crc w ptr begin :: rest := by
  rw [AddRecord.loop]
  split_ifs
  · exact ⟨_, rfl⟩
  · exact ⟨[], rfl⟩


theorem loop_healthy (crc : Crc32c) (w : Writer) (ptr : List Byte) ( begin : Bool)
    (h : healthy w.dest_) : healthy (AddRecord.loop crc w ptr begin).2.1.dest_ := by
  induction w, ptr, begin using AddRecord.loop.induct crc with
  | case1 w ptr begin r fl hc ih =>
    rw [AddRecord.loop, if_pos hc]
    exact ih (iteration_healthy crc w ptr begin h)
  | case2 w ptr begin r fl hc =>
    rw [AddRecord.loop, if_neg hc]
    exact iteration_healthy crc w ptr begin h

/-- With a sink that succeeds, a record that fits in the block is emitted as one fragment. -/
theorem loop_fits (crc : Crc32c) (w : Writer) (ptr : List Byte) ( begin : Bool) (o : Nat)
    (h : healthy w.dest_) (ho : (switchBlock w).block_offset_ = o)
    (hfit : o + 7 + ptr.length ≤ 32768) :
    (AddRecord.loop crc w ptr begin).2.2.map Emission.summary = [(chooseType begin true, ptr, o)] ∧
    (AddRecord.loop crc w ptr begin).2.1.block_offset_ = o + 7 + ptr.length ∧
    healthy (AddRecord.loop crc w ptr begin).2.1.dest_ := by
  have hfl : fragmentLength (switchBlock w) ptr.length = ptr.length := by
    simp only [fragmentLength, ho, kBlockSize, kHeaderSize]
    split_ifs <;> push_cast at * <;> omega
  refine ⟨?_, ?_, loop_healthy crc w ptr begin h⟩
  · rw [loop_last crc w ptr begin (by rw [hfl])]
    simp only [List.map_cons, List.map_nil, Emission.summary, iterationEmission, hfl, ho,
      beq_self_eq_true, List.take_length]
  · rw [loop_last crc w ptr begin (by rw [hfl])]
    simp only [iteration_block_offset, hfl, ho]

/-- With a sink that succeeds, a record that does not fit in the block is split: the first
fragment fills the block and the loop goes on with the rest, at the end of the block. -/
theorem loop_splits (crc : Crc32c) (w : Writer) (ptr : List Byte) ( begin : Bool) (o : Nat)
    (h : healthy w.dest_) (ho : (switchBlock w).block_offset_ = o)
    (hsplit : 32768 < o + 7 + ptr.length) :
    ∃ w2, healthy w2.dest_ ∧ w2.block_offset_ = 32768 ∧
      (AddRecord.loop crc w ptr begin).2.1
        = (AddRecord.loop crc w2 (ptr.drop (32768 - o - 7)) false).2.1 ∧
      (AddRecord.loop crc w ptr begin).2.2.map Emission.summary
        = (chooseType begin false, ptr.take (32768 - o - 7), o) ::
          (AddRecord.loop crc w2 (ptr.drop (32768 - o - 7)) false).2.2.map Emission.summary := by
  have ho7 : o + 7 ≤ 32768 := by
    have := fragmentLength_fits w ptr.length
    omega
  have hfl : fragmentLength (switchBlock w) ptr.length = 32768 - o - 7 := by
    simp only [fragmentLength, ho, kBlockSize, kHeaderSize]
    split_ifs <;> push_cast at * <;> omega
  have hc : (iteration crc w ptr begin).1.ok = true ∧
      0 < ptr.length - fragmentLength (switchBlock w) ptr.length := by
    rw [iteration_ok crc w ptr begin h, hfl]
    exact ⟨rfl, by omega⟩
  refine ⟨(iteration crc w ptr begin).2, iteration_healthy crc w ptr begin h, ?_, ?_, ?_⟩
  · rw [iteration_block_offset, hfl, ho]
    omega
  · conv_lhs => rw [AddRecord.loop, if_pos hc]
    simp only [hfl]
  · conv_lhs => rw [AddRecord.loop, if_pos hc]
    have hne : (ptr.length == 32768 - o - 7) = false := by
      rw [beq_eq_false_iff_ne]
      omega
    simp only [List.map_cons, Emission.summary, iterationEmission, hfl, ho, hne]


/-- C14: when `AddRecord` is entered with `leftover = 32768 - block_offset_`, the sink calls it
issues are: for `0 < leftover < 7`, first an `Append` of exactly `leftover` zero bytes and
then the writes of the first physical record, which is emitted at block offset 0; for
`leftover = 0`, the writes of the first record with nothing before them, at block offset 0;
for `leftover >= 7`, the writes of the first record with nothing before them, at the current
block offset. The first write of the record is its 7-byte header. -/
theorem AddRecord_block_switch (crc : Crc32c) (w : Writer) (data : List Byte)
    (hoff : w.block_offset_ ≤ kBlockSize) :
    ∃ e rest more buf,
      (AddRecord crc w data).2.2 = e :: rest ∧
      e.writes.head? = some (FileCall.Append buf) ∧ buf.length = kHeaderSize ∧
      (0 < kBlockSize - w.block_offset_ ∧ kBlockSize - w.block_offset_ < kHeaderSize →
        (AddRecord crc w data).2.1.dest_.calls
          = w.dest_.calls ++
            FileCall.Append (List.replicate (kBlockSize - w.block_offset_) 0) ::
              (e.writes ++ more) ∧
        e.block_offset = 0) ∧
      (kBlockSize - w.block_offset_ = 0 →
        (AddRecord crc w data).2.1.dest_.calls = w.dest_.calls ++ (e.writes ++ more) ∧
        e.block_offset = 0) ∧
      (kHeaderSize ≤ kBlockSize - w.block_offset_ →
        (AddRecord crc w data).2.1.dest_.calls = w.dest_.calls ++ (e.writes ++ more) ∧
        e.block_offset = w.block_offset_) := by
  obtain ⟨rest, hrest⟩ := loop_first_emission crc w data true
  obtain ⟨more, hmore⟩ := loop_calls crc w data true
  have hsw := switchBlock_calls w hoff
  have hso := switchBlock_block_offset w
  have hhead : (iterationEmission crc w data true).writes.head?
      = some (FileCall.Append (formatHeader crc (switchBlock w).type_crc_
          (iterationEmission crc w data true).t data
          (fragmentLength (switchBlock w) data.length))) := by
    simp only [iterationEmission, iteration]
    exact EmitPhysicalRecord_first_call crc (switchBlock w) _ data _
  have hbo : (iterationEmission crc w data true).block_offset = (switchBlock w).block_offset_ :=
    rfl
  refine ⟨iterationEmission crc w data true, rest, more, _, hrest, hhead,
    formatHeader_length _ _ _ _ _, ?_, ?_, ?_⟩
  · intro hl
    rw [if_pos hl] at hsw
    refine ⟨?_, ?_⟩
    · unfold AddRecord
      rw [hmore, hsw, List.append_assoc, List.singleton_append]
    · rw [hbo, hso]
      simp only [kBlockSize, kHeaderSize] at hl
      rw [if_neg (by omega)]
  · intro hl
    rw [if_neg (by omega)] at hsw
    refine ⟨?_, ?_⟩
    · unfold AddRecord
      rw [hmore, hsw, List.append_nil]
    · rw [hbo, hso]
      simp only [kBlockSize] at hl hoff
      rw [if_neg (by omega)]
  · intro hl
    rw [if_neg (by omega)] at hsw
    refine ⟨?_, ?_⟩
    · unfold AddRecord
      rw [hmore, hsw, List.append_nil]
    · rw [hbo, hso]
      simp only [kBlockSize, kHeaderSize] at hl
      rw [if_pos (by omega)]

/-- Witness of C14: a writer with three bytes left in its block. -/
theorem AddRecord_block_switch_witness :
    (writerAt sumCrc 32765).block_offset_ ≤ kBlockSize ∧
    ∃ e rest more buf,
      (AddRecord sumCrc (writerAt sumCrc 32765) [1, 2, 3]).2.2 = e :: rest ∧
      e.writes.head? = some (FileCall.Append buf) ∧ buf.length = kHeaderSize ∧
      (0 < kBlockSize - (writerAt sumCrc 32765).block_offset_ ∧
          kBlockSize - (writerAt sumCrc 32765).block_offset_ < kHeaderSize →
        (AddRecord sumCrc (writerAt sumCrc 32765) [1, 2, 3]).2.1.dest_.calls
          = (writerAt sumCrc 32765).dest_.calls ++
            FileCall.Append
              (List.replicate (kBlockSize - (writerAt sumCrc 32765).block_offset_) 0) ::
              (e.writes ++ more) ∧
        e.block_offset = 0) ∧
      (kBlockSize - (writerAt sumCrc 32765).block_offset_ = 0 →
        (AddRecord sumCrc (writerAt sumCrc 32765) [1, 2, 3]).2.1.dest_.calls
          = (writerAt sumCrc 32765).dest_.calls ++ (e.writes ++ more) ∧
        e.block_offset = 0) ∧
      (kHeaderSize ≤ kBlockSize - (writerAt sumCrc 32765).block_offset_ →
        (AddRecord sumCrc (writerAt sumCrc 32765) [1, 2, 3]).2.1.dest_.calls
          = (writerAt sumCrc 32765).dest_.calls ++ (e.writes ++ more) ∧
        e.block_offset = (writerAt sumCrc 32765).block_offset_) :=
  ⟨by decide, AddRecord_block_switch sumCrc (writerAt sumCrc 32765) [1, 2, 3] (by decide)⟩

/-- C15: from every block offset in [0, 32768], `AddRecord` of an empty record emits exactly
one physical record, of type `FULL` with an empty payload, and leaves the block offset 7
above the offset at which that record was emitted (whatever the sink answers). -/
theorem AddRecord_empty_record (crc : Crc32c) (w : Writer)
    (_hoff : w.block_offset_ ≤ kBlockSize) :
    ∃ e, (AddRecord crc w []).2.2 = [e] ∧ e.t = RecordType.kFullType ∧ e.payload.length = 0 ∧
      (AddRecord crc w []).2.1.block_offset_ = e.block_offset + kHeaderSize := by
  have hfl : fragmentLength (switchBlock w) ([] : List Byte).length = 0 := by
    have := fragmentLength_le (switchBlock w) ([] : List Byte).length
    simpa using this
  refine ⟨iterationEmission crc w [] true, ?_, ?_, ?_, ?_⟩
  · unfold AddRecord
    rw [loop_last crc w [] true (by rw [hfl]; simp)]
  · have hfl0 : fragmentLength (switchBlock w) 0 = 0 := hfl
    simp [iterationEmission, chooseType, hfl0]
  · simp [iterationEmission]
  · unfold AddRecord
    rw [loop_last crc w [] true (by rw [hfl]; simp)]
    simp only [iteration_block_offset, hfl, iterationEmission, kHeaderSize]

/-- Witness of C15: an empty record added when exactly seven bytes are left in the block. -/
theorem AddRecord_empty_record_witness :
    (writerAt sumCrc 32761).block_offset_ ≤ kBlockSize ∧
    ∃ e, (AddRecord sumCrc (writerAt sumCrc 32761) []).2.2 = [e] ∧
      e.t = RecordType.kFullType ∧ e.payload.length = 0 ∧
      (AddRecord sumCrc (writerAt sumCrc 32761) []).2.1.block_offset_
        = e.block_offset + kHeaderSize :=
  ⟨by decide, AddRecord_empty_record sumCrc (writerAt sumCrc 32761) (by decide)⟩

/-- C16: records of 10, 32768 and 5 bytes added in that order to a new writer whose sink
succeeds give four physical records: `FULL` with the 10 bytes at block offset 0; `FIRST`
with the first 32744 bytes of the second record at offset 17, filling the first block;
`LAST` with its remaining 24 bytes at offset 0 of the next block; `FULL` with the 5 bytes at
offset 31. -/
theorem AddRecords_three_records (crc : Crc32c) (answer : Nat → Status)
    (r1 r2 r3 : List Byte) (hok : ∀ k, answer k = Status.OK)
    (h1 : r1.length = 10) (h2 : r2.length = 32768) (h3 : r3.length = 5) :
    (AddRecords crc (Writer.create crc (emptyFile answer)) [r1, r2, r3]).2.map Emission.summary
      = [(RecordType.kFullType, r1, 0), (RecordType.kFirstType, r2.take 32744, 17),
         (RecordType.kLastType, r2.drop 32744, 0), (RecordType.kFullType, r3, 31)] ∧
    (r2.take 32744).length = 32744 ∧ (r2.drop 32744).length = 24 := by
  have hh : healthy (Writer.create crc (emptyFile answer)).dest_ := fun k _ => hok k
  -- first record
  obtain ⟨a1, a2, a3⟩ := loop_fits crc (Writer.create crc (emptyFile answer)) r1 true 0 hh
    (by rw [switchBlock_block_offset]; rfl) (by omega)
  -- second record: first fragment
  obtain ⟨w2, b1, b2, b3, b4⟩ := loop_splits crc
    (AddRecord.loop crc (Writer.create crc (emptyFile answer)) r1 true).2.1 r2 true 17 a3
    (by rw [switchBlock_block_offset, a2, h1]; rfl) (by omega)
  -- second record: last fragment
  obtain ⟨c1, c2, c3⟩ := loop_fits crc w2 (r2.drop (32768 - 17 - 7)) false 0 b1
    (by rw [switchBlock_block_offset, b2]; rfl) (by simp only [List.length_drop]; omega)
  -- third record
  rw [← b3] at c2 c3
  obtain ⟨d1, d2, d3⟩ := loop_fits crc
    (AddRecord.loop crc (AddRecord.loop crc (Writer.create crc (emptyFile answer)) r1 true).2.1
      r2 true).2.1 r3 true 31 c3
    (by rw [switchBlock_block_offset, c2]; simp only [List.length_drop]; rw [h2]; rfl)
    (by omega)
  refine ⟨?_, by simp only [List.length_take]; omega, by simp only [List.length_drop]; omega⟩
  simp only [AddRecords, AddRecord, List.map_append, List.map_nil, List.append_nil, a1, b4, c1,
    d1]
  rfl


/-- Witness of C16: records made of 10 bytes 01, 32768 bytes 02 and 5 bytes 03, with the
checksum `sumCrc` and a sink that always succeeds. -/
theorem AddRecords_three_records_witness :
    (∀ k, (fun _ => Status.OK : Nat → Status) k = Status.OK) ∧
    (List.replicate 10 (1 : Byte)).length = 10 ∧
    (List.replicate 32768 (2 : Byte)).length = 32768 ∧
    (List.replicate 5 (3 : Byte)).length = 5 ∧
    (AddRecords sumCrc (Writer.create sumCrc (emptyFile (fun _ => Status.OK)))
        [List.replicate 10 1, List.replicate 32768 2, List.replicate 5 3]).2.map
          Emission.summary
      = [(RecordType.kFullType, List.replicate 10 1, 0),
         (RecordType.kFirstType, (List.replicate 32768 2).take 32744, 17),
         (RecordType.kLastType, (List.replicate 32768 2).drop 32744, 0),
         (RecordType.kFullType, List.replicate 5 3, 31)] ∧
    ((List.replicate 32768 (2 : Byte)).take 32744).length = 32744 ∧
    ((List.replicate 32768 (2 : Byte)).drop 32744).length = 24 :=
  ⟨fun _ => rfl, List.length_replicate _ _, List.length_replicate _ _,
    List.length_replicate _ _,
    AddRecords_three_records sumCrc (fun _ => Status.OK) (List.replicate 10 1)
      (List.replicate 32768 2) (List.replicate 5 3) (fun _ => rfl)
      (List.length_replicate _ _) (List.length_replicate _ _) (List.length_replicate _ _)⟩

end log

/-! ### Snapshot list -/

namespace snapshot

@[simp] theorem setNext_next (mem : Nat → SnapshotImpl) (p v a : Nat) :
    (setNext mem p v a).next_ = if a = p then v else (mem a).next_ := by
  unfold setNext; split_ifs <;> rfl

@[simp] theorem setNext_prev (mem : Nat → SnapshotImpl) (p v a : Nat) :
    (setNext mem p v a).prev_ = (mem a).prev_ := by
  unfold setNext; split_ifs <;> rfl

@[simp] theorem setNext_number (mem : Nat → SnapshotImpl) (p v a : Nat) :
    (setNext mem p v a).number_ = (mem a).number_ := by
  unfold setNext; split_ifs <;> rfl

@[simp] theorem setPrev_next (mem : Nat → SnapshotImpl) (p v a : Nat) :
    (setPrev mem p v a).next_ = (mem a).next_ := by
  unfold setPrev; split_ifs <;> rfl

@[simp] theorem setPrev_prev (mem : Nat → SnapshotImpl) (p v a : Nat) :
    (setPrev mem p v a).prev_ = if a = p then v else (mem a).prev_ := by
  unfold setPrev; split_ifs <;> rfl

@[simp] theorem setPrev_number (mem : Nat → SnapshotImpl) (p v a : Nat) :
    (setPrev mem p v a).number_ = (mem a).number_ := by
  unfold setPrev; split_ifs <;> rfl

@[simp] theorem setNumber_next (mem : Nat → SnapshotImpl) (p v a : Nat) :
    (setNumber mem p v a).next_ = (mem a).next_ := by
  unfold setNumber; split_ifs <;> rfl

@[simp] theorem setNumber_prev (mem : Nat → SnapshotImpl) (p v a : Nat) :
    (setNumber mem p v a).prev_ = (mem a).prev_ := by
  unfold setNumber; split_ifs <;> rfl

@[simp] theorem setNumber_number (mem : Nat → SnapshotImpl) (p v a : Nat) :
    (setNumber mem p v a).number_ = if a = p then v else (mem a).number_ := by
  unfold setNumber; split_ifs <;> rfl

@[simp] theorem setList_next (mem : Nat → SnapshotImpl) (p v a : Nat) :
    (setList mem p v a).next_ = (mem a).next_ := by
  unfold setList; split_ifs <;> rfl

@[simp] theorem setList_prev (mem : Nat → SnapshotImpl) (p v a : Nat) :
    (setList mem p v a).prev_ = (mem a).prev_ := by
  unfold setList; split_ifs <;> rfl

@[simp] theorem setList_number (mem : Nat → SnapshotImpl) (p v a : Nat) :
    (setList mem p v a).number_ = (mem a).number_ := by
  unfold setList; split_ifs <;> rfl

/-- The links read by `linked` in a memory that agrees with `mem` on them. -/
theorem linked_congr (mem m2 : Nat → SnapshotImpl) (p : Nat) (xs : List Nat) (q : Nat)
    (hn : ∀ a ∈ p :: xs, (m2 a).next_ = (mem a).next_)
    (hp : ∀ a ∈ xs ++ [q], (m2 a).prev_ = (mem a).prev_)
    (h : linked mem p xs q) : linked m2 p xs q := by
  induction xs generalizing p with
  | nil =>
    obtain ⟨h1, h2⟩ := h
    exact ⟨by rw [hn p (List.mem_cons_self _ _), h1], by rw [hp q (by simp), h2]⟩
  | cons x xs ih =>
    obtain ⟨h1, h2, h3⟩ := h
    refine ⟨by rw [hn p (List.mem_cons_self _ _), h1], by rw [hp x (by simp), h2], ?_⟩
    exact ih x (fun a ha => hn a (List.mem_cons_of_mem _ ha))
      (fun a ha => hp a (by simp only [List.cons_append, List.mem_cons]; exact Or.inr ha)) h3

/-- The node before `q` is the last of `p :: xs`. -/
theorem linked_prev (mem : Nat → SnapshotImpl) (p : Nat) (xs : List Nat) (q : Nat)
    (h : linked mem p xs q) : (mem q).prev_ = (p :: xs).getLast (List.cons_ne_nil _ _) := by
  induction xs generalizing p with
  | nil => exact h.2
  | cons x xs ih =>
    rw [List.getLast_cons (List.cons_ne_nil _ _)]
    exact ih x h.2.2

/-- The neighbours of a node `s` of the list. -/
theorem linked_neighbours (mem : Nat → SnapshotImpl) (p : Nat) (A : List Nat) (s : Nat)
    (B : List Nat) (q : Nat) (h : linked mem p (A ++ s :: B) q) :
    (mem s).prev_ ∈ p :: A ∧ (mem s).next_ ∈ B ++ [q] := by
  induction A generalizing p with
  | nil =>
    obtain ⟨_, h2, h3⟩ := h
    refine ⟨by simp [h2], ?_⟩
    cases B with
    | nil => simp [h3.1]
    | cons b B => simp [h3.1]
  | cons a A ih =>
    obtain ⟨_, _, h3⟩ := h
    obtain ⟨i1, i2⟩ := ih a h3
    exact ⟨List.mem_cons_of_mem _ i1, i2⟩


/-- Linking a new node `s` between the last node and `q`. -/
theorem linked_append (mem m2 : Nat → SnapshotImpl) (p : Nat) (xs : List Nat) (q s t : Nat)
    (h : linked mem p xs q) (ht : t = (p :: xs).getLast (List.cons_ne_nil _ _))
    (hs : s ∉ p :: xs) (hsq : s ≠ q) (hnd : (p :: xs).Nodup) (hq : q ∉ xs)
    (hn : ∀ a, (m2 a).next_ = if a = t then s else if a = s then q else (mem a).next_)
    (hp : ∀ a, (m2 a).prev_ = if a = q then s else if a = s then t else (mem a).prev_) :
    linked m2 p (xs ++ [s]) q := by
  induction xs generalizing p with
  | nil =>
    simp only [List.getLast_singleton] at ht
    subst ht
    have hst : s ≠ t := fun e => hs (by simp [e])
    refine ⟨?_, ?_, ?_, ?_⟩
    · rw [hn]; simp
    · rw [hp]; simp [hsq]
    · rw [hn]; simp [hst]
    · rw [hp]; simp
  | cons x xs ih =>
    obtain ⟨h1, h2, h3⟩ := h
    rw [List.getLast_cons (List.cons_ne_nil _ _)] at ht
    have hnd2 : (x :: xs).Nodup := (List.nodup_cons.mp hnd).2
    have hpx : p ∉ x :: xs := (List.nodup_cons.mp hnd).1
    have htm : t ∈ x :: xs := by rw [ht]; exact List.getLast_mem _
    have hpt : p ≠ t := fun e => hpx (e ▸ htm)
    have hps : p ≠ s := fun e => hs (by simp [e])
    have hxs : x ≠ s := fun e => hs (by simp [e])
    have hxq : x ≠ q := fun e => hq (by simp [e])
    refine ⟨?_, ?_, ?_⟩
    · rw [hn]; simp [hpt, hps, h1]
    · rw [hp]; simp [hxq, hxs, h2]
    · exact ih x h3 ht (fun hm => hs (List.mem_cons_of_mem _ hm)) hnd2
        (fun hm => hq (List.mem_cons_of_mem _ hm))

/-- Unlinking the node `s`. -/
theorem linked_unlink (mem m2 : Nat → SnapshotImpl) (p : Nat) (A : List Nat) (s : Nat)
    (B : List Nat) (q : Nat) (h : linked mem p (A ++ s :: B) q)
    (hnd : (p :: (A ++ s :: B)).Nodup) (hq : q ∉ A ++ s :: B)
    (hn : ∀ a, (m2 a).next_ = if a = (mem s).prev_ then (mem s).next_ else (mem a).next_)
    (hp : ∀ a, (m2 a).prev_ = if a = (mem s).next_ then (mem s).prev_ else (mem a).prev_) :
    linked m2 p (A ++ B) q := by
  induction A generalizing p with
  | nil =>
    simp only [List.nil_append] at h hnd hq ⊢
    obtain ⟨h1, h2, h3⟩ := h
    have hps : p ∉ s :: B := (List.nodup_cons.mp hnd).1
    have hsB : s ∉ B := (List.nodup_cons.mp (List.nodup_cons.mp hnd).2).1
    cases B with
    | nil =>
      obtain ⟨h4, h5⟩ := h3
      refine ⟨?_, ?_⟩
      · rw [hn]; simp [h2, h4]
      · rw [hp]; simp [h2, h4]
    | cons b B =>
      obtain ⟨h4, h5, h6⟩ := h3
      have hbB : b ∉ B :=
        (List.nodup_cons.mp (List.nodup_cons.mp (List.nodup_cons.mp hnd).2).2).1
      refine ⟨?_, ?_, ?_⟩
      · rw [hn]; simp [h2, h4]
      · rw [hp]; simp [h2, h4]
      · apply linked_congr mem m2 b B q _ _ h6
        · intro a ha
          have hap : a ≠ p := fun e => hps (by rw [← e]; exact List.mem_cons_of_mem _ ha)
          rw [hn]; simp [h2, hap]
        · intro a ha
          have hab : a ≠ b := by
            intro e
            rcases List.mem_append.mp ha with hm | hm
            · exact hbB (e ▸ hm)
            · simp only [List.mem_singleton] at hm
              exact hq (by simp [← hm, e])
          rw [hp]; simp [h4, hab]
  | cons a A ih =>
    obtain ⟨h1, h2, h3⟩ := h
    have hnd2 : (a :: (A ++ s :: B)).Nodup := (List.nodup_cons.mp hnd).2
    have hpn : p ∉ a :: (A ++ s :: B) := (List.nodup_cons.mp hnd).1
    have haL : a ∉ A ++ s :: B := (List.nodup_cons.mp hnd2).1
    obtain ⟨n1, n2⟩ := linked_neighbours mem a A s B q h3
    have hp1 : p ≠ (mem s).prev_ := by
      intro e
      apply hpn
      rw [e]
      rcases List.mem_cons.mp n1 with hm | hm
      · rw [hm]; exact List.mem_cons_self _ _
      · exact List.mem_cons_of_mem _ (List.mem_append_left _ hm)
    have ha1 : a ≠ (mem s).next_ := by
      intro e
      rcases List.mem_append.mp n2 with hm | hm
      · exact haL (by rw [e]; exact List.mem_append_right _ (List.mem_cons_of_mem _ hm))
      · simp only [List.mem_singleton] at hm
        exact hq (by rw [← hm, ← e]; exact List.mem_cons_self _ _)
    refine ⟨?_, ?_, ?_⟩
    · rw [hn]; simp [hp1, h1]
    · rw [hp]; simp [ha1, h2]
    · exact ih a h3 hnd2 (fun hm => hq (List.mem_cons_of_mem _ hm))


theorem create_rep (this : Nat) (mem : Nat → SnapshotImpl) :
    Rep (SnapshotList.create this mem) [] := by
  refine ⟨?_, List.nodup_nil, by simp, by simp⟩
  simp [SnapshotList.create, linked]

theorem New_rep (l : SnapshotList) (live : List (Nat × Nat)) (s seq : Nat)
    (h : Rep l live) (hs : s ≠ l.this) (hfresh : s ∉ live.map Prod.fst) :
    Rep (l.New s seq).2 (live ++ [(s, seq)]) := by
  obtain ⟨h1, h2, h3, h4⟩ := h
  have ht := linked_prev l.mem l.this (live.map Prod.fst) l.this h1
  have hsl : s ∉ l.this :: live.map Prod.fst := by
    simp only [List.mem_cons, not_or]
    exact ⟨hs, hfresh⟩
  have hst : s ≠ (l.mem l.this).prev_ := by
    intro e
    apply hsl
    rw [e, ht]
    exact List.getLast_mem _
  have hnd : (l.this :: live.map Prod.fst).Nodup := List.nodup_cons.mpr ⟨h3, h2⟩
  refine ⟨?_, ?_, ?_, ?_⟩
  · rw [List.map_append, List.map_cons, List.map_nil]
    apply linked_append l.mem _ l.this (live.map Prod.fst) l.this s (l.mem l.this).prev_ h1 ht
      hsl hs hnd h3
    · intro a
      simp only [SnapshotList.New, setPrev_next, setNext_next, setPrev_prev, setList_next,
        setNumber_next, setNext_prev, setList_prev, setNumber_prev, reduceIte]
    · intro a
      simp only [SnapshotList.New, setPrev_next, setNext_next, setPrev_prev, setList_next,
        setNumber_next, setNext_prev, setList_prev, setNumber_prev, reduceIte, hst]
  · rw [List.map_append, List.map_cons, List.map_nil]
    refine List.Nodup.append h2 (List.nodup_singleton s) ?_
    intro a ha hsa
    rw [List.mem_singleton] at hsa
    have hsa2 : a = s := hsa
    rw [hsa2] at ha
    exact hfresh ha
  · rw [List.map_append, List.map_cons, List.map_nil]
    simp only [List.mem_append, List.mem_singleton, not_or]
    exact ⟨h3, fun e => hs e.symm⟩
  · intro p hp
    simp only [SnapshotList.New, setPrev_number, setNext_number, setList_number,
      setNumber_number]
    rcases List.mem_append.mp hp with hp | hp
    · have : p.1 ≠ s := fun e => hfresh (e ▸ List.mem_map_of_mem Prod.fst hp)
      simp only [this, reduceIte]
      exact h4 p hp
    · simp only [List.mem_singleton] at hp
      subst hp
      simp

theorem split_live (live : List (Nat × Nat)) (s : Nat) (hm : s ∈ live.map Prod.fst)
    (hnd : (live.map Prod.fst).Nodup) :
    ∃ A B q, live = A ++ (s, q) :: B ∧ s ∉ A.map Prod.fst ∧ s ∉ B.map Prod.fst := by
  obtain ⟨p, hp, hps⟩ := List.mem_map.mp hm
  obtain ⟨A, B, hAB⟩ := List.append_of_mem hp
  refine ⟨A, B, p.2, ?_, ?_, ?_⟩
  · rw [hAB, ← hps]
  · intro hA
    rw [hAB, List.map_append, List.map_cons, hps] at hnd
    have := (List.nodup_append.mp hnd).2.2
    exact this hA (List.mem_cons_self _ _)
  · intro hB
    rw [hAB, List.map_append, List.map_cons, hps] at hnd
    exact (List.nodup_cons.mp (List.nodup_append.mp hnd).2.1).1 hB

theorem filter_split (A B : List (Nat × Nat)) (s q : Nat) (hA : s ∉ A.map Prod.fst)
    (hB : s ∉ B.map Prod.fst) :
    (A ++ (s, q) :: B).filter (fun p => p.1 ≠ s) = A ++ B := by
  have fA : A.filter (fun p => decide (p.1 ≠ s)) = A := by
    rw [List.filter_eq_self]
    intro p hp
    simp only [ne_eq, decide_not, Bool.not_eq_eq_eq_not, Bool.not_true, decide_eq_false_iff_not]
    exact fun e => hA (e ▸ List.mem_map_of_mem Prod.fst hp)
  have fB : B.filter (fun p => decide (p.1 ≠ s)) = B := by
    rw [List.filter_eq_self]
    intro p hp
    simp only [ne_eq, decide_not, Bool.not_eq_eq_eq_not, Bool.not_true, decide_eq_false_iff_not]
    exact fun e => hB (e ▸ List.mem_map_of_mem Prod.fst hp)
  rw [List.filter_append, List.filter_cons, fA, fB]
  simp

theorem Delete_rep (l : SnapshotList) (live : List (Nat × Nat)) (s : Nat)
    (h : Rep l live) (hm : s ∈ live.map Prod.fst) :
    Rep (l.Delete s) (live.filter (fun p => p.1 ≠ s)) := by
  obtain ⟨h1, h2, h3, h4⟩ := h
  obtain ⟨A, B, q, hAB, hA, hB⟩ := split_live live s hm h2
  rw [hAB, filter_split A B s q hA hB]
  rw [hAB, List.map_append, List.map_cons] at h1 h2 h3
  have hsub : (A.map Prod.fst ++ B.map Prod.fst).Sublist
      (A.map Prod.fst ++ s :: B.map Prod.fst) :=
    List.Sublist.append_left (List.sublist_cons_self _ _) _
  refine ⟨?_, ?_, ?_, ?_⟩
  · rw [List.map_append]
    apply linked_unlink l.mem _ l.this (A.map Prod.fst) s (B.map Prod.fst) l.this h1
      (List.nodup_cons.mpr ⟨h3, h2⟩) h3
    · intro a
      simp only [SnapshotList.Delete, setPrev_next, setNext_next]
    · intro a
      simp only [SnapshotList.Delete, setPrev_prev, setNext_next, setNext_prev, ite_self]
  · rw [List.map_append]
    exact h2.sublist hsub
  · rw [List.map_append]
    exact fun hmem => h3 (hsub.subset hmem)
  · intro p hp
    simp only [SnapshotList.Delete, setPrev_number, setNext_number]
    apply h4 p
    rw [hAB]
    rcases List.mem_append.mp hp with hp | hp
    · exact List.mem_append_left _ hp
    · exact List.mem_append_right _ (List.mem_cons_of_mem _ hp)

theorem perform_this (l : SnapshotList) (op : Op) : (perform l op).this = l.this := by
  cases op <;> rfl

theorem runOps_rep (ops : List Op) (l : SnapshotList) (live : List (Nat × Nat))
    (h : Rep l live) (hv : validOps l.this live ops) :
    Rep (runOps l ops) (liveAfter live ops) ∧ (runOps l ops).this = l.this := by
  induction ops generalizing l live with
  | nil => exact ⟨h, rfl⟩
  | cons op rest ih =>
    cases op with
    | New seq fresh =>
      obtain ⟨v1, v2, v3⟩ := hv
      have := ih (perform l (Op.New seq fresh)) (liveStep live (Op.New seq fresh))
        (New_rep l live fresh seq h v1 v2) v3
      exact this
    | Delete s =>
      obtain ⟨v1, v2⟩ := hv
      have := ih (perform l (Op.Delete s)) (liveStep live (Op.Delete s))
        (Delete_rep l live s h v1) v2
      exact this


theorem liveStep_ordered (live : List (Nat × Nat)) (hi : Nat) (op : Op)
    (h : Ordered live hi) :
    (∀ seq fresh, op = Op.New seq fresh → hi ≤ seq → Ordered (liveStep live op) seq) ∧
    (∀ s, op = Op.Delete s → Ordered (liveStep live op) hi) := by
  obtain ⟨h1, h2⟩ := h
  refine ⟨?_, ?_⟩
  · intro seq fresh e hle
    subst e
    refine ⟨?_, ?_⟩
    · simp only [liveStep, List.map_append, List.map_cons, List.map_nil]
      rw [List.pairwise_append]
      refine ⟨h1, List.pairwise_singleton _ _, ?_⟩
      intro a ha b hb
      rw [List.mem_singleton] at hb
      rw [hb]
      exact le_trans (h2 a ha) hle
    · intro q hq
      simp only [liveStep, List.map_append, List.map_cons, List.map_nil, List.mem_append,
        List.mem_singleton] at hq
      rcases hq with hq | hq
      · exact le_trans (h2 q hq) hle
      · rw [hq]
  · intro s e
    subst e
    have hsub : ((live.filter (fun p => p.1 ≠ s)).map Prod.snd).Sublist (live.map Prod.snd) :=
      List.Sublist.map _ (List.filter_sublist _)
    exact ⟨h1.sublist hsub, fun q hq => h2 q (hsub.subset hq)⟩

theorem liveAfter_ordered (ops : List Op) (live : List (Nat × Nat)) (hi : Nat)
    (h : Ordered live hi) (hm : monotoneOps hi ops) :
    ∃ hi2, Ordered (liveAfter live ops) hi2 := by
  induction ops generalizing live hi with
  | nil => exact ⟨hi, h⟩
  | cons op rest ih =>
    cases op with
    | New seq fresh =>
      obtain ⟨m1, m2⟩ := hm
      exact ih _ seq ((liveStep_ordered live hi _ h).1 seq fresh rfl m1) m2
    | Delete s =>
      exact ih _ hi ((liveStep_ordered live hi _ h).2 s rfl) hm

theorem liveAfter_append (a b : List Op) (live : List (Nat × Nat)) :
    liveAfter live (a ++ b) = liveAfter (liveAfter live a) b := by
  induction a generalizing live with
  | nil => rfl
  | cons op rest ih => exact ih _

theorem Rep_empty_iff (l : SnapshotList) (live : List (Nat × Nat)) (h : Rep l live) :
    l.empty = true ↔ live = [] := by
  obtain ⟨h1, _, h3, _⟩ := h
  cases live with
  | nil =>
    simp only [List.map_nil, linked] at h1
    simp [SnapshotList.empty, h1.1]
  | cons p rest =>
    simp only [List.map_cons, linked] at h1
    have hne : p.1 ≠ l.this := fun e => h3 (by simp [e])
    simp [SnapshotList.empty, h1.1, hne]

theorem Rep_oldest (l : SnapshotList) (live : List (Nat × Nat)) (hi : Nat) (h : Rep l live)
    (ho : Ordered live hi) (hne : live ≠ []) :
    (l.oldest, (l.mem l.oldest).number_) ∈ live ∧
    ∀ p ∈ live, (l.mem l.oldest).number_ ≤ p.2 := by
  obtain ⟨h1, _, _, h4⟩ := h
  cases live with
  | nil => exact absurd rfl hne
  | cons p rest =>
    simp only [List.map_cons, linked] at h1
    have hold : l.oldest = p.1 := h1.1
    have hnum : (l.mem p.1).number_ = p.2 := h4 p (List.mem_cons_self _ _)
    rw [hold, hnum]
    refine ⟨List.mem_cons_self _ _, ?_⟩
    intro x hx
    rcases List.mem_cons.mp hx with hx | hx
    · rw [hx]
    · have hp := ho.1
      simp only [List.map_cons, List.pairwise_cons] at hp
      exact hp.1 x.2 (List.mem_map_of_mem Prod.snd hx)

theorem last_map_fst (live : List (Nat × Nat)) (hne : live ≠ [])
    (hm : live.map Prod.fst ≠ []) :
    (live.map Prod.fst).getLast hm = (live.getLast hne).1 := by
  induction live with
  | nil => exact absurd rfl hne
  | cons p rest ih =>
    cases rest with
    | nil => rfl
    | cons r rest2 =>
      simp only [List.map_cons, List.getLast_cons_cons]
      exact ih (List.cons_ne_nil _ _) (List.cons_ne_nil _ _)

theorem Rep_newest (l : SnapshotList) (live : List (Nat × Nat)) (hi : Nat) (h : Rep l live)
    (ho : Ordered live hi) (hne : live ≠ []) :
    (l.newest, (l.mem l.newest).number_) ∈ live ∧
    ∀ p ∈ live, p.2 ≤ (l.mem l.newest).number_ := by
  obtain ⟨h1, _, _, h4⟩ := h
  have hsplit := List.dropLast_append_getLast hne
  have hprev := linked_prev l.mem l.this (live.map Prod.fst) l.this h1
  have hlast : (l.this :: live.map Prod.fst).getLast (List.cons_ne_nil _ _)
      = (live.getLast hne).1 := by
    have hm : live.map Prod.fst ≠ [] := by
      intro e
      exact hne (List.map_eq_nil_iff.mp e)
    rw [List.getLast_cons hm]
    exact last_map_fst live hne hm
  have hnew : l.newest = (live.getLast hne).1 := by
    unfold SnapshotList.newest
    rw [hprev, hlast]
  have hmem : live.getLast hne ∈ live := List.getLast_mem hne
  have hnum : (l.mem (live.getLast hne).1).number_ = (live.getLast hne).2 := h4 _ hmem
  rw [hnew, hnum]
  refine ⟨hmem, ?_⟩
  intro x hx
  have hp := ho.1
  rw [← hsplit, List.map_append, List.pairwise_append] at hp
  rw [← hsplit] at hx
  rcases List.mem_append.mp hx with hx | hx
  · exact hp.2.2 x.2 (List.mem_map_of_mem Prod.snd hx) _ (by simp)
  · rw [List.mem_singleton] at hx
    rw [hx]


/-- C13: for every sequence of `New` and `Delete` operations on a new list in which each `New`
gets a sequence number at least as large as every earlier one (and each `Delete` gets a live
handle), whenever the list is not empty `oldest()` and `newest()` are live snapshots,
`oldest()->number_` is the minimum and `newest()->number_` the maximum of the sequence numbers
of the live snapshots, and `oldest()->number_ <= newest()->number_`. -/
theorem oldest_newest_extremes (this : Nat) (mem : Nat → SnapshotImpl) (ops : List Op)
    (hv : validOps this [] ops) (hm : monotoneOps 0 ops)
    (hne : (runOps (SnapshotList.create this mem) ops).empty = false) :
    ((runOps (SnapshotList.create this mem) ops).oldest,
        ((runOps (SnapshotList.create this mem) ops).mem
          (runOps (SnapshotList.create this mem) ops).oldest).number_) ∈ liveAfter [] ops ∧
    ((runOps (SnapshotList.create this mem) ops).newest,
        ((runOps (SnapshotList.create this mem) ops).mem
          (runOps (SnapshotList.create this mem) ops).newest).number_) ∈ liveAfter [] ops ∧
    (∀ p ∈ liveAfter [] ops,
      ((runOps (SnapshotList.create this mem) ops).mem
        (runOps (SnapshotList.create this mem) ops).oldest).number_ ≤ p.2) ∧
    (∀ p ∈ liveAfter [] ops,
      p.2 ≤ ((runOps (SnapshotList.create this mem) ops).mem
        (runOps (SnapshotList.create this mem) ops).newest).number_) ∧
    ((runOps (SnapshotList.create this mem) ops).mem
        (runOps (SnapshotList.create this mem) ops).oldest).number_
      ≤ ((runOps (SnapshotList.create this mem) ops).mem
        (runOps (SnapshotList.create this mem) ops).newest).number_ := by
  have hrep := (runOps_rep ops (SnapshotList.create this mem) [] (create_rep this mem) hv).1
  obtain ⟨hi, hord⟩ := liveAfter_ordered ops [] 0
    ⟨by simp, by simp⟩ hm
  have hlive : liveAfter [] ops ≠ [] := by
    intro e
    have := (Rep_empty_iff _ _ hrep).mpr e
    rw [hne] at this
    exact Bool.false_ne_true this
  obtain ⟨o1, o2⟩ := Rep_oldest _ _ hi hrep hord hlive
  obtain ⟨n1, n2⟩ := Rep_newest _ _ hi hrep hord hlive
  exact ⟨o1, n1, o2, n2, o2 _ n1⟩

/-- Witness of C13: six operations that leave the snapshots 7 (at address 200) and 9 (at
address 100) live. -/
theorem oldest_newest_extremes_witness :
    validOps 1 [] sampleOps ∧ monotoneOps 0 sampleOps ∧
    (runOps (SnapshotList.create 1 (fun _ => default)) sampleOps).empty = false ∧
    ((runOps (SnapshotList.create 1 (fun _ => default)) sampleOps).mem
        (runOps (SnapshotList.create 1 (fun _ => default)) sampleOps).oldest).number_
      ≤ ((runOps (SnapshotList.create 1 (fun _ => default)) sampleOps).mem
        (runOps (SnapshotList.create 1 (fun _ => default)) sampleOps).newest).number_ :=
  ⟨by decide, by decide, by decide,
    (oldest_newest_extremes 1 (fun _ => default) sampleOps (by decide) (by decide)
      (by decide)).2.2.2.2⟩

/-- C17: for every sequence of `New` and `Delete` operations on a new list, each `Delete`
applied to a live handle, `empty()` is true exactly when no snapshot is live; a new list is
empty, and the list is not empty after a `New`. -/
theorem empty_iff_no_live (this : Nat) (mem : Nat → SnapshotImpl) (ops : List Op)
    (hv : validOps this [] ops) :
    (SnapshotList.create this mem).empty = true ∧
    ((runOps (SnapshotList.create this mem) ops).empty = true ↔ liveAfter [] ops = []) ∧
    (∀ seq fresh, validOps this [] (ops ++ [Op.New seq fresh]) →
      (runOps (SnapshotList.create this mem) (ops ++ [Op.New seq fresh])).empty = false) := by
  refine ⟨(Rep_empty_iff _ _ (create_rep this mem)).mpr rfl, ?_, ?_⟩
  · exact Rep_empty_iff _ _
      (runOps_rep ops (SnapshotList.create this mem) [] (create_rep this mem) hv).1
  · intro seq fresh hv2
    have hrep := (runOps_rep (ops ++ [Op.New seq fresh]) (SnapshotList.create this mem) []
      (create_rep this mem) hv2).1
    have hlive : liveAfter [] (ops ++ [Op.New seq fresh]) ≠ [] := by
      rw [liveAfter_append]
      simp [liveAfter, liveStep]
    cases he : (runOps (SnapshotList.create this mem) (ops ++ [Op.New seq fresh])).empty with
    | false => rfl
    | true => exact absurd ((Rep_empty_iff _ _ hrep).mp he) hlive

/-- Witness of C17: the six operations of `sampleOps`, after which two snapshots are live. -/
theorem empty_iff_no_live_witness :
    validOps 1 [] sampleOps ∧
    ((runOps (SnapshotList.create 1 (fun _ => default)) sampleOps).empty = true ↔
      liveAfter [] sampleOps = []) :=
  ⟨by decide, (empty_iff_no_live 1 (fun _ => default) sampleOps (by decide)).2.1⟩

end snapshot

/-! ### Block builder: the round trip -/

namespace table

theorem toByte_val_lt (v : Nat) (h : v < 256) : (toByte v).val = v := by
  show v % 256 = v
  exact Nat.mod_eq_of_lt h

theorem groups_ne_nil (n v : Nat) : PutVarint32.groups n v ≠ [] := by
  cases n with
  | zero => simp [PutVarint32.groups]
  | succ n =>
    rw [PutVarint32.groups]
    split_ifs <;> simp

theorem groups_length_le (n v : Nat) : (PutVarint32.groups n v).length ≤ n + 1 := by
  induction n generalizing v with
  | zero => simp [PutVarint32.groups]
  | succ n ih =>
    rw [PutVarint32.groups]
    split_ifs
    · simp
    · simp only [List.length_cons]
      have := ih (v / 128)
      omega

theorem PutVarint32_ne_nil (v : Nat) : PutVarint32 v ≠ [] := groups_ne_nil _ _

/-- The encoding of a varint32 has at most 5 bytes. -/
theorem PutVarint32_length_le (v : Nat) : (PutVarint32 v).length ≤ 5 := groups_length_le _ _

theorem groups_round_trip (n v : Nat) (rest : List Byte) (h : v < 128 ^ (n + 1)) :
    GetVarint32.groups (n + 1) (PutVarint32.groups n v ++ rest) = some (v, rest) := by
  induction n generalizing v with
  | zero =>
    have hv : v < 128 := by simpa using h
    simp only [PutVarint32.groups, List.singleton_append, GetVarint32.groups]
    rw [toByte_val_lt v (by omega), if_pos hv]
    rfl
  | succ n ih =>
    rw [PutVarint32.groups]
    by_cases hv : v < 128
    · rw [if_pos hv]
      simp only [List.singleton_append, GetVarint32.groups]
      rw [toByte_val_lt v (by omega), if_pos hv]
      rfl
    · rw [if_neg hv]
      have hdiv : v / 128 < 128 ^ (n + 1) := by
        rw [Nat.div_lt_iff_lt_mul (by omega)]
        rw [pow_succ] at h
        exact h
      simp only [List.cons_append, GetVarint32.groups, List.append_eq]
      rw [toByte_val_lt (v % 128 + 128) (by omega), if_neg (by omega), ih (v / 128) hdiv]
      simp only [Option.some.injEq, Prod.mk.injEq, and_true]
      omega

/-- Decoding a varint32 gives back the number that was encoded, narrowed to 32 bits. -/
theorem GetVarint32_PutVarint32 (v : Nat) (rest : List Byte) :
    GetVarint32 (PutVarint32 v ++ rest) = some (v % 2 ^ 32, rest) := by
  have hlt : v % 2 ^ 32 < 128 ^ (4 + 1) := by
    have := Nat.mod_lt v (show 0 < 2 ^ 32 by norm_num)
    omega
  unfold GetVarint32 PutVarint32
  rw [groups_round_trip 4 (v % 2 ^ 32) rest hlt]
  simp only [Nat.mod_mod]

theorem sharedPrefixLength_take (a b : List Byte) :
    a.take (sharedPrefixLength a b) = b.take (sharedPrefixLength a b) := by
  induction a generalizing b with
  | nil => simp [sharedPrefixLength]
  | cons x xs ih =>
    cases b with
    | nil => simp [sharedPrefixLength]
    | cons y ys =>
      rw [sharedPrefixLength]
      split_ifs with h
      · simp only [List.take_succ_cons, h, ih ys]
      · simp

theorem sharedPrefixLength_le (a b : List Byte) : sharedPrefixLength a b ≤ b.length := by
  induction a generalizing b with
  | nil => simp [sharedPrefixLength]
  | cons x xs ih =>
    cases b with
    | nil => simp [sharedPrefixLength]
    | cons y ys =>
      rw [sharedPrefixLength]
      split_ifs with h
      · simp only [List.length_cons, Nat.add_le_add_iff_right]
        exact ih ys
      · omega

theorem entryBytes_length (shared : Nat) (key value : List Byte) :
    1 ≤ (entryBytes shared key value).length := by
  have h := PutVarint32_ne_nil shared
  cases hp : PutVarint32 shared with
  | nil => exact absurd hp h
  | cons x xs => simp [entryBytes, hp]

/-- What reading one entry gives, in terms of the three numbers as `GetVarint32` returns
them. -/
theorem parseEntries_step (fuel shared : Nat) (prev key value rest : List Byte) :
    parseEntries (fuel + 1) prev (entryBytes shared key value ++ rest)
      = if (key.drop shared ++ (value ++ rest)).length
            < (key.length - shared) % 2 ^ 32 + value.length % 2 ^ 32 then none
        else
          match parseEntries fuel
            (prev.take (shared % 2 ^ 32)
              ++ (key.drop shared ++ (value ++ rest)).take ((key.length - shared) % 2 ^ 32))
            ((key.drop shared ++ (value ++ rest)).drop
              ((key.length - shared) % 2 ^ 32 + value.length % 2 ^ 32)) with
          | none => none
          | some more =>
            some ((prev.take (shared % 2 ^ 32)
                ++ (key.drop shared ++ (value ++ rest)).take ((key.length - shared) % 2 ^ 32),
              ((key.drop shared ++ (value ++ rest)).drop
                ((key.length - shared) % 2 ^ 32)).take (value.length % 2 ^ 32)) :: more) := by
  have h := PutVarint32_ne_nil shared
  have e1 : entryBytes shared key value ++ rest
      = PutVarint32 shared ++ (PutVarint32 (key.length - shared) ++ (PutVarint32 value.length
        ++ (key.drop shared ++ (value ++ rest)))) := by
    simp only [entryBytes, List.append_assoc]
  rw [e1]
  cases hp : PutVarint32 shared with
  | nil => exact absurd hp h
  | cons x xs =>
    rw [List.cons_append, parseEntries, ← List.cons_append, ← hp, GetVarint32_PutVarint32]
    simp only [GetVarint32_PutVarint32]

theorem parseEntries_entry (fuel shared : Nat) (prev key value rest : List Byte)
    (hk : prev.take shared = key.take shared) (hs : shared < 2 ^ 32)
    (hkl : key.length < 2 ^ 32) (hvl : value.length < 2 ^ 32) :
    parseEntries (fuel + 1) prev (entryBytes shared key value ++ rest)
      = (parseEntries fuel key rest).map (fun more => (key, value) :: more) := by
  rw [parseEntries_step, Nat.mod_eq_of_lt hs, Nat.mod_eq_of_lt hvl,
    Nat.mod_eq_of_lt (lt_of_le_of_lt (Nat.sub_le _ _) hkl)]
  have hlen : ¬ (key.drop shared ++ (value ++ rest)).length
      < key.length - shared + value.length := by
    simp only [List.length_append, List.length_drop]
    omega
  rw [if_neg hlen]
  have hdl : (key.drop shared).length = key.length - shared := List.length_drop _ _
  have k1 : (key.drop shared ++ (value ++ rest)).take (key.length - shared)
      = key.drop shared := by
    rw [← hdl, List.take_left]
  have k2 : (key.drop shared ++ (value ++ rest)).drop (key.length - shared)
      = value ++ rest := by
    rw [← hdl, List.drop_left]
  have k3 : (key.drop shared ++ (value ++ rest)).drop (key.length - shared + value.length)
      = rest := by
    rw [← List.drop_drop, k2, List.drop_left]
  have k4 : prev.take shared ++ key.drop shared = key := by
    rw [hk, List.take_append_drop]
  simp only [k1, k2, k3, k4, List.take_left]
  cases parseEntries fuel key rest <;> rfl

/-- The value of the first entry read is no longer than the value length that the varint32
carries. -/
theorem parseEntries_value_length (fuel shared : Nat) (prev key value rest : List Byte)
    (p : List Byte × List Byte) (more : List (List Byte × List Byte))
    (h : parseEntries fuel prev (entryBytes shared key value ++ rest) = some (p :: more)) :
    p.2.length ≤ value.length % 2 ^ 32 := by
  cases fuel with
  | zero =>
    have hne := entryBytes_length shared key value
    cases he : entryBytes shared key value ++ rest with
    | nil =>
      have := congrArg List.length he
      simp only [List.length_append, List.length_nil] at this
      omega
    | cons x xs =>
      rw [he, parseEntries] at h
      exact absurd h (by simp)
  | succ f =>
    rw [parseEntries_step] at h
    split_ifs at h
    split at h
    · exact absurd h (by simp)
    · simp only [Option.some.injEq, List.cons.injEq] at h
      rw [← h.1]
      exact List.length_take_le _ _

theorem append_buffer (b : BlockBuilder) (key value : List Byte) :
    ∃ shared, (b.append key value).buffer_ = b.buffer_ ++ entryBytes shared key value ∧
      b.last_key_.take shared = key.take shared ∧ shared ≤ key.length := by
  by_cases hr : b.counter_ < b.block_restart_interval
  · refine ⟨sharedPrefixLength b.last_key_ key, ?_, sharedPrefixLength_take _ _,
      sharedPrefixLength_le _ _⟩
    simp [BlockBuilder.append, entryBytes, hr]
  · refine ⟨0, ?_, by simp, Nat.zero_le _⟩
    simp [BlockBuilder.append, entryBytes, hr]

theorem Add_some (b b1 : BlockBuilder) (key value : List Byte) (h : b.Add key value = some b1) :
    b1 = b.append key value := by
  unfold BlockBuilder.Add at h
  split_ifs at h
  exact (Option.some.inj h).symm

theorem addAll_cons (b b2 : BlockBuilder) (p : List Byte × List Byte)
    (ps : List (List Byte × List Byte)) (h : b.addAll (p :: ps) = some b2) :
    (b.append p.1 p.2).addAll ps = some b2 := by
  rw [BlockBuilder.addAll] at h
  cases hA : b.Add p.1 p.2 with
  | none => rw [hA] at h; exact absurd h (by simp)
  | some b1 =>
    rw [hA] at h
    rw [← Add_some b b1 p.1 p.2 hA]
    exact h

theorem addAll_parse (pairs : List (List Byte × List Byte)) (b b2 : BlockBuilder)
    (h : b.addAll pairs = some b2)
    (hsize : ∀ p ∈ pairs, p.1.length < 2 ^ 32 ∧ p.2.length < 2 ^ 32) :
    ∃ enc, b2.buffer_ = b.buffer_ ++ enc ∧ pairs.length ≤ enc.length ∧
      ∀ fuel rest, parseEntries (pairs.length + fuel) b.last_key_ (enc ++ rest)
        = (parseEntries fuel b2.last_key_ rest).map (fun more => pairs ++ more) := by
  induction pairs generalizing b with
  | nil =>
    have hb : b2 = b := (Option.some.inj h).symm
    subst hb
    refine ⟨[], by simp, by simp, ?_⟩
    intro fuel rest
    simp only [List.length_nil, Nat.zero_add, List.nil_append]
    cases parseEntries fuel b2.last_key_ rest <;> rfl
  | cons p ps ih =>
    obtain ⟨shared, hb, hk, hsh⟩ := append_buffer b p.1 p.2
    obtain ⟨enc, e1, e2, e3⟩ := ih (b.append p.1 p.2) (addAll_cons b b2 p ps h)
      (fun q hq => hsize q (List.mem_cons_of_mem _ hq))
    have hp := hsize p (List.mem_cons_self _ _)
    have hE := entryBytes_length shared p.1 p.2
    refine ⟨entryBytes shared p.1 p.2 ++ enc, ?_, ?_, ?_⟩
    · rw [e1, hb, List.append_assoc]
    · simp only [List.length_cons, List.length_append]
      omega
    · intro fuel rest
      have hf : (p :: ps).length + fuel = (ps.length + fuel) + 1 := by
        simp only [List.length_cons]
        omega
      rw [hf, List.append_assoc,
        parseEntries_entry _ _ _ _ _ _ hk (lt_of_le_of_lt hsh hp.1) hp.1 hp.2]
      have hl : (b.append p.1 p.2).last_key_ = p.1 := rfl
      have := e3 fuel rest
      rw [hl] at this
      rw [this]
      cases parseEntries fuel b2.last_key_ rest <;> rfl

theorem Compare_lt_gt (a b : List Byte)
    (h : BytewiseComparatorImpl.Compare a b = Ordering.lt) :
    BytewiseComparatorImpl.Compare b a = Ordering.gt := by
  induction a generalizing b with
  | nil =>
    cases b with
    | nil => simp [BytewiseComparatorImpl.Compare] at h
    | cons y ys => rfl
  | cons x xs ih =>
    cases b with
    | nil => simp [BytewiseComparatorImpl.Compare] at h
    | cons y ys =>
      simp only [BytewiseComparatorImpl.Compare] at h ⊢
      by_cases h1 : x.val < y.val
      · rw [if_neg (by omega), if_pos h1]
      · rw [if_neg h1] at h
        by_cases h2 : y.val < x.val
        · rw [if_pos h2] at h
          exact absurd h (by simp)
        · rw [if_neg h2] at h
          rw [if_neg h2, if_neg h1]
          exact ih ys h

theorem addAll_some (pairs : List (List Byte × List Byte)) (b : BlockBuilder)
    (hf : b.finished_ = false)
    (hfirst : ∀ p ∈ pairs.head?, b.buffer_ = [] ∨
      BytewiseComparatorImpl.Compare b.last_key_ p.1 = Ordering.lt)
    (hinc : increasing pairs) : ∃ b2, b.addAll pairs = some b2 := by
  induction pairs generalizing b with
  | nil => exact ⟨b, rfl⟩
  | cons p ps ih =>
    have hA : b.Add p.1 p.2 = some (b.append p.1 p.2) := by
      unfold BlockBuilder.Add
      rw [if_pos]
      refine ⟨hf, ?_⟩
      rcases hfirst p (by simp) with h | h
      · exact Or.inl h
      · exact Or.inr (Compare_lt_gt _ _ h)
    rw [BlockBuilder.addAll, hA]
    refine ih (b.append p.1 p.2) hf ?_ ?_
    · intro q hq
      right
      cases ps with
      | nil => simp at hq
      | cons q2 qs =>
        simp only [List.head?_cons, Option.mem_def, Option.some.injEq] at hq
        subst hq
        unfold increasing at hinc
        rw [List.chain'_cons] at hinc
        exact hinc.1
    · unfold increasing at hinc ⊢
      exact hinc.tail

theorem addAll_restarts_le (pairs : List (List Byte × List Byte)) (b b2 : BlockBuilder)
    (h : b.addAll pairs = some b2) :
    b2.restarts_.length ≤ b.restarts_.length + pairs.length := by
  induction pairs generalizing b with
  | nil =>
    have hb : b2 = b := (Option.some.inj h).symm
    subst hb
    simp
  | cons p ps ih =>
    have h1 := ih (b.append p.1 p.2) (addAll_cons b b2 p ps h)
    have h2 : (b.append p.1 p.2).restarts_.length ≤ b.restarts_.length + 1 := by
      by_cases hr : b.counter_ < b.block_restart_interval <;> simp [BlockBuilder.append, hr]
    simp only [List.length_cons]
    omega

theorem EncodeFixed32_length (v : Nat) : (EncodeFixed32 v).length = 4 := rfl

theorem restartBytes_length (rs : List Nat) :
    ((rs.map EncodeFixed32).flatten).length = 4 * rs.length := by
  induction rs with
  | nil => rfl
  | cons r rs ih =>
    simp only [List.map_cons, List.flatten_cons, List.length_append, EncodeFixed32_length, ih,
      List.length_cons]
    omega

theorem Finish_length (b : BlockBuilder) :
    b.Finish.2.length = b.buffer_.length + 4 * b.restarts_.length + 4 := by
  simp only [BlockBuilder.Finish, List.length_append, restartBytes_length, EncodeFixed32_length]

/-- What `readEntries` does with the block that `Finish` returns when it is told `num`
restart points. -/
theorem readEntries_Finish (b : BlockBuilder) (num : Nat) (hle : num ≤ b.restarts_.length) :
    readEntries num b.Finish.2
      = parseEntries (b.buffer_.length + 4 * (b.restarts_.length - num))
          [] (b.buffer_ ++ ((b.restarts_.map EncodeFixed32).flatten).take
            (4 * (b.restarts_.length - num))) := by
  have hR := restartBytes_length b.restarts_
  have hlen := Finish_length b
  unfold readEntries
  simp only []
  rw [if_neg (by omega)]
  have htake : b.Finish.2.take (b.Finish.2.length - 4 * (num + 1))
      = b.buffer_ ++ ((b.restarts_.map EncodeFixed32).flatten).take
          (4 * (b.restarts_.length - num)) := by
    have h1 : b.Finish.2.length - 4 * (num + 1)
        = b.buffer_.length + 4 * (b.restarts_.length - num) := by
      rw [hlen]
      omega
    rw [h1]
    simp only [BlockBuilder.Finish, List.append_assoc]
    rw [List.take_append, List.take_append_of_le_length (by rw [hR]; omega)]
  rw [htake]
  congr 1
  rw [List.length_append, List.length_take, hR]
  omega

/-- The block that `Finish` returns ends with the number of restart points. -/
theorem parseBlock_Finish (k : Bool) (b : BlockBuilder) :
    parseBlock k b.Finish.2
      = readEntries (DecodeFixed32 k (EncodeFixed32 b.restarts_.length)) b.Finish.2 := by
  have hR := restartBytes_length b.restarts_
  have hlen := Finish_length b
  have hdrop : b.Finish.2.drop (b.Finish.2.length - 4) = EncodeFixed32 b.restarts_.length := by
    have : b.Finish.2.length - 4
        = (b.buffer_ ++ (b.restarts_.map EncodeFixed32).flatten).length := by
      rw [hlen, List.length_append, hR]
      omega
    rw [this]
    exact List.drop_left _ _
  unfold parseBlock
  rw [if_neg (by omega), hdrop]

theorem readEntries_addAll (K : Nat) (pairs : List (List Byte × List Byte)) (b : BlockBuilder)
    (hb : (BlockBuilder.create K).addAll pairs = some b)
    (hsize : ∀ p ∈ pairs, p.1.length < 2 ^ 32 ∧ p.2.length < 2 ^ 32) :
    readEntries b.restarts_.length b.Finish.2 = some pairs := by
  rw [readEntries_Finish b _ (le_refl _)]
  obtain ⟨enc, e1, e2, e3⟩ := addAll_parse pairs _ b hb hsize
  have e1 : b.buffer_ = enc := e1
  have e3 : ∀ fuel rest, parseEntries (pairs.length + fuel) [] (enc ++ rest)
      = (parseEntries fuel b.last_key_ rest).map (fun more => pairs ++ more) := e3
  rw [e1]
  simp only [Nat.sub_self, Nat.mul_zero, Nat.add_zero, List.take_zero]
  have hf : enc.length = pairs.length + (enc.length - pairs.length) := by omega
  rw [hf, e3 _ []]
  simp [parseEntries]

theorem parseEntries_ne_nil (fuel : Nat) (prev input : List Byte) (h : input ≠ []) :
    parseEntries fuel prev input ≠ some [] := by
  cases input with
  | nil => exact absurd rfl h
  | cons x xs =>
    cases fuel with
    | zero => simp [parseEntries]
    | succ f =>
      rw [parseEntries]
      rcases GetVarint32 (x :: xs) with _ | ⟨s1, r1⟩
      · simp
      · dsimp only
        rcases GetVarint32 r1 with _ | ⟨s2, r2⟩
        · simp
        · dsimp only
          rcases GetVarint32 r2 with _ | ⟨s3, r3⟩
          · simp
          · dsimp only
            split_ifs
            · simp
            · rcases parseEntries f (List.take s1 prev ++ List.take s2 r3)
                (List.drop (s2 + s3) r3) with _ | more <;> simp

theorem addAll_restarts_one (pairs : List (List Byte × List Byte)) (b b2 : BlockBuilder)
    (hK : b.block_restart_interval = 1) (hc : b.counter_ = 1) (h : b.addAll pairs = some b2) :
    b2.restarts_.length = b.restarts_.length + pairs.length := by
  induction pairs generalizing b with
  | nil =>
    have hb : b2 = b := (Option.some.inj h).symm
    subst hb
    rfl
  | cons p ps ih =>
    have h1 : (b.append p.1 p.2).restarts_.length = b.restarts_.length + 1 := by
      simp [BlockBuilder.append, hK, hc]
    have h2 : (b.append p.1 p.2).counter_ = 1 := by
      simp [BlockBuilder.append, hK, hc]
    have h3 : (b.append p.1 p.2).block_restart_interval = 1 := hK
    rw [ih (b.append p.1 p.2) h3 h2 (addAll_cons b b2 p ps h), h1, List.length_cons]
    omega

theorem create_one_restarts (pairs : List (List Byte × List Byte)) (b : BlockBuilder)
    (h : pairs ≠ []) (hb : (BlockBuilder.create 1).addAll pairs = some b) :
    b.restarts_.length = pairs.length := by
  cases pairs with
  | nil => exact absurd rfl h
  | cons p ps =>
    rw [addAll_restarts_one ps _ b rfl (by simp [BlockBuilder.append, BlockBuilder.create])
      (addAll_cons _ b p ps hb)]
    simp [BlockBuilder.append, BlockBuilder.create]
    omega

/-- With a restart point at every entry and a number of entries that the four bytes of the
count read back as 0, reading the block from its bytes alone does not give the pairs. -/
theorem parseBlock_count_wraps (k : Bool) (pairs : List (List Byte × List Byte))
    (b : BlockBuilder) (h : pairs ≠ []) (hb : (BlockBuilder.create 1).addAll pairs = some b)
    (hsize : ∀ p ∈ pairs, p.1.length < 2 ^ 32 ∧ p.2.length < 2 ^ 32)
    (hnum : DecodeFixed32 k (EncodeFixed32 pairs.length) = 0) :
    parseBlock k b.Finish.2 ≠ some pairs := by
  have hcount := create_one_restarts pairs b h hb
  have hpos : 0 < pairs.length := List.length_pos.mpr h
  rw [parseBlock_Finish, hcount, hnum, readEntries_Finish b 0 (Nat.zero_le _)]
  obtain ⟨enc, e1, e2, e3⟩ := addAll_parse pairs _ b hb hsize
  have e1 : b.buffer_ = enc := e1
  have e3 : ∀ fuel rest, parseEntries (pairs.length + fuel) [] (enc ++ rest)
      = (parseEntries fuel b.last_key_ rest).map (fun more => pairs ++ more) := e3
  rw [e1, hcount, Nat.sub_zero]
  have hf : enc.length + 4 * pairs.length
      = pairs.length + (enc.length + 4 * pairs.length - pairs.length) := by omega
  rw [hf, e3]
  have hR : ((b.restarts_.map EncodeFixed32).flatten).take (4 * pairs.length) ≠ [] := by
    intro e
    have := congrArg List.length e
    rw [List.length_take, restartBytes_length, hcount] at this
    simp only [List.length_nil] at this
    omega
  intro hsome
  cases hp : parseEntries (enc.length + 4 * pairs.length - pairs.length) b.last_key_
      (((b.restarts_.map EncodeFixed32).flatten).take (4 * pairs.length)) with
  | none => rw [hp] at hsome; simp at hsome
  | some more =>
    rw [hp] at hsome
    simp only [Option.map_some', Option.some.injEq, List.append_right_eq_self] at hsome
    rw [hsome] at hp
    exact parseEntries_ne_nil _ _ _ hR hp

theorem Compare_replicate (i j : Nat) (h : i < j) :
    BytewiseComparatorImpl.Compare (List.replicate i (0 : Byte)) (List.replicate j 0)
      = Ordering.lt := by
  induction i generalizing j with
  | zero =>
    cases j with
    | zero => omega
    | succ j => rfl
  | succ i ih =>
    cases j with
    | zero => omega
    | succ j =>
      simp only [List.replicate_succ, BytewiseComparatorImpl.Compare, lt_self_iff_false,
        reduceIte]
      exact ih j (by omega)

theorem growingPairs_increasing (n : Nat) : increasing (growingPairs n) := by
  unfold increasing growingPairs
  apply List.Pairwise.chain'
  rw [List.pairwise_map]
  exact (List.pairwise_lt_range n).imp (fun h => Compare_replicate _ _ h)

theorem growingPairs_length (n : Nat) : (growingPairs n).length = n := by
  simp [growingPairs]

theorem growingPairs_sizes (n : Nat) :
    ∀ p ∈ growingPairs n, p.1.length < n ∧ p.2.length < 2 ^ 32 := by
  intro p hp
  unfold growingPairs at hp
  rw [List.mem_map] at hp
  obtain ⟨i, hi, rfl⟩ := hp
  rw [List.mem_range] at hi
  refine ⟨?_, by norm_num⟩
  rw [List.length_replicate]
  exact hi

theorem create_addAll_some (K : Nat) (pairs : List (List Byte × List Byte))
    (hinc : increasing pairs) : ∃ b, (BlockBuilder.create K).addAll pairs = some b :=
  addAll_some pairs _ rfl (fun _ _ => Or.inl rfl) hinc

/-- With a restart point at every entry, 2^32 entries give a block whose count of restart
points reads back as 0: read from its bytes alone, the block does not give the pairs. -/
theorem parseBlock_growingPairs (k : Bool) :
    ∃ b, (BlockBuilder.create 1).addAll (growingPairs (2 ^ 32)) = some b ∧
      parseBlock k b.Finish.2 ≠ some (growingPairs (2 ^ 32)) := by
  obtain ⟨b, hb⟩ := create_addAll_some 1 _ (growingPairs_increasing (2 ^ 32))
  refine ⟨b, hb, parseBlock_count_wraps k _ b ?_ hb (growingPairs_sizes (2 ^ 32)) ?_⟩
  · intro e
    have := congrArg List.length e
    rw [growingPairs_length] at this
    exact absurd this (by decide)
  · rw [growingPairs_length]
    cases k <;> rfl

theorem longValue_length : longValue.length = 2 ^ 32 := List.length_replicate _ _

/-- A block with a single entry whose value has 2^32 bytes or more: the varint32 of the
value length carries only the low 32 bits, and the entries do not read back as the pair. -/
theorem readEntries_long_value (K : Nat) (key value : List Byte) (b : BlockBuilder)
    (hb : (BlockBuilder.create K).addAll [(key, value)] = some b)
    (hv : 2 ^ 32 ≤ value.length) :
    readEntries b.restarts_.length b.Finish.2 ≠ some [(key, value)] := by
  have hb2 := addAll_cons _ b (key, value) [] hb
  have hbe : b = (BlockBuilder.create K).append key value := (Option.some.inj hb2).symm
  obtain ⟨shared, hbuf, _, _⟩ := append_buffer (BlockBuilder.create K) key value
  have hbuf2 : b.buffer_ = entryBytes shared key value ++ [] := by
    rw [hbe, hbuf, List.append_nil]
    rfl
  rw [readEntries_Finish b _ (le_refl _)]
  simp only [Nat.sub_self, Nat.mul_zero, Nat.add_zero, List.take_zero, List.append_nil]
  intro h
  rw [hbuf2] at h
  have hlen := parseEntries_value_length _ shared [] key value [] (key, value) [] h
  have hmod := Nat.mod_lt value.length (show 0 < 2 ^ 32 by norm_num)
  have hlen2 : value.length ≤ value.length % 2 ^ 32 := hlen
  omega

/-- C19, as stated, fails: the single pair with the empty key and a value of 2^32 zero bytes
is added and `Finish` returns a block, with restart interval 16, but neither the entries of
the block nor the block read from its bytes alone give back the pair, because the varint32
of the value length carries 0. -/
theorem Add_Finish_round_trip_counterexample :
    increasing [([], longValue)] ∧
      ∃ b, (BlockBuilder.create 16).addAll [([], longValue)] = some b ∧
        readEntries b.restarts_.length b.Finish.2 ≠ some [([], longValue)] ∧
        parseBlock false b.Finish.2 ≠ some [([], longValue)] ∧
        parseBlock true b.Finish.2 ≠ some [([], longValue)] := by
  have hinc : increasing [(([] : List Byte), longValue)] := List.chain'_singleton _
  obtain ⟨b, hb⟩ := create_addAll_some 16 _ hinc
  have h1 := readEntries_long_value 16 [] longValue b hb (le_of_eq longValue_length.symm)
  have hle := addAll_restarts_le _ _ b hb
  have hcount : b.restarts_.length < 2 ^ 32 := by
    have h2 : b.restarts_.length ≤ 1 + 1 := hle
    omega
  refine ⟨hinc, b, hb, h1, ?_, ?_⟩
  · rw [parseBlock_Finish, DecodeFixed32_EncodeFixed32 false _ hcount]
    exact h1
  · rw [parseBlock_Finish, DecodeFixed32_EncodeFixed32 true _ hcount]
    exact h1

/-- C19, amended: for every sequence of pairs whose keys are strictly increasing and whose
keys and values are each shorter than 2^32 bytes, adding the pairs in order succeeds, and
reading the entries of the block that `Finish` returns with the shared-prefix encoding gives
exactly the pairs, in order; when the number of restart points is below 2^32, so does
reading the block from its bytes alone, where the number of restart points is taken from the
last four bytes. -/
theorem Add_Finish_round_trip (kLittleEndian : Bool) (block_restart_interval : Nat)
    (pairs : List (List Byte × List Byte)) (hinc : increasing pairs)
    (hsize : ∀ p ∈ pairs, p.1.length < 2 ^ 32 ∧ p.2.length < 2 ^ 32) :
    ∃ b, (BlockBuilder.create block_restart_interval).addAll pairs = some b ∧
      readEntries b.restarts_.length b.Finish.2 = some pairs ∧
      (b.restarts_.length < 2 ^ 32 → parseBlock kLittleEndian b.Finish.2 = some pairs) := by
  obtain ⟨b, hb⟩ := create_addAll_some block_restart_interval pairs hinc
  have h1 := readEntries_addAll block_restart_interval pairs b hb hsize
  refine ⟨b, hb, h1, ?_⟩
  intro hcount
  rw [parseBlock_Finish, DecodeFixed32_EncodeFixed32 kLittleEndian _ hcount]
  exact h1

theorem Add_Finish_round_trip_witness :
    increasing samplePairs ∧
      (∀ p ∈ samplePairs, p.1.length < 2 ^ 32 ∧ p.2.length < 2 ^ 32) ∧
      ∃ b, (BlockBuilder.create 2).addAll samplePairs = some b ∧
        readEntries b.restarts_.length b.Finish.2 = some samplePairs ∧
        parseBlock false b.Finish.2 = some samplePairs := by
  have hinc : increasing samplePairs := by
    unfold increasing samplePairs
    simp only [List.chain'_cons, List.chain'_singleton, and_true]
    decide
  have hsize : ∀ p ∈ samplePairs, p.1.length < 2 ^ 32 ∧ p.2.length < 2 ^ 32 := by
    unfold samplePairs
    decide
  obtain ⟨b, hb, h1, h2⟩ := Add_Finish_round_trip false 2 samplePairs hinc hsize
  have hle := addAll_restarts_le samplePairs _ b hb
  have hlen : b.restarts_.length < 2 ^ 32 := by
    have h5 : b.restarts_.length ≤ 1 + 4 := hle
    omega
  exact ⟨hinc, hsize, b, hb, h1, h2 hlen⟩

end table

/-! ### Log writer: termination and the number of physical records -/

namespace log

theorem switchBlock_block_offset_le (w : Writer) : (switchBlock w).block_offset_ ≤ 32761 := by
  rw [switchBlock_block_offset]
  split_ifs <;> omega

theorem fragmentLength_eq (w : Writer) (left : Nat) :
    fragmentLength (switchBlock w) left
      = if left < 32761 - (switchBlock w).block_offset_ then left
        else 32761 - (switchBlock w).block_offset_ := by
  have h := switchBlock_block_offset_le w
  simp only [fragmentLength, kBlockSize, kHeaderSize]
  split_ifs <;> push_cast at * <;> omega

theorem loop_block_offset_le (crc : Crc32c) (w : Writer) (ptr : List Byte) ( begin : Bool) :
    (AddRecord.loop crc w ptr begin).2.1.block_offset_ ≤ 32768 := by
  induction w, ptr, begin using AddRecord.loop.induct crc with
  | case1 w ptr begin r fl hc ih =>
    rw [AddRecord.loop, if_pos hc]
    exact ih
  | case2 w ptr begin r fl hc =>
    rw [AddRecord.loop, if_neg hc]
    show (iteration crc w ptr begin).2.block_offset_ ≤ 32768
    rw [iteration_block_offset]
    exact fragmentLength_fits w ptr.length

/-- The number of physical records emitted by the loop: one, and one more for every 32761
bytes, or part of them, that do not fit in the current block. -/
theorem loop_length_le (crc : Crc32c) (w : Writer) (ptr : List Byte) ( begin : Bool) :
    (AddRecord.loop crc w ptr begin).2.2.length
      ≤ 1 + (ptr.length - (32761 - (switchBlock w).block_offset_) + 32760) / 32761 := by
  induction w, ptr, begin using AddRecord.loop.induct crc with
  | case1 w ptr begin r fl hc ih =>
    rw [AddRecord.loop, if_pos hc]
    have ho := switchBlock_block_offset_le w
    have hfl : fl = if ptr.length < 32761 - (switchBlock w).block_offset_ then ptr.length
        else 32761 - (switchBlock w).block_offset_ := fragmentLength_eq w ptr.length
    have hpos : 0 < ptr.length - fl := hc.2
    have hfl2 : fl = 32761 - (switchBlock w).block_offset_ := by
      rw [hfl] at hpos ⊢
      split_ifs at hpos ⊢ <;> omega
    have hoff : r.2.block_offset_ = 32768 := by
      show (iteration crc w ptr begin).2.block_offset_ = 32768
      rw [iteration_block_offset]
      have : fragmentLength (switchBlock w) ptr.length = fl := rfl
      rw [this, hfl2]
      omega
    have hsw : (switchBlock r.2).block_offset_ = 0 := by
      rw [switchBlock_block_offset, hoff]
      rfl
    rw [hsw, List.length_drop] at ih
    have ih2 : (AddRecord.loop crc (iteration crc w ptr begin).2
        (ptr.drop (fragmentLength (switchBlock w) ptr.length)) false).2.2.length
        ≤ 1 + (ptr.length - fl - (32761 - 0) + 32760) / 32761 := ih
    simp only [List.length_cons]
    rw [← hfl2]
    omega
  | case2 w ptr begin r fl hc =>
    rw [AddRecord.loop, if_neg hc]
    simp only [List.length_cons, List.length_nil]
    omega

theorem run_eq_loop (crc : Crc32c) (w : Writer) (ptr : List Byte) ( begin : Bool) (fuel : Nat)
    (h : (AddRecord.loop crc w ptr begin).2.2.length ≤ fuel) :
    AddRecord.run crc fuel w ptr begin = some (AddRecord.loop crc w ptr begin) := by
  induction w, ptr, begin using AddRecord.loop.induct crc generalizing fuel with
  | case1 w ptr begin r fl hc ih =>
    rw [AddRecord.loop, if_pos hc] at h ⊢
    cases fuel with
    | zero => simp at h
    | succ f =>
      simp only [List.length_cons, Nat.add_le_add_iff_right] at h
      rw [AddRecord.run, if_pos hc, ih f h]
  | case2 w ptr begin r fl hc =>
    rw [AddRecord.loop, if_neg hc] at h ⊢
    cases fuel with
    | zero => simp at h
    | succ f => rw [AddRecord.run, if_neg hc]

/-- With a sink that succeeds the loop emits exactly one record, and one more for every 32761
bytes, or part of them, that do not fit in the current block. -/
theorem loop_length_eq (crc : Crc32c) (w : Writer) (ptr : List Byte) ( begin : Bool)
    (h : healthy w.dest_) :
    (AddRecord.loop crc w ptr begin).2.2.length
      = 1 + (ptr.length - (32761 - (switchBlock w).block_offset_) + 32760) / 32761 := by
  induction w, ptr, begin using AddRecord.loop.induct crc with
  | case1 w ptr begin r fl hc ih =>
    rw [AddRecord.loop, if_pos hc]
    have ho := switchBlock_block_offset_le w
    have hfl : fl = if ptr.length < 32761 - (switchBlock w).block_offset_ then ptr.length
        else 32761 - (switchBlock w).block_offset_ := fragmentLength_eq w ptr.length
    have hpos : 0 < ptr.length - fl := hc.2
    have hfl2 : fl = 32761 - (switchBlock w).block_offset_ := by
      rw [hfl] at hpos ⊢
      split_ifs at hpos ⊢ <;> omega
    have hoff : r.2.block_offset_ = 32768 := by
      show (iteration crc w ptr begin).2.block_offset_ = 32768
      rw [iteration_block_offset]
      have : fragmentLength (switchBlock w) ptr.length = fl := rfl
      rw [this, hfl2]
      omega
    have hsw : (switchBlock r.2).block_offset_ = 0 := by
      rw [switchBlock_block_offset, hoff]
      rfl
    have ih1 := ih (iteration_healthy crc w ptr begin h)
    rw [hsw, List.length_drop] at ih1
    have ih2 : (AddRecord.loop crc (iteration crc w ptr begin).2
        (ptr.drop (fragmentLength (switchBlock w) ptr.length)) false).2.2.length
        = 1 + (ptr.length - fl - (32761 - 0) + 32760) / 32761 := ih1
    simp only [List.length_cons]
    rw [← hfl2]
    omega
  | case2 w ptr begin r fl hc =>
    rw [AddRecord.loop, if_neg hc]
    have hfl : fl = if ptr.length < 32761 - (switchBlock w).block_offset_ then ptr.length
        else 32761 - (switchBlock w).block_offset_ := fragmentLength_eq w ptr.length
    have hok : r.1.ok = true := by
      show (iteration crc w ptr begin).1.ok = true
      rw [iteration_ok _ _ _ _ h]; rfl
    have hle : ptr.length ≤ fl := by
      by_contra hne
      exact hc ⟨hok, by omega⟩
    have hz : ptr.length - (32761 - (switchBlock w).block_offset_) = 0 := by
      rw [hfl] at hle
      split_ifs at hle <;> omega
    rw [hz]
    rfl

/-- When exactly 7 bytes are left in the block, a record that is not empty starts with a
fragment of type FIRST with no payload; with a sink that succeeds the number of physical
records is then ceil(L / 32761) + 1. -/
theorem AddRecord_seven_bytes_left (crc : Crc32c) (w : Writer) (slice : List Byte)
    (hoff : w.block_offset_ = 32761) (hne : slice ≠ []) (h : healthy w.dest_) :
    ∃ e rest, (AddRecord crc w slice).2.2 = e :: rest ∧ e.t = RecordType.kFirstType ∧
      e.payload = [] ∧ e.block_offset = 32761 ∧
      (AddRecord crc w slice).2.2.length = (slice.length + 32760) / 32761 + 1 := by
  have hsw : (switchBlock w).block_offset_ = 32761 := by
    rw [switchBlock_block_offset, hoff]
    rfl
  have hfl : fragmentLength (switchBlock w) slice.length = 0 := by
    rw [fragmentLength_eq, hsw]
    simp
  have hpos : 0 < slice.length := List.length_pos.mpr hne
  obtain ⟨rest, hrest⟩ := loop_first_emission crc w slice true
  refine ⟨iterationEmission crc w slice true, rest, hrest, ?_, ?_, hsw, ?_⟩
  · have hb : (slice.length == 0) = false := by
      rw [beq_eq_false_iff_ne]
      omega
    simp only [iterationEmission, hfl, chooseType, hb]
    rfl
  · simp only [iterationEmission, hfl, List.take_zero]
  · have := loop_length_eq crc w slice true h
    rw [hsw] at this
    show (AddRecord.loop crc w slice true).2.2.length = _
    rw [this]
    omega

/-- C21: `AddRecord` returns for every record, of length L, and every starting block offset,
those in [0, 32768] among them: its loop, run with a budget of ceil(L / 32761) + 1
iterations, ends within the budget with the result of `AddRecord`. So at most
ceil(L / 32761) + 1 physical records are emitted, a fragment with no payload (exactly 7
bytes left in the block) being one of them, and on return the block offset is in
[0, 32768], whether the writes succeeded or not. -/
theorem AddRecord_terminates (crc : Crc32c) (w : Writer) (slice : List Byte) :
    AddRecord.run crc ((slice.length + 32760) / 32761 + 1) w slice true
        = some (AddRecord crc w slice) ∧
      (AddRecord crc w slice).2.2.length ≤ (slice.length + 32760) / 32761 + 1 ∧
      (AddRecord crc w slice).2.1.block_offset_ ≤ kBlockSize := by
  have hlen : (AddRecord.loop crc w slice true).2.2.length
      ≤ (slice.length + 32760) / 32761 + 1 := by
    have := loop_length_le crc w slice true
    omega
  exact ⟨run_eq_loop crc w slice true _ hlen, hlen, loop_block_offset_le crc w slice true⟩

theorem AddRecord_terminates_witness :
    AddRecord.run sumCrc 2 (writerAt sumCrc 32761) [1] true
        = some (AddRecord sumCrc (writerAt sumCrc 32761) [1]) ∧
      (AddRecord sumCrc (writerAt sumCrc 32761) [1]).2.2.length = 2 ∧
      (AddRecord sumCrc (writerAt sumCrc 32761) [1]).2.1.block_offset_ ≤ kBlockSize := by
  obtain ⟨h1, _, h3⟩ := AddRecord_terminates sumCrc (writerAt sumCrc 32761) [1]
  obtain ⟨_, _, _, _, _, _, h5⟩ := AddRecord_seven_bytes_left sumCrc (writerAt sumCrc 32761) [1]
    rfl (by simp) (fun _ _ => rfl)
  exact ⟨h1, h5, h3⟩

end log

end leveldb
